import Mathlib

/-!
# Huffman encoder/decoder (`Huffman.h`, `Huffman.cpp`)

A shallow embedding of the class `Encoding::Huffman` and a verification of
its container format, tree construction and encode/decode paths.

Modelling conventions.

* A `HuffNode *` is a value of the inductive type `HuffNode`: either `null`
  or a node with its fields.  The `parent` field is not stored; the
  leaf-to-root walk of the encoder is computed from the root downwards.
* C++ undefined behaviour (a read outside a `std::vector`, a dereference of
  `NULL`) and a failed `assert` are results of their own: every operation
  returns `Except Fault _`, and `Except.error` is never a "returned false".
* A `Size` (`size_t`) is a `Nat`, kept below `2 ^ (8 * W)` by the operations
  and little-endian in memory, where `W = sizeof(Size)`.
* What the standard library leaves open is a parameter, gathered in
  `Platform`: `W`, the iteration order of the hash map, and the three heap
  algorithms.  `Platform.Lawful` states what the C++ standard promises.
* A hash map is its contents together with the order in which its keys were
  inserted: the order of iteration is a function of that order (a table that
  `clear()` has emptied counts as a new one), so two tables with the same
  contents need not iterate alike.
* The release build is modelled: the table-size guard under `#ifndef _DEBUG`
  is active.  Whether `assert` is compiled (`NDEBUG`) is a parameter too.
-/

namespace Encoding
namespace Huffman

/-! ## Data model -/

/-- The type `byte` of the source: `unsigned char`. -/
abbrev Byte := Fin 256

/-- The type `Buffer` of the source: `std::vector<byte>`. -/
abbrev Buffer := List Byte

/-- Ways in which a run leaves defined behaviour. -/
inductive Fault
  | outOfBounds
  | nullDeref
  | assertFailed
  | outOfFuel
deriving DecidableEq

/-- A value of type `HuffNode *`: `NULL`, or a node with the fields `theByte`, `count`,
`left`, `right` and `bContainsData` (the `parent` link is derived from the root). -/
inductive HuffNode
  | null
  | node (theByte : Byte) (count : Nat) (left right : HuffNode) (bContainsData : Bool)
deriving DecidableEq

/-- The pair type `FrequencyAndHuffNode`: heap key and node. -/
abbrev FrequencyAndHuffNode := Nat × HuffNode

/-- The map type `FrequencyTable`: a hash map from byte values to counts, as the count held
for each key and the keys in the order of their insertion. -/
structure FrequencyTable where
  /-- The count held for a key, `none` for a key that is absent. -/
  count : Byte → Option Nat
  /-- The keys, in the order of their insertion. -/
  inserted : List Byte
  /-- A key is inserted once. -/
  nodup : inserted.Nodup
  /-- The keys inserted are the keys that hold a count. -/
  mem_inserted : ∀ b, b ∈ inserted ↔ (count b).isSome = true

/-- A table applied to a byte is the count it holds for it. -/
instance FrequencyTable.instCoeFun : CoeFun FrequencyTable (fun _ => Byte → Option Nat) :=
  ⟨FrequencyTable.count⟩

/-- The map type `LeafNodeTable`: byte value to leaf pointer, `NULL` when absent. -/
abbrev LeafNodeTable := Byte → HuffNode

/-- The comparator `HuffCompare::operator()`. -/
def HuffCompare (n1 n2 : FrequencyAndHuffNode) : Bool := decide (n1.1 > n2.1)

/-- What the build depends on and the source does not fix. -/
structure Platform where
  /-- The value of `sizeof(Size)`. -/
  W : Nat
  /-- Whether `NDEBUG` is defined, which turns `assert` into nothing. -/
  NDEBUG : Bool
  /-- The order in which the hash map is iterated, given its keys in the order of their
  insertion. -/
  iterOrder : List Byte → List Byte
  /-- The algorithm `std::make_heap` with `HuffCompare`. -/
  make_heap : List FrequencyAndHuffNode → List FrequencyAndHuffNode
  /-- The algorithm `std::pop_heap` with `HuffCompare`. -/
  pop_heap : List FrequencyAndHuffNode → List FrequencyAndHuffNode
  /-- The algorithm `std::push_heap` with `HuffCompare`. -/
  push_heap : List FrequencyAndHuffNode → List FrequencyAndHuffNode

/-- The heap property of the C++ standard for a range, with `HuffCompare`:
no element compares greater than its parent, so the first element has the least key. -/
def is_heap (v : List FrequencyAndHuffNode) : Prop :=
  ∀ i x y, 0 < i → v[(i - 1) / 2]? = some x → v[i]? = some y → HuffCompare x y = false

/-- The guarantees of the C++ standard library that the proofs use. -/
structure Platform.Lawful (P : Platform) : Prop where
  /-- A `Size` has at least two bytes (so a table size up to 256 fits). -/
  word : 2 ≤ P.W
  /-- Iteration visits every key once. -/
  iter_perm : ∀ ks, (P.iterOrder ks).Perm ks
  /-- The algorithm `make_heap` rearranges the range. -/
  make_perm : ∀ v, (P.make_heap v).Perm v
  /-- The algorithm `make_heap` leaves a heap. -/
  make_is_heap : ∀ v, is_heap (P.make_heap v)
  /-- On a non-empty heap `pop_heap` rearranges the range. -/
  pop_perm : ∀ v, v ≠ [] → is_heap v → (P.pop_heap v).Perm v
  /-- On a non-empty heap `pop_heap` moves the first element to the last position. -/
  pop_last : ∀ v, v ≠ [] → is_heap v → (P.pop_heap v).getLast? = v.head?
  /-- On a non-empty heap `pop_heap` leaves a heap in front of the last position. -/
  pop_is_heap : ∀ v, v ≠ [] → is_heap v → is_heap (P.pop_heap v).dropLast
  /-- On a heap followed by one element `push_heap` rearranges the range. -/
  push_perm : ∀ v, is_heap v.dropLast → (P.push_heap v).Perm v
  /-- On a heap followed by one element `push_heap` leaves a heap. -/
  push_is_heap : ∀ v, is_heap v.dropLast → is_heap (P.push_heap v)

/-- Arithmetic in `Size` wraps at `2 ^ (8 * W)`. -/
def wrap (P : Platform) (n : Nat) : Nat := n % 2 ^ (8 * P.W)

/-! ## Bytes, words and bit sets -/

/-- The first `k` bytes of the little-endian object representation of `n`. -/
def leBytes : Nat → Nat → Buffer
  | 0, _ => []
  | k + 1, n => Fin.ofNat (n % 256) :: leBytes k (n / 256)

/-- The number whose little-endian representation is the given bytes. -/
def leValue : Buffer → Nat
  | [] => 0
  | b :: bs => b.val + 256 * leValue bs

/-- The bytes `((byte *) &n)[0 .. sizeof(Size) - 1]` of a `Size`. -/
def sizeBytes (P : Platform) (n : Nat) : Buffer := leBytes P.W n

/-- The element access `buffer[i]`, which is undefined outside the vector. -/
def readByte (buffer : Buffer) (i : Nat) : Except Fault Byte :=
  match buffer[i]? with
  | some b => .ok b
  | none => .error .outOfBounds

/-- The call `memcpy(&n, &buffer[pos], sizeof(Size))`, undefined when the
`sizeof(Size)` bytes from `pos` are not all inside the vector. -/
def readSize (P : Platform) (buffer : Buffer) (pos : Nat) : Except Fault Nat :=
  if pos + P.W ≤ buffer.length then .ok (leValue ((buffer.drop pos).take P.W))
  else .error .outOfBounds

/-- A `std::bitset<CHAR_BIT>`: eight bits, position 0 (the least significant) first. -/
abbrev Bitset := List Bool

/-- A default-constructed bit set, and the effect of `reset()`. -/
def Bitset.zero : Bitset := List.replicate 8 false

/-- The first `k` bits of `n`, least significant first. -/
def bitsOfNat : Nat → Nat → List Bool
  | 0, _ => []
  | k + 1, n => decide (n % 2 = 1) :: bitsOfNat k (n / 2)

/-- The constructor `bitset<CHAR_BIT>( (Size) b )`. -/
def Bitset.ofByte (b : Byte) : Bitset := bitsOfNat 8 b.val

/-- The member `set( pos, value )`. -/
def Bitset.set (s : Bitset) (pos : Nat) (value : Bool) : Bitset := List.set s pos value

/-- The member `test( pos )`. -/
def Bitset.test (s : Bitset) (pos : Nat) : Bool := s.getD pos false

/-- The member `to_ulong()`. -/
def Bitset.to_ulong : Bitset → Nat
  | [] => 0
  | b :: bs => b.toNat + 2 * Bitset.to_ulong bs

/-- The byte `p_ulByte[ 0 ]` of `Size ulByte = bits.to_ulong( )`. -/
def Bitset.lowByte (s : Bitset) : Byte := Fin.ofNat (s.to_ulong % 256)

/-! ## Frequency tables -/

/-- The empty table. -/
def FrequencyTable.empty : FrequencyTable where
  count := fun _ => none
  inserted := []
  nodup := List.nodup_nil
  mem_inserted := by simp

/-- The statement `table[ b ] = c`: the key is inserted when it is absent. -/
def FrequencyTable.assign (t : FrequencyTable) (b : Byte) (c : Nat) : FrequencyTable where
  count := fun x => if x = b then some c else t.count x
  inserted := if (t.count b).isSome = true then t.inserted else t.inserted ++ [b]
  nodup := by
    by_cases h : (t.count b).isSome = true
    · rw [if_pos h]
      exact t.nodup
    · rw [if_neg h]
      exact List.Nodup.append t.nodup (List.nodup_singleton b)
        (fun x hx hxb => h (by
          rw [List.mem_singleton] at hxb
          rw [← hxb]
          exact (t.mem_inserted x).mp hx))
  mem_inserted := by
    intro x
    by_cases hx : x = b
    · subst hx
      by_cases h : (t.count x).isSome = true
      · simp [h, t.mem_inserted x]
      · simp [h]
    · by_cases h : (t.count b).isSome = true
      · simp [h, hx, t.mem_inserted x]
      · simp [h, hx, t.mem_inserted x]

/-- The statement `table[ b ]++`: `operator[]` inserts an absent key with the count 0. -/
def FrequencyTable.incr (P : Platform) (t : FrequencyTable) (b : Byte) : FrequencyTable :=
  t.assign b (wrap P ((t b).getD 0 + 1))

/-- The 256 byte values, ascending. -/
def allBytes : List Byte := (List.range 256).map Fin.ofNat

/-- The keys of the table, ascending. -/
def FrequencyTable.keys (t : FrequencyTable) : List Byte :=
  allBytes.filter (fun b => (t b).isSome)

/-- The member `size()`. -/
def FrequencyTable.size (t : FrequencyTable) : Nat := t.keys.length

/-- The entries met by `for( itr = begin(); itr != end(); ++itr )`. -/
def FrequencyTable.entries (P : Platform) (t : FrequencyTable) : List (Byte × Nat) :=
  (P.iterOrder t.inserted).filterMap (fun b => (t b).map (fun c => (b, c)))

/-- The function `Huffman::buildFrequencyTable`. -/
def buildFrequencyTable (P : Platform) (buffer : Buffer) : FrequencyTable :=
  buffer.foldl (FrequencyTable.incr P) FrequencyTable.empty

/-- The function `Huffman::saveFrequencyTable`. -/
def saveFrequencyTable (P : Platform) (outBuffer : Buffer) (frequencyTable : FrequencyTable) :
    Buffer :=
  (frequencyTable.entries P).foldl (fun out e => out ++ [e.1] ++ sizeBytes P e.2)
    (outBuffer ++ sizeBytes P frequencyTable.size)

/-- The loop `for( Size i = 0; i < nSize; i++ )` of `loadFrequencyTable`. -/
def loadLoop (P : Platform) (inBuffer : Buffer) :
    Nat → Nat → FrequencyTable → Except Fault FrequencyTable
  | 0, _, t => .ok t
  | k + 1, nPosition, t =>
    match readByte inBuffer nPosition with
    | .error e => .error e
    | .ok theByte =>
      match readSize P inBuffer (nPosition + 1) with
      | .error e => .error e
      | .ok frequency => loadLoop P inBuffer k (nPosition + 1 + P.W) (t.assign theByte frequency)

/-- The function `Huffman::loadFrequencyTable`: the result flag and the table left in
`frequencyTable`.  The size test uses `nSize` before it is read, as the source does. -/
def loadFrequencyTable (P : Platform) (inBuffer : Buffer) (nPositionOfFrequencyTable : Nat) :
    Except Fault (Bool × FrequencyTable) :=
  let nSize := 0
  if inBuffer.length < P.W then .ok (false, FrequencyTable.empty)
  else
    let totalTableSize := nSize * (1 + P.W)
    if inBuffer.length < totalTableSize then .ok (false, FrequencyTable.empty)
    else
      match readSize P inBuffer nPositionOfFrequencyTable with
      | .error e => .error e
      | .ok nSize =>
        match loadLoop P inBuffer nSize (nPositionOfFrequencyTable + P.W)
            FrequencyTable.empty with
        | .error e => .error e
        | .ok t => .ok (true, t)

/-! ## Tree construction -/

/-- The inline function `Huffman::isLeaf`, which dereferences its argument. -/
def isLeaf : HuffNode → Except Fault Bool
  | .null => .error .nullDeref
  | .node _ _ left right _ => .ok (decide (right = .null) && decide (left = .null))

/-- The function `Huffman::addTwoNodesToTree`: the new parent of `f1.second` and
`f2.second`, whose `count` fields it reads. -/
def addTwoNodesToTree (P : Platform) (f1 f2 : FrequencyAndHuffNode) : Except Fault HuffNode :=
  match f1.2, f2.2 with
  | .node _ c1 _ _ _, .node _ c2 _ _ _ => .ok (.node 0 (wrap P (c1 + c2)) f1.2 f2.2 false)
  | _, _ => .error .nullDeref

/-- The access `frequencies[ frequencies.size( ) - 1 ]`. -/
def lastElem (frequencies : List FrequencyAndHuffNode) : Except Fault FrequencyAndHuffNode :=
  match frequencies.getLast? with
  | some f => .ok f
  | none => .error .outOfBounds

/-- The block `if( f.second->bContainsData ) (*leafNodeTable)[ f.second->theByte ] = f.second`,
skipped when `leafNodeTable` is `NULL`. -/
def registerLeaf (f : FrequencyAndHuffNode) :
    Option LeafNodeTable → Except Fault (Option LeafNodeTable)
  | none => .ok none
  | some table =>
    match f.2 with
    | .null => .error .nullDeref
    | .node theByte _ _ _ bContainsData =>
      if bContainsData then .ok (some (fun x => if x = theByte then f.2 else table x))
      else .ok (some table)

/-- The loop `while( frequencies.size( ) > 1 )` of `buildHuffmanTree`, on the heap, the
variable `pNode` and the leaf table.  The references `freqAndHuffNode1` and
`freqAndHuffNode2` are read after `pop_back`, from storage the vector keeps; they hold the
two popped pairs until `push_back` has built its argument.  The first argument bounds the
number of iterations; each iteration shortens the vector by one, so its length is enough. -/
def buildLoop (P : Platform) : Nat → List FrequencyAndHuffNode → HuffNode →
    Option LeafNodeTable → Except Fault (HuffNode × Option LeafNodeTable)
  | 0, frequencies, pNode, leafNodeTable =>
    if frequencies.length > 1 then .error .outOfFuel else .ok (pNode, leafNodeTable)
  | fuel + 1, frequencies, pNode, leafNodeTable =>
    if frequencies.length > 1 then
      let popped1 := P.pop_heap frequencies
      match lastElem popped1 with
      | .error e => .error e
      | .ok freqAndHuffNode1 =>
        let popped2 := P.pop_heap popped1.dropLast
        match lastElem popped2 with
        | .error e => .error e
        | .ok freqAndHuffNode2 =>
          match registerLeaf freqAndHuffNode1 leafNodeTable with
          | .error e => .error e
          | .ok table1 =>
            match registerLeaf freqAndHuffNode2 table1 with
            | .error e => .error e
            | .ok table2 =>
              match addTwoNodesToTree P freqAndHuffNode1 freqAndHuffNode2 with
              | .error e => .error e
              | .ok parent =>
                buildLoop P fuel
                  (P.push_heap (popped2.dropLast ++
                    [(wrap P (freqAndHuffNode1.1 + freqAndHuffNode2.1), parent)]))
                  parent table2
    else .ok (pNode, leafNodeTable)

/-- The vector `frequencies` before `make_heap`: one new leaf per table entry. -/
def initialNodes (P : Platform) (frequencyTable : FrequencyTable) : List FrequencyAndHuffNode :=
  (frequencyTable.entries P).map (fun e => (e.2, HuffNode.node e.1 e.2 .null .null true))

/-- The function `Huffman::buildHuffmanTree`: the result flag, the pointer left in
`treeRoot` and the leaf table.  `pNode` starts as `NULL` and is what `treeRoot` receives. -/
def buildHuffmanTree (P : Platform) (treeRoot : HuffNode) (frequencyTable : FrequencyTable)
    (leafNodeTable : Option LeafNodeTable) :
    Except Fault (Bool × HuffNode × Option LeafNodeTable) :=
  if frequencyTable.size ≤ 0 then .ok (false, treeRoot, leafNodeTable)
  else
    let frequencies := P.make_heap (initialNodes P frequencyTable)
    match buildLoop P frequencies.length frequencies .null leafNodeTable with
    | .error e => .error e
    | .ok (pNode, table) => .ok (true, pNode, table)

/-- The function `Huffman::destroyTree`. -/
def destroyTree : HuffNode → Except Fault Unit
  | .null => .error .nullDeref
  | .node _ _ left right _ =>
    if right = .null ∧ left = .null then .ok ()
    else
      match destroyTree left with
      | .error e => .error e
      | .ok _ => destroyTree right

/-! ## Encoding -/

/-- The bits pushed on `bitSequenceStack` by the loop `while( pLeafNode != root )`, in the
order pushed (leaf end first), for the node `pLeafNode` of the tree under `root`: `false`
where the walk comes up from a left child.  `none` when the node is not in the tree. -/
def walkToRoot : HuffNode → HuffNode → Option (List Bool)
  | .null, _ => none
  | .node theByte count left right bContainsData, pLeafNode =>
    if HuffNode.node theByte count left right bContainsData = pLeafNode then some []
    else
      match walkToRoot left pLeafNode with
      | some bits => some (bits ++ [false])
      | none =>
        match walkToRoot right pLeafNode with
        | some bits => some (bits ++ [true])
        | none => none

/-- The loop `while( bitSequenceStack.size( ) > 0 )` on the bits in the order popped:
the output buffer, `partialByte` and `currentBit`. -/
def packBits : List Bool → Buffer → Bitset → Nat → Buffer × Bitset × Nat
  | [], outBuffer, bits, currentBit => (outBuffer, bits, currentBit)
  | top :: rest, outBuffer, bits, currentBit =>
    let currentBit := currentBit + 1
    let bits := bits.set (8 - currentBit) top
    if currentBit ≥ 8 then packBits rest (outBuffer ++ [bits.lowByte]) Bitset.zero 0
    else packBits rest outBuffer bits currentBit

/-- The loop `while( pLeafNode != root )` with its dereferences: it ends at once when the
two pointers are equal, and reads `pLeafNode->parent->left` of a `NULL` pointer or of a
node without parent otherwise. -/
def walkBits (root pLeafNode : HuffNode) : Except Fault (List Bool) :=
  if pLeafNode = root then .ok []
  else if pLeafNode = .null then .error .nullDeref
  else
    match walkToRoot root pLeafNode with
    | none => .error .nullDeref
    | some pushed => .ok pushed

/-- The loop `for( Size i = 0; i < inBuffer.size( ); i++ )` of both `encode` functions. -/
def encodeLoop (P : Platform) (root : HuffNode) (leafNodeTable : LeafNodeTable) :
    Buffer → Buffer → Bitset → Nat → Except Fault (Buffer × Bitset × Nat)
  | [], outBuffer, bits, currentBit => .ok (outBuffer, bits, currentBit)
  | b :: rest, outBuffer, bits, currentBit =>
    let pLeafNode := leafNodeTable b
    if pLeafNode = .null ∧ P.NDEBUG = false then .error .assertFailed
    else
      match walkBits root pLeafNode with
      | .error e => .error e
      | .ok pushed =>
        let r := packBits pushed.reverse outBuffer bits currentBit
        encodeLoop P root leafNodeTable rest r.1 r.2.1 r.2.2

/-- The block `if( currentBit < 8 )` after the loop. -/
def flushBits (outBuffer : Buffer) (bits : Bitset) (currentBit : Nat) : Buffer :=
  if currentBit < 8 then outBuffer ++ [bits.lowByte] else outBuffer

/-- The function `Huffman::encode( const Buffer &, Buffer & )`: the result flag and the
contents of `outBuffer` on return. -/
def encode (P : Platform) (inBuffer outBuffer : Buffer) : Except Fault (Bool × Buffer) :=
  if inBuffer.length ≤ 0 then .ok (false, outBuffer)
  else
    let frequencyTable := buildFrequencyTable P inBuffer
    let nFrequencyTableSize := frequencyTable.size * (1 + P.W) + P.W
    if nFrequencyTableSize > inBuffer.length then .ok (false, outBuffer)
    else
      let out1 := sizeBytes P inBuffer.length
      match buildHuffmanTree P .null frequencyTable (some (fun _ => HuffNode.null)) with
      | .error e => .error e
      | .ok (false, _, _) => .ok (false, out1)
      | .ok (true, _, none) => .error .nullDeref
      | .ok (true, root, some leafNodeTable) =>
        let out2 := saveFrequencyTable P out1 frequencyTable
        match encodeLoop P root leafNodeTable inBuffer out2 Bitset.zero 0 with
        | .error e => .error e
        | .ok (out3, bits, currentBit) =>
          let out4 := flushBits out3 bits currentBit
          match destroyTree root with
          | .error e => .error e
          | .ok _ => .ok (true, out4)

/-! ## Decoding -/

/-- The loop `while( !isLeaf( pNode ) )` of both `decode` functions, on `pNode`, the index
`i`, the bit set `*pByteBits` and `nBit`: the byte of the leaf reached and the new
`i`, bit set and `nBit`. -/
def decodeWalk (inBuffer : Buffer) :
    HuffNode → Nat → Bitset → Nat → Except Fault (Byte × Nat × Bitset × Nat)
  | .null, _, _, _ => .error .nullDeref
  | .node theByte _ left right _, i, bits, nBit =>
    if right = .null ∧ left = .null then .ok (theByte, i, bits, nBit)
    else if nBit ≥ 8 then
      match readByte inBuffer (i + 1) with
      | .error e => .error e
      | .ok b =>
        if !(Bitset.ofByte b).test (8 - 1) then decodeWalk inBuffer left (i + 1) (Bitset.ofByte b) 1
        else decodeWalk inBuffer right (i + 1) (Bitset.ofByte b) 1
    else
      if !bits.test (8 - (nBit + 1)) then decodeWalk inBuffer left i bits (nBit + 1)
      else decodeWalk inBuffer right i bits (nBit + 1)

/-- The loop `for( i = nStartPosition; i < inBuffer.size( ) && nNumberOfBytesToBeDecoded > 0; )`,
by recursion on `nNumberOfBytesToBeDecoded`. -/
def decodeLoop (inBuffer : Buffer) (tree : HuffNode) :
    Nat → Nat → Bitset → Nat → Buffer → Except Fault Buffer
  | 0, _, _, _, outBuffer => .ok outBuffer
  | n + 1, i, bits, nBit, outBuffer =>
    if i < inBuffer.length then
      match decodeWalk inBuffer tree i bits nBit with
      | .error e => .error e
      | .ok (theByte, i1, bits1, nBit1) =>
        decodeLoop inBuffer tree n i1 bits1 nBit1 (outBuffer ++ [theByte])
    else .ok outBuffer

/-- The function `Huffman::decode( const Buffer &, Buffer & )`: the result flag and the
contents of `outBuffer` on return. -/
def decode (P : Platform) (inBuffer outBuffer : Buffer) : Except Fault (Bool × Buffer) :=
  if inBuffer.length ≤ 0 then .ok (false, outBuffer)
  else
    match readSize P inBuffer 0 with
    | .error e => .error e
    | .ok nNumberOfBytesToBeDecoded =>
      match loadFrequencyTable P inBuffer P.W with
      | .error e => .error e
      | .ok (false, _) => .ok (false, outBuffer)
      | .ok (true, frequencyTable) =>
        match buildHuffmanTree P .null frequencyTable none with
        | .error e => .error e
        | .ok (false, _, _) => .ok (false, outBuffer)
        | .ok (true, tree, _) =>
          let nStartPosition := P.W + frequencyTable.size * (1 + P.W) + P.W
          match readByte inBuffer nStartPosition with
          | .error e => .error e
          | .ok b =>
            match decodeLoop inBuffer tree nNumberOfBytesToBeDecoded nStartPosition
                (Bitset.ofByte b) 0 [] with
            | .error e => .error e
            | .ok out =>
              match destroyTree tree with
              | .error e => .error e
              | .ok _ => .ok (true, out)

end Huffman

/-! ## The file-backed member functions -/

/-- The state of the member `m_File` that the member functions depend on. -/
structure FileStream where
  isOpen : Bool
  failbit : Bool

/-- The data members of an object of class `Huffman`. -/
structure Huffman where
  m_File : FileStream
  m_FrequencyTable : Huffman.FrequencyTable
  m_InBuffer : Huffman.Buffer
  m_OutBuffer : Huffman.Buffer
  m_Root : Huffman.HuffNode

namespace Huffman

/-- The constructor `Huffman::Huffman( )`. -/
def new : Huffman :=
  { m_File := { isOpen := false, failbit := false }
    m_FrequencyTable := FrequencyTable.empty
    m_InBuffer := []
    m_OutBuffer := []
    m_Root := .null }

/-- The constant `FILE_ID`. -/
def FILE_ID : Nat := 0xBEEFC0DE

/-- The four bytes `((byte *) &FILE_ID)[0 .. 3]`. -/
def fileIdBytes : Buffer := leBytes 4 FILE_ID

/-- The member `open`: `m_File.open` fails on a stream that is already open and on a
file that cannot be opened (`file = none`), and clears the state flags when it succeeds. -/
def openFile (file : Option Buffer) (f : FileStream) : Bool × FileStream :=
  if f.isOpen then (false, { f with failbit := true })
  else
    match file with
    | none => (false, { f with failbit := true })
    | some _ => (true, { isOpen := true, failbit := false })

/-- The member `close`: `m_File.close( ); m_File.clear( )`. -/
def closeFile (_f : FileStream) : FileStream := { isOpen := false, failbit := false }

/-- The state of the stream after the read loop has met the end of the file. -/
def atEof (f : FileStream) : FileStream := { f with failbit := true }

/-- The member function `Huffman::encode( const std::string & )` on a file with the given
contents (`none`: the file cannot be opened): the result flag and the object afterwards. -/
def encodeFile (P : Platform) (file : Option Buffer) (s : Huffman) :
    Except Fault (Bool × Huffman) :=
  match openFile file s.m_File with
  | (false, f) => .ok (false, { s with m_File := f })
  | (true, f) =>
    let content := file.getD []
    let s1 : Huffman :=
      { s with
        m_File := atEof f
        m_InBuffer := content
        m_FrequencyTable := content.foldl (FrequencyTable.incr P) s.m_FrequencyTable }
    let nFrequencyTableSize := s1.m_FrequencyTable.size * (1 + P.W) + P.W
    if nFrequencyTableSize > s1.m_InBuffer.length then .ok (false, s1)
    else
      match buildHuffmanTree P s1.m_Root s1.m_FrequencyTable (some (fun _ => HuffNode.null)) with
      | .error e => .error e
      | .ok (false, root, _) => .ok (false, { s1 with m_Root := root })
      | .ok (true, _, none) => .error .nullDeref
      | .ok (true, root, some leafNodeTable) =>
        let out1 := fileIdBytes ++ sizeBytes P s1.m_InBuffer.length
        let out2 := saveFrequencyTable P out1 s1.m_FrequencyTable
        match encodeLoop P root leafNodeTable s1.m_InBuffer out2 Bitset.zero 0 with
        | .error e => .error e
        | .ok (out3, bits, currentBit) =>
          let out4 := flushBits out3 bits currentBit
          match destroyTree root with
          | .error e => .error e
          | .ok _ =>
            .ok (true, { s1 with m_Root := root, m_OutBuffer := out4, m_File := closeFile s1.m_File })

/-- The test `m_InBuffer[ 0 ] != pFileId[ 0 ] || ... || m_InBuffer[ 3 ] != pFileId[ 3 ]`,
which reads the next byte only when the bytes before it match. -/
def fileIdDiffers (inBuffer : Buffer) : Nat → Buffer → Except Fault Bool
  | _, [] => .ok false
  | i, id :: ids =>
    match readByte inBuffer i with
    | .error e => .error e
    | .ok b => if b ≠ id then .ok true else fileIdDiffers inBuffer (i + 1) ids

/-- The member function `Huffman::decode( const std::string & )` on a file with the given
contents (`none`: the file cannot be opened): the result flag and the object afterwards. -/
def decodeFile (P : Platform) (file : Option Buffer) (s : Huffman) :
    Except Fault (Bool × Huffman) :=
  match openFile file s.m_File with
  | (false, f) => .ok (false, { s with m_File := f })
  | (true, f) =>
    let s1 : Huffman := { s with m_File := atEof f, m_InBuffer := file.getD [] }
    match fileIdDiffers s1.m_InBuffer 0 fileIdBytes with
    | .error e => .error e
    | .ok true => .ok (false, s1)
    | .ok false =>
      match readSize P s1.m_InBuffer 4 with
      | .error e => .error e
      | .ok nNumberOfBytesToBeDecoded =>
        if s1.m_InBuffer.length ≤ 0 then .ok (false, s1)
        else
          match loadFrequencyTable P s1.m_InBuffer (4 + P.W) with
          | .error e => .error e
          | .ok (false, table) => .ok (false, { s1 with m_FrequencyTable := table })
          | .ok (true, table) =>
            let s2 : Huffman := { s1 with m_FrequencyTable := table }
            match buildHuffmanTree P s2.m_Root table none with
            | .error e => .error e
            | .ok (false, root, _) => .ok (false, { s2 with m_Root := root })
            | .ok (true, root, _) =>
              let nStartPosition := 4 + P.W + table.size * (1 + P.W) + P.W
              match readByte s2.m_InBuffer nStartPosition with
              | .error e => .error e
              | .ok b =>
                match decodeLoop s2.m_InBuffer root nNumberOfBytesToBeDecoded nStartPosition
                    (Bitset.ofByte b) 0 [] with
                | .error e => .error e
                | .ok out =>
                  match destroyTree root with
                  | .error e => .error e
                  | .ok _ =>
                    .ok (true,
                      { s2 with m_Root := root, m_OutBuffer := out, m_File := closeFile s2.m_File })

/-! ## A reference platform -/

/-- A conforming heap order: ascending keys (a sorted range is a heap). -/
def sortByKey (v : List FrequencyAndHuffNode) : List FrequencyAndHuffNode :=
  v.insertionSort (fun a b => a.1 ≤ b.1)

/-- A 64-bit platform with `assert` compiled, a hash map iterated in the order of insertion
and heap algorithms that keep the range sorted. -/
def refPlatform : Platform :=
  { W := 8
    NDEBUG := false
    iterOrder := fun ks => ks
    make_heap := sortByKey
    pop_heap := fun v => sortByKey v.tail ++ v.head?.toList
    push_heap := sortByKey }

/-! ## Notions used to state the properties -/

/-- The table that `loadFrequencyTable` rebuilds from the entries that `saveFrequencyTable`
writes for a table: the entries assigned, in the order of iteration, to an empty table. -/
def FrequencyTable.reload (P : Platform) (t : FrequencyTable) : FrequencyTable :=
  (t.entries P).foldl (fun t e => t.assign e.1 e.2) FrequencyTable.empty

/-- The leaves under a pointer, left to right, each as its `theByte` and `count`. -/
def leaves : HuffNode → List (Byte × Nat)
  | .null => []
  | .node theByte count left right _ =>
    if right = .null ∧ left = .null then [(theByte, count)]
    else leaves left ++ leaves right

/-- The number of nodes under a pointer that are not leaves. -/
def internalCount : HuffNode → Nat
  | .null => 0
  | .node _ _ left right _ =>
    if right = .null ∧ left = .null then 0
    else 1 + internalCount left + internalCount right

/-- Every node under the pointer that is not a leaf has two children. -/
def TwoChildren : HuffNode → Prop
  | .null => True
  | .node _ _ left right _ =>
    (right = .null ∧ left = .null) ∨
      (left ≠ .null ∧ right ≠ .null ∧ TwoChildren left ∧ TwoChildren right)

/-- A tree as `buildHuffmanTree` makes it: not `NULL`, its leaves flagged `bContainsData`,
its other nodes not flagged and with two such trees as children. -/
def Proper : HuffNode → Prop
  | .null => False
  | .node _ _ left right bContainsData =>
    (right = .null ∧ left = .null ∧ bContainsData = true) ∨
      (Proper left ∧ Proper right ∧ bContainsData = false)

/-- The node that `buildHuffmanTree` allocates for a table entry. -/
def leafNode (e : Byte × Nat) : HuffNode := .node e.1 e.2 .null .null true

/-- The byte of the leaf reached from a pointer by the given branch decisions
(`false`: left, `true`: right), when they end exactly at a leaf. -/
def leafAt : HuffNode → List Bool → Option Byte
  | .null, _ => none
  | .node theByte _ left right _, code =>
    if right = .null ∧ left = .null then
      match code with
      | [] => some theByte
      | _ :: _ => none
    else
      match code with
      | [] => none
      | false :: rest => leafAt left rest
      | true :: rest => leafAt right rest

/-- The bits of a byte, most significant first. -/
def msbBits (b : Byte) : List Bool := (Bitset.ofByte b).reverse

/-- The bits of a byte sequence, each byte most significant bit first. -/
def bitsOf (bytes : Buffer) : List Bool := bytes.flatMap msbBits

/-- The code of a byte in a tree: the branch decisions from the root to the leaf that the
leaf table holds for it (empty when there is none). -/
def codeOf (root : HuffNode) (leafNodeTable : LeafNodeTable) (b : Byte) : List Bool :=
  ((walkToRoot root (leafNodeTable b)).getD []).reverse

/-- Every pointer stored in the leaf table (when there is one) is the leaf of an entry. -/
def TabEntries (E : List (Byte × Nat)) (lt : Option LeafNodeTable) : Prop :=
  ∀ f, lt = some f → ∀ b, f b ≠ .null → ∃ c, (b, c) ∈ E ∧ f b = leafNode (b, c)

/-- The leaf table (when there is one) holds a pointer for the byte. -/
def Registered (lt : Option LeafNodeTable) (b : Byte) : Prop :=
  ∀ f, lt = some f → f b ≠ .null

/-- The invariant of the loop of `buildHuffmanTree` for a table with entries `E`. -/
structure LoopInv (E : List (Byte × Nat)) (v : List FrequencyAndHuffNode)
    (lt : Option LeafNodeTable) : Prop where
  heap : is_heap v
  proper : ∀ p ∈ v, Proper p.2
  perm : (v.flatMap (fun p => leaves p.2)).Perm E
  entries : TabEntries E lt
  registered : ∀ p ∈ v, ∀ b c l r, p.2 = .node b c l r false →
    ∀ e ∈ leaves p.2, Registered lt e.1

/-- The encoder variables `partialByte` and `currentBit` while the bits `pend` wait for the
rest of their byte. -/
def PackState (pend : List Bool) (bits : Bitset) (currentBit : Nat) : Prop :=
  currentBit = pend.length ∧ currentBit < 8 ∧
    bits = List.replicate (8 - currentBit) false ++ pend.reverse

/-- The decoder variables `i`, `*pByteBits` and `nBit` in front of the bits `rest` of the
buffer. -/
def DecState (inBuffer : Buffer) (i : Nat) (bits : Bitset) (nBit : Nat) (rest : List Bool) :
    Prop :=
  ∃ b, inBuffer[i]? = some b ∧ bits = Bitset.ofByte b ∧ nBit ≤ 8 ∧
    rest = (msbBits b).drop nBit ++ bitsOf (inBuffer.drop (i + 1))

/-! ## Concrete inputs and scenarios -/

/-- The reference platform with `NDEBUG` defined. -/
def releasePlatform : Platform := { refPlatform with NDEBUG := true }

/-- Twenty bytes `0x61` followed by six bytes `0x62`: 26 bytes, two distinct values. -/
def sampleInput : Buffer := List.replicate 20 0x61 ++ List.replicate 6 0x62

/-- A table with the two entries `0x61 ↦ 20` and `0x62 ↦ 6`. -/
def sampleTable : FrequencyTable := (FrequencyTable.empty.assign 0x61 20).assign 0x62 6

/-- Two calls of the file-backed `encode` in succession on one object and one file: the
result flag and the contents of `m_OutBuffer` after each call. -/
def encodeFileTwice (P : Platform) (file : Option Buffer) (s : Huffman) :
    Except Fault ((Bool × Buffer) × (Bool × Buffer)) :=
  match encodeFile P file s with
  | .error e => .error e
  | .ok (ok1, s1) =>
    match encodeFile P file s1 with
    | .error e => .error e
    | .ok (ok2, s2) => .ok ((ok1, s1.m_OutBuffer), (ok2, s2.m_OutBuffer))

/-! ## Weights, depths and costs -/

/-- The `count` field behind a pointer (0 for `NULL`). -/
def nodeCount : HuffNode → Nat
  | .null => 0
  | .node _ count _ _ _ => count

/-- The sum of the counts of the leaves under a pointer. -/
def leafSum : HuffNode → Nat
  | .null => 0
  | .node _ count left right _ =>
    if right = .null ∧ left = .null then count else leafSum left + leafSum right

/-- Every node under the pointer that is not a leaf has as `count` the sum of the counts of
its two children. -/
def WeightsAdd : HuffNode → Prop
  | .null => True
  | .node _ count left right _ =>
    (right = .null ∧ left = .null) ∨
      (count = nodeCount left + nodeCount right ∧ WeightsAdd left ∧ WeightsAdd right)

/-- Every node under the pointer that is not a leaf has as `count` the sum of the counts of
its two children, reduced modulo `2 ^ (8 * W)`. -/
def WeightsAddMod (P : Platform) : HuffNode → Prop
  | .null => True
  | .node _ count left right _ =>
    (right = .null ∧ left = .null) ∨
      (count = wrap P (nodeCount left + nodeCount right) ∧
        WeightsAddMod P left ∧ WeightsAddMod P right)

/-- The sum of all counts in a table. -/
def FrequencyTable.total (t : FrequencyTable) : Nat :=
  (t.keys.map (fun b => (t b).getD 0)).sum

/-- A table with the single entry `0x41 ↦ 5000`. -/
def singleTable : FrequencyTable := FrequencyTable.empty.assign 0x41 5000

/-- A table whose two counts `0x61 ↦ 2 ^ 63` and `0x62 ↦ 2 ^ 63` sum to `2 ^ 64`. -/
def overflowTable : FrequencyTable :=
  (FrequencyTable.empty.assign 0x61 (2 ^ 63)).assign 0x62 (2 ^ 63)

/-- One pass through the body of the loop of `buildHuffmanTree`: the two pairs removed
(first, second), the new node, the vector after `push_heap`, and the leaf table. -/
def loopBody (P : Platform) (frequencies : List FrequencyAndHuffNode)
    (leafNodeTable : Option LeafNodeTable) :
    Except Fault (FrequencyAndHuffNode × FrequencyAndHuffNode × HuffNode ×
      List FrequencyAndHuffNode × Option LeafNodeTable) :=
  let popped1 := P.pop_heap frequencies
  match lastElem popped1 with
  | .error e => .error e
  | .ok freqAndHuffNode1 =>
    let popped2 := P.pop_heap popped1.dropLast
    match lastElem popped2 with
    | .error e => .error e
    | .ok freqAndHuffNode2 =>
      match registerLeaf freqAndHuffNode1 leafNodeTable with
      | .error e => .error e
      | .ok table1 =>
        match registerLeaf freqAndHuffNode2 table1 with
        | .error e => .error e
        | .ok table2 =>
          match addTwoNodesToTree P freqAndHuffNode1 freqAndHuffNode2 with
          | .error e => .error e
          | .ok parent =>
            .ok (freqAndHuffNode1, freqAndHuffNode2, parent,
              P.push_heap (popped2.dropLast ++
                [(wrap P (freqAndHuffNode1.1 + freqAndHuffNode2.1), parent)]),
              table2)

/-- The bytes `"abc"` repeated 400 times: 1,200 bytes, three distinct values. -/
def abcInput : Buffer := (List.replicate 400 [0x61, 0x62, 0x63]).flatten

/-- The frequency table of `abcInput`. -/
def abcTable : FrequencyTable :=
  ((FrequencyTable.empty.assign 0x61 400).assign 0x62 400).assign 0x63 400

/-- The tree that the reference platform builds for `abcTable`. -/
def abcRoot : HuffNode :=
  .node 0 1200 (.node 0x63 400 .null .null true)
    (.node 0 800 (.node 0x61 400 .null .null true) (.node 0x62 400 .null .null true) false)
    false

/-- The tree that the reference platform builds for `overflowTable`. -/
def overflowRoot : HuffNode :=
  .node 0 0 (.node 0x61 (2 ^ 63) .null .null true) (.node 0x62 (2 ^ 63) .null .null true) false

/-! ## Depths and weighted path length -/

/-- The leaves under a pointer, left to right, each as its `theByte`, its `count` and its
depth below the pointer, counted from `d`. -/
def leafDepths : Nat → HuffNode → List (Byte × Nat × Nat)
  | _, .null => []
  | d, .node theByte count left right _ =>
    if right = .null ∧ left = .null then [(theByte, count, d)]
    else leafDepths (d + 1) left ++ leafDepths (d + 1) right

/-- The weighted path length of a tree for a table: the sum over the leaves of the table's
count of the leaf's symbol times the depth of the leaf. -/
def weightedPathLength (t : FrequencyTable) (root : HuffNode) : Nat :=
  ((leafDepths 0 root).map (fun p => (t p.1).getD 0 * p.2.2)).sum

/-- The weighted path length of a tree by the `count` fields of its leaves. -/
def fieldCost (d : Nat) (n : HuffNode) : Nat :=
  ((leafDepths d n).map (fun p => p.2.1 * p.2.2)).sum

/-- The cost of a list of (weight, depth) pairs. -/
def pairCost (D : List (Nat × Nat)) : Nat := (D.map (fun p => p.1 * p.2)).sum

/-- The lists of leaf depths of the binary trees in which every node that is not a leaf has
two children, in any order. -/
inductive FullDepths : List Nat → Prop
  | single : FullDepths [0]
  | join (a b : List Nat) : FullDepths a → FullDepths b →
      FullDepths ((a ++ b).map (fun d => d + 1))
  | perm (a b : List Nat) : a.Perm b → FullDepths a → FullDepths b

/-- A table with four counts `2 ^ 63`, which sum to `2 ^ 65`. -/
def overflowTable4 : FrequencyTable :=
  (((FrequencyTable.empty.assign 0x61 (2 ^ 63)).assign 0x62 (2 ^ 63)).assign 0x63
    (2 ^ 63)).assign 0x64 (2 ^ 63)

/-- The tree that the reference platform builds for `overflowTable4`. -/
def overflowRoot4 : HuffNode :=
  .node 0 0 (.node 0x64 (2 ^ 63) .null .null true)
    (.node 0 (2 ^ 63)
      (.node 0 0 (.node 0x61 (2 ^ 63) .null .null true) (.node 0x62 (2 ^ 63) .null .null true)
        false)
      (.node 0x63 (2 ^ 63) .null .null true) false)
    false

/-- A tree with the four symbols of `overflowTable4` at depth 2. -/
def balancedRoot4 : HuffNode :=
  .node 0 0
    (.node 0 0 (.node 0x61 (2 ^ 63) .null .null true) (.node 0x62 (2 ^ 63) .null .null true)
      false)
    (.node 0 0 (.node 0x63 (2 ^ 63) .null .null true) (.node 0x64 (2 ^ 63) .null .null true)
      false)
    false

/-! ## The platform of libstdc++ -/

/-- The order in which a chained hash table of 11 buckets, with the byte value as its hash,
is iterated: bucket after bucket, and in a bucket from the key inserted last to the key
inserted first.  This is `std::tr1::unordered_map` of libstdc++ as long as it holds no more
than 11 keys. -/
def chainOrder (inserted : List Byte) : List Byte :=
  (List.range 11).flatMap (fun k => (inserted.filter (fun b => b.val % 11 = k)).reverse)

/-- The function `std::__push_heap` of libstdc++: `value` moves up from `holeIndex` while its
parent compares greater, no further than `topIndex`.  The first argument bounds the number
of iterations. -/
def std_push_heap (value : FrequencyAndHuffNode) (topIndex : Nat) :
    Nat → List FrequencyAndHuffNode → Nat → List FrequencyAndHuffNode
  | 0, first, holeIndex => first.set holeIndex value
  | fuel + 1, first, holeIndex =>
    let parent := (holeIndex - 1) / 2
    if holeIndex > topIndex ∧ HuffCompare (first.getD parent value) value = true then
      std_push_heap value topIndex fuel (first.set holeIndex (first.getD parent value)) parent
    else first.set holeIndex value

/-- The first loop of `std::__adjust_heap` of libstdc++: the hole moves down to the child
that does not compare greater than the other, as long as it has two children.  The result is
the range and the index of the hole. -/
def std_adjust_loop (len : Nat) (value : FrequencyAndHuffNode) :
    Nat → List FrequencyAndHuffNode → Nat → List FrequencyAndHuffNode × Nat
  | 0, first, holeIndex => (first, holeIndex)
  | fuel + 1, first, holeIndex =>
    if holeIndex < (len - 1) / 2 then
      let secondChild := 2 * (holeIndex + 1)
      let secondChild :=
        if HuffCompare (first.getD secondChild value) (first.getD (secondChild - 1) value) = true
        then secondChild - 1 else secondChild
      std_adjust_loop len value fuel (first.set holeIndex (first.getD secondChild value))
        secondChild
    else (first, holeIndex)

/-- The function `std::__adjust_heap` of libstdc++ on the first `len` elements. -/
def std_adjust_heap (first : List FrequencyAndHuffNode) (holeIndex len : Nat)
    (value : FrequencyAndHuffNode) : List FrequencyAndHuffNode :=
  let r := std_adjust_loop len value len first holeIndex
  let r :=
    if len % 2 = 0 ∧ r.2 = (len - 2) / 2 then
      (r.1.set r.2 (r.1.getD (2 * (r.2 + 1) - 1) value), 2 * (r.2 + 1) - 1)
    else r
  std_push_heap value holeIndex len r.1 r.2

/-- The function `std::pop_heap` of libstdc++. -/
def std_pop_heap (v : List FrequencyAndHuffNode) : List FrequencyAndHuffNode :=
  if v.length > 1 then
    match v.getLast?, v.head? with
    | some value, some top => std_adjust_heap (v.set (v.length - 1) top) 0 (v.length - 1) value
    | _, _ => v
  else v

/-- The loop of `std::__make_heap` of libstdc++, from the last parent down to index 0. -/
def std_make_loop : Nat → List FrequencyAndHuffNode → List FrequencyAndHuffNode
  | 0, v =>
    match v.head? with
    | some value => std_adjust_heap v 0 v.length value
    | none => v
  | parent + 1, v =>
    match v[parent + 1]? with
    | some value => std_make_loop parent (std_adjust_heap v (parent + 1) v.length value)
    | none => v

/-- The function `std::make_heap` of libstdc++. -/
def std_make_heap (v : List FrequencyAndHuffNode) : List FrequencyAndHuffNode :=
  if v.length < 2 then v else std_make_loop ((v.length - 2) / 2) v

/-- The function `std::push_heap` of libstdc++. -/
def std_push (v : List FrequencyAndHuffNode) : List FrequencyAndHuffNode :=
  match v.getLast? with
  | some value => std_push_heap value 0 v.length v (v.length - 1)
  | none => v

/-- GCC's libstdc++ on a 64-bit machine, built with `_TR1` and with `assert` compiled: the
hash map is `std::tr1::unordered_map` and the heap algorithms are those of `stl_heap.h`. -/
def stlPlatform : Platform :=
  { W := 8
    NDEBUG := false
    iterOrder := chainOrder
    make_heap := std_make_heap
    pop_heap := std_pop_heap
    push_heap := std_push }

/-- The key of the element at an index of a range (0 outside the range). -/
def keyAt (v : List FrequencyAndHuffNode) (i : Nat) : Nat :=
  match v[i]? with
  | some x => x.1
  | none => 0

/-- The heap property among the first `len` elements of a range, for the elements whose
parent has the index `top` or a greater one. -/
def HeapOn (top len : Nat) (v : List FrequencyAndHuffNode) : Prop :=
  ∀ i, 0 < i → i < len → top ≤ (i - 1) / 2 → keyAt v ((i - 1) / 2) ≤ keyAt v i

/-- The indices of the elements below the element with index `top` in the heap, with it. -/
inductive HeapDesc (top : Nat) : Nat → Prop
  | refl : HeapDesc top top
  | left (h : Nat) : HeapDesc top h → HeapDesc top (2 * h + 1)
  | right (h : Nat) : HeapDesc top h → HeapDesc top (2 * h + 2)

/-- The state of `std::__adjust_heap` while the hole moves down from `top`: the heap
property holds between the elements other than the hole and its children, and between the
parent of the hole and the children of the hole. -/
def HoleDown (top len : Nat) (w : List FrequencyAndHuffNode) (hole : Nat) : Prop :=
  hole < len ∧ len ≤ w.length ∧ HeapDesc top hole ∧
    (∀ i, 0 < i → i < len → top ≤ (i - 1) / 2 → (i - 1) / 2 ≠ hole →
      keyAt w ((i - 1) / 2) ≤ keyAt w i) ∧
    (top < hole → ∀ c, 0 < c → c < len → (c - 1) / 2 = hole →
      keyAt w ((hole - 1) / 2) ≤ keyAt w c)

/-- Thirteen bytes `0x00` followed by thirteen bytes `0x0B`: two byte values of equal count
that fall into the same bucket of the hash map of `stlPlatform`. -/
def swapInput : Buffer := List.replicate 13 0x00 ++ List.replicate 13 0x0B

/-- What `encode` writes for `swapInput` on `stlPlatform`. -/
def swapEncoded : Buffer :=
  [26, 0, 0, 0, 0, 0, 0, 0, 2, 0, 0, 0, 0, 0, 0, 0,
    11, 13, 0, 0, 0, 0, 0, 0, 0, 0, 13, 0, 0, 0, 0, 0, 0, 0, 0, 7, 255, 192]

/-- An input of 53 bytes with the counts 15, 7, 8, 10 and 13 for the byte values `0x00`,
`0x0B`, `0x16`, `0x21` and `0x2C`, which fall into one bucket of the hash map of
`stlPlatform`. -/
def paddingInput : Buffer :=
  List.replicate 15 0x00 ++ List.replicate 7 0x0B ++ List.replicate 8 0x16
    ++ List.replicate 10 0x21 ++ List.replicate 13 0x2C

/-- The tree that `encode` builds for `paddingInput` on `stlPlatform`. -/
def paddingRoot : HuffNode :=
  .node 0 53
    (.node 0 23 (.node 0x21 10 .null .null true) (.node 0x2C 13 .null .null true) false)
    (.node 0 30
      (.node 0 15 (.node 0x0B 7 .null .null true) (.node 0x16 8 .null .null true) false)
      (.node 0x00 15 .null .null true) false)
    false

/-- The tree that `decode` builds from the table that `encode` writes for `paddingInput` on
`stlPlatform`: the leaf `0x00` and the node above `0x0B` and `0x16` have changed places. -/
def paddingDecodeRoot : HuffNode :=
  .node 0 53
    (.node 0 23 (.node 0x21 10 .null .null true) (.node 0x2C 13 .null .null true) false)
    (.node 0 30
      (.node 0x00 15 .null .null true)
      (.node 0 15 (.node 0x0B 7 .null .null true) (.node 0x16 8 .null .null true) false)
      false)
    false

/-- What `encode` writes for `paddingInput` on `stlPlatform`: 61 bytes of header and table,
then 16 payload bytes that hold 121 code bits and 7 bits of padding. -/
def paddingEncoded : Buffer :=
  [53, 0, 0, 0, 0, 0, 0, 0, 5, 0, 0, 0, 0, 0, 0, 0,
    44, 13, 0, 0, 0, 0, 0, 0, 0, 33, 10, 0, 0, 0, 0, 0, 0, 0, 22, 8, 0, 0, 0, 0, 0, 0, 0,
    11, 7, 0, 0, 0, 0, 0, 0, 0, 0, 15, 0, 0, 0, 0, 0, 0, 0,
    255, 255, 255, 254, 73, 36, 150, 219, 109, 160, 0, 0, 170, 170, 170, 128]

/-- The bytes of `paddingEncoded` with the 7 bits of padding set. -/
def paddingEncodedSet : Buffer := paddingEncoded.dropLast ++ [0xFF]

/-! ## The reference platform is lawful -/

theorem is_heap_of_sorted {v : List FrequencyAndHuffNode}
    (h : v.Sorted (fun a b => a.1 ≤ b.1)) : is_heap v := by
  intro i x y hi hx hy
  rw [List.getElem?_eq_some_iff] at hx hy
  obtain ⟨hx1, hx2⟩ := hx
  obtain ⟨hy1, hy2⟩ := hy
  have hlt : (i - 1) / 2 < i := by omega
  have hp := (List.pairwise_iff_getElem.mp h) ((i - 1) / 2) i hx1 hy1 hlt
  rw [hx2, hy2] at hp
  simp only [HuffCompare, gt_iff_lt, decide_eq_false_iff_not, not_lt]
  exact hp

theorem sortByKey_sorted (v : List FrequencyAndHuffNode) :
    (sortByKey v).Sorted (fun a b => a.1 ≤ b.1) := by
  haveI : IsTotal FrequencyAndHuffNode (fun a b => a.1 ≤ b.1) := ⟨fun a b => Nat.le_total a.1 b.1⟩
  haveI : IsTrans FrequencyAndHuffNode (fun a b => a.1 ≤ b.1) :=
    ⟨fun a b c hab hbc => Nat.le_trans hab hbc⟩
  exact List.sorted_insertionSort _ v

theorem sortByKey_perm (v : List FrequencyAndHuffNode) : (sortByKey v).Perm v :=
  List.perm_insertionSort _ v

theorem refPlatform_lawful : refPlatform.Lawful where
  word := by decide
  iter_perm := fun ks => List.Perm.refl ks
  make_perm := sortByKey_perm
  make_is_heap := fun v => is_heap_of_sorted (sortByKey_sorted v)
  pop_perm := by
    intro v hv _
    cases v with
    | nil => exact absurd rfl hv
    | cons a t =>
      simp only [refPlatform, List.tail_cons, List.head?_cons, Option.toList_some]
      exact (List.perm_append_comm.trans (List.Perm.cons a (sortByKey_perm t)))
  pop_last := by
    intro v hv _
    cases v with
    | nil => exact absurd rfl hv
    | cons a t => simp [refPlatform]
  pop_is_heap := by
    intro v hv _
    cases v with
    | nil => exact absurd rfl hv
    | cons a t =>
      simp only [refPlatform, List.tail_cons, List.head?_cons, Option.toList_some,
        List.dropLast_concat]
      exact is_heap_of_sorted (sortByKey_sorted t)
  push_perm := fun v _ => sortByKey_perm v
  push_is_heap := fun v _ => is_heap_of_sorted (sortByKey_sorted v)

theorem releasePlatform_lawful : releasePlatform.Lawful where
  word := by decide
  iter_perm := fun ks => List.Perm.refl ks
  make_perm := sortByKey_perm
  make_is_heap := fun v => is_heap_of_sorted (sortByKey_sorted v)
  pop_perm := by
    intro v hv _
    cases v with
    | nil => exact absurd rfl hv
    | cons a t =>
      simp only [releasePlatform, refPlatform, List.tail_cons, List.head?_cons, Option.toList_some]
      exact (List.perm_append_comm.trans (List.Perm.cons a (sortByKey_perm t)))
  pop_last := by
    intro v hv _
    cases v with
    | nil => exact absurd rfl hv
    | cons a t => simp [releasePlatform, refPlatform]
  pop_is_heap := by
    intro v hv _
    cases v with
    | nil => exact absurd rfl hv
    | cons a t =>
      simp only [releasePlatform, refPlatform, List.tail_cons, List.head?_cons, Option.toList_some,
        List.dropLast_concat]
      exact is_heap_of_sorted (sortByKey_sorted t)
  push_perm := fun v _ => sortByKey_perm v
  push_is_heap := fun v _ => is_heap_of_sorted (sortByKey_sorted v)

/-! ## Words and bytes -/

theorem leBytes_length (k n : Nat) : (leBytes k n).length = k := by
  induction k generalizing n with
  | zero => rfl
  | succ k ih => simp [leBytes, ih]

theorem leValue_leBytes (k n : Nat) (h : n < 256 ^ k) : leValue (leBytes k n) = n := by
  induction k generalizing n with
  | zero => simp at h; simp [leBytes, leValue, h]
  | succ k ih =>
    have h1 : n / 256 < 256 ^ k := by
      rw [Nat.div_lt_iff_lt_mul (by norm_num)]
      rw [pow_succ] at h
      exact h
    simp only [leBytes, leValue, ih _ h1, Fin.ofNat, Fin.val_mk]
    omega

theorem sizeBytes_length (P : Platform) (n : Nat) : (sizeBytes P n).length = P.W :=
  leBytes_length _ _

theorem wrap_bound (P : Platform) : 2 ^ (8 * P.W) = 256 ^ P.W := by
  rw [pow_mul]; norm_num

theorem readSize_append (P : Platform) (pre post : Buffer) (n : Nat) (h : n < 2 ^ (8 * P.W)) :
    readSize P (pre ++ sizeBytes P n ++ post) pre.length = .ok n := by
  unfold readSize
  have hl : pre.length + P.W ≤ (pre ++ sizeBytes P n ++ post).length := by
    simp [sizeBytes_length]
  rw [if_pos hl]
  have hd : (pre ++ sizeBytes P n ++ post).drop pre.length = sizeBytes P n ++ post := by
    rw [List.append_assoc, List.drop_left]
  rw [hd]
  have ht : (sizeBytes P n ++ post).take P.W = sizeBytes P n := by
    have := sizeBytes_length P n
    rw [← this, List.take_left]
  rw [ht, sizeBytes, leValue_leBytes _ _ (wrap_bound P ▸ h)]

theorem getElem?_append_cons (pre post : Buffer) (b : Byte) :
    (pre ++ b :: post)[pre.length]? = some b := by
  induction pre with
  | nil => simp
  | cons a t ih => simpa using ih

theorem readByte_append (pre post : Buffer) (b : Byte) :
    readByte (pre ++ b :: post) pre.length = .ok b := by
  unfold readByte
  rw [getElem?_append_cons]

/-! ## Bit sets -/

theorem bitsOfNat_length (k n : Nat) : (bitsOfNat k n).length = k := by
  induction k generalizing n with
  | zero => rfl
  | succ k ih => simp [bitsOfNat, ih]

theorem bitsOfNat_to_ulong (s : Bitset) : bitsOfNat s.length s.to_ulong = s := by
  induction s with
  | nil => rfl
  | cons b bs ih =>
    simp only [List.length_cons, Bitset.to_ulong, bitsOfNat]
    have h1 : (b.toNat + 2 * Bitset.to_ulong bs) / 2 = Bitset.to_ulong bs := by
      cases b
      · simp
      · simp only [Bool.toNat_true]; omega
    have h2 : decide ((b.toNat + 2 * Bitset.to_ulong bs) % 2 = 1) = b := by
      cases b
      · simp
      · simp only [Bool.toNat_true, decide_eq_true_eq]; omega
    rw [h1, h2, ih]

theorem to_ulong_lt (s : Bitset) : s.to_ulong < 2 ^ s.length := by
  induction s with
  | nil => simp [Bitset.to_ulong]
  | cons b bs ih =>
    simp only [Bitset.to_ulong, List.length_cons, pow_succ]
    cases b
    · simp only [Bool.toNat_false]; omega
    · simp only [Bool.toNat_true]; omega

theorem ofByte_lowByte (s : Bitset) (h : s.length = 8) : Bitset.ofByte s.lowByte = s := by
  have hlt := to_ulong_lt s
  rw [h] at hlt
  have hv : (s.lowByte).val = s.to_ulong := by
    simp only [Bitset.lowByte, Fin.ofNat, Fin.val_mk]
    omega
  unfold Bitset.ofByte
  rw [hv, ← h]
  exact bitsOfNat_to_ulong s

theorem ofByte_length (b : Byte) : (Bitset.ofByte b).length = 8 := bitsOfNat_length _ _

/-! ## Frequency tables -/

theorem mem_allBytes (b : Byte) : b ∈ allBytes :=
  List.mem_map.mpr ⟨b.val, List.mem_range.mpr b.isLt, Fin.ext (Nat.mod_eq_of_lt b.isLt)⟩

theorem allBytes_nodup : allBytes.Nodup := by
  apply List.Nodup.map_on _ (List.nodup_range 256)
  intro x hx y hy hxy
  have h := congrArg Fin.val hxy
  simp only [Fin.ofNat, Fin.val_mk] at h
  rw [List.mem_range] at hx hy
  omega

theorem allBytes_length : allBytes.length = 256 := by
  simp [allBytes]

theorem mem_keys (t : FrequencyTable) (b : Byte) : b ∈ t.keys ↔ (t b).isSome = true := by
  simp [FrequencyTable.keys, mem_allBytes]

theorem keys_nodup (t : FrequencyTable) : t.keys.Nodup :=
  allBytes_nodup.filter _

theorem inserted_perm_keys (t : FrequencyTable) : t.inserted.Perm t.keys := by
  rw [List.perm_ext_iff_of_nodup t.nodup (keys_nodup t)]
  intro b
  rw [t.mem_inserted, mem_keys]

/-- On a lawful platform a table is iterated over its keys, each once. -/
theorem iter_keys_perm (P : Platform) (hP : P.Lawful) (t : FrequencyTable) :
    (P.iterOrder t.inserted).Perm t.keys :=
  (hP.iter_perm t.inserted).trans (inserted_perm_keys t)

theorem table_ext (t1 t2 : FrequencyTable) (hc : ∀ b, t1 b = t2 b)
    (hi : t1.inserted = t2.inserted) : t1 = t2 := by
  cases t1 with
  | mk c1 i1 n1 m1 =>
    cases t2 with
    | mk c2 i2 n2 m2 =>
      have hc' : c1 = c2 := funext hc
      subst hc'
      subst hi
      rfl

theorem assign_apply (t : FrequencyTable) (b : Byte) (c : Nat) (x : Byte) :
    (t.assign b c) x = if x = b then some c else t x := rfl

theorem empty_apply (x : Byte) : FrequencyTable.empty x = none := rfl

theorem incr_apply (P : Platform) (t : FrequencyTable) (b x : Byte) :
    (t.incr P b) x = if x = b then some (wrap P ((t b).getD 0 + 1)) else t x := rfl

theorem mem_entries_imp (P : Platform) (t : FrequencyTable) (e : Byte × Nat)
    (h : e ∈ t.entries P) : t e.1 = some e.2 := by
  simp only [FrequencyTable.entries, List.mem_filterMap, Option.map_eq_some'] at h
  obtain ⟨b, _, c, hc, rfl⟩ := h
  exact hc

theorem mem_entries (P : Platform) (hP : P.Lawful) (t : FrequencyTable) (e : Byte × Nat) :
    e ∈ t.entries P ↔ t e.1 = some e.2 := by
  constructor
  · exact mem_entries_imp P t e
  · intro h
    simp only [FrequencyTable.entries, List.mem_filterMap, Option.map_eq_some']
    refine ⟨e.1, ?_, e.2, h, rfl⟩
    rw [(iter_keys_perm P hP t).mem_iff, mem_keys, h]
    rfl

theorem filterMap_entries_map (t : FrequencyTable) (l : List Byte)
    (h : ∀ b ∈ l, (t b).isSome = true) :
    (l.filterMap (fun b => (t b).map (fun c => (b, c)))).map Prod.fst = l := by
  induction l with
  | nil => rfl
  | cons a l ih =>
    have ha := h a (List.mem_cons_self a l)
    obtain ⟨c, hc⟩ := Option.isSome_iff_exists.mp ha
    rw [List.filterMap_cons, hc]
    simp only [Option.map_some', List.map_cons]
    rw [ih (fun b hb => h b (List.mem_cons_of_mem a hb))]

theorem entries_keys (P : Platform) (hP : P.Lawful) (t : FrequencyTable) :
    (t.entries P).map Prod.fst = P.iterOrder t.inserted := by
  apply filterMap_entries_map
  intro b hb
  rw [(iter_keys_perm P hP t).mem_iff] at hb
  exact (mem_keys t b).mp hb

theorem entries_length (P : Platform) (hP : P.Lawful) (t : FrequencyTable) :
    (t.entries P).length = t.size := by
  have h := congrArg List.length (entries_keys P hP t)
  rw [List.length_map] at h
  rw [h, (iter_keys_perm P hP t).length_eq]
  rfl

theorem entries_keys_nodup (P : Platform) (hP : P.Lawful) (t : FrequencyTable) :
    ((t.entries P).map Prod.fst).Nodup := by
  rw [entries_keys P hP t]
  exact (iter_keys_perm P hP t).nodup_iff.mpr (keys_nodup t)

/-- The bytes written for one table entry. -/
theorem save_foldl (P : Platform) (es : List (Byte × Nat)) (acc : Buffer) :
    es.foldl (fun out e => out ++ [e.1] ++ sizeBytes P e.2) acc
      = acc ++ es.flatMap (fun e => e.1 :: sizeBytes P e.2) := by
  induction es generalizing acc with
  | nil => simp
  | cons e es ih =>
    rw [List.foldl_cons, ih, List.flatMap_cons]
    simp [List.append_assoc]

theorem saveFrequencyTable_eq (P : Platform) (outBuffer : Buffer) (t : FrequencyTable) :
    saveFrequencyTable P outBuffer t
      = outBuffer ++ sizeBytes P t.size
          ++ (t.entries P).flatMap (fun e => e.1 :: sizeBytes P e.2) := by
  unfold saveFrequencyTable
  rw [save_foldl]

theorem entryBytes_length (P : Platform) (es : List (Byte × Nat)) :
    (es.flatMap (fun e => e.1 :: sizeBytes P e.2)).length = es.length * (1 + P.W) := by
  induction es with
  | nil => simp
  | cons e es ih =>
    rw [List.flatMap_cons, List.length_append, ih]
    simp only [List.length_cons, sizeBytes_length]
    ring

theorem saveFrequencyTable_length (P : Platform) (hP : P.Lawful) (outBuffer : Buffer)
    (t : FrequencyTable) :
    (saveFrequencyTable P outBuffer t).length
      = outBuffer.length + P.W + t.size * (1 + P.W) := by
  rw [saveFrequencyTable_eq, List.length_append, List.length_append, entryBytes_length,
    sizeBytes_length, entries_length P hP]

theorem loadLoop_entries (P : Platform) (es : List (Byte × Nat)) (pre post : Buffer)
    (acc : FrequencyTable) (hes : ∀ e ∈ es, e.2 < 2 ^ (8 * P.W)) :
    loadLoop P (pre ++ es.flatMap (fun e => e.1 :: sizeBytes P e.2) ++ post) es.length
        pre.length acc
      = .ok (es.foldl (fun t e => t.assign e.1 e.2) acc) := by
  induction es generalizing pre acc with
  | nil => rfl
  | cons e es ih =>
    have hb : readByte (pre ++ (e :: es).flatMap (fun e => e.1 :: sizeBytes P e.2) ++ post)
        pre.length = .ok e.1 := by
      simp only [List.flatMap_cons, List.append_assoc, List.cons_append]
      exact readByte_append pre _ e.1
    have hs : readSize P (pre ++ (e :: es).flatMap (fun e => e.1 :: sizeBytes P e.2) ++ post)
        (pre.length + 1) = .ok e.2 := by
      have h := readSize_append P (pre ++ [e.1])
        (es.flatMap (fun e => e.1 :: sizeBytes P e.2) ++ post) e.2
        (hes e (List.mem_cons_self e es))
      rw [List.length_append, List.length_singleton] at h
      rw [← h]
      congr 1
      simp [List.flatMap_cons, List.append_assoc]
    simp only [List.length_cons, loadLoop, hb, hs, List.foldl_cons]
    have h := ih (pre ++ e.1 :: sizeBytes P e.2) (acc.assign e.1 e.2)
      (fun x hx => hes x (List.mem_cons_of_mem e hx))
    rw [List.length_append, List.length_cons, sizeBytes_length] at h
    have hpos : pre.length + 1 + P.W = pre.length + (P.W + 1) := by omega
    rw [hpos, ← h]
    congr 1
    simp [List.flatMap_cons, List.append_assoc]

theorem foldl_assign_not_mem (es : List (Byte × Nat)) (acc : FrequencyTable) (x : Byte)
    (h : x ∉ es.map Prod.fst) :
    (es.foldl (fun t e => t.assign e.1 e.2) acc) x = acc x := by
  induction es generalizing acc with
  | nil => rfl
  | cons e es ih =>
    rw [List.map_cons, List.mem_cons, not_or] at h
    rw [List.foldl_cons, ih _ h.2, assign_apply, if_neg h.1]

theorem foldl_assign_mem (es : List (Byte × Nat)) (acc : FrequencyTable) (x : Byte) (c : Nat)
    (hnd : (es.map Prod.fst).Nodup) (h : (x, c) ∈ es) :
    (es.foldl (fun t e => t.assign e.1 e.2) acc) x = some c := by
  induction es generalizing acc with
  | nil => cases h
  | cons e es ih =>
    rw [List.map_cons, List.nodup_cons] at hnd
    rw [List.foldl_cons]
    rcases List.mem_cons.mp h with h1 | h1
    · subst h1
      rw [foldl_assign_not_mem _ _ _ hnd.1, assign_apply, if_pos rfl]
    · exact ih _ hnd.2 h1

theorem foldl_assign_inserted (es : List (Byte × Nat)) (acc : FrequencyTable)
    (hnd : (es.map Prod.fst).Nodup) (hnew : ∀ e ∈ es, e.1 ∉ acc.inserted) :
    (es.foldl (fun t e => t.assign e.1 e.2) acc).inserted
      = acc.inserted ++ es.map Prod.fst := by
  induction es generalizing acc with
  | nil => simp
  | cons e es ih =>
    rw [List.map_cons, List.nodup_cons] at hnd
    have he : ¬ (acc.count e.1).isSome = true := fun h =>
      hnew e (List.mem_cons_self e es) ((acc.mem_inserted e.1).mpr h)
    have hins : (acc.assign e.1 e.2).inserted = acc.inserted ++ [e.1] := by
      show (if (acc.count e.1).isSome = true then acc.inserted else acc.inserted ++ [e.1])
        = acc.inserted ++ [e.1]
      rw [if_neg he]
    rw [List.foldl_cons, ih _ hnd.2, hins, List.map_cons, List.append_assoc]
    · rfl
    · intro x hx hmem
      rw [hins, List.mem_append, List.mem_singleton] at hmem
      rcases hmem with hmem | hmem
      · exact hnew x (List.mem_cons_of_mem e hx) hmem
      · exact hnd.1 (by rw [← hmem]; exact List.mem_map_of_mem Prod.fst hx)

/-- The reloaded table holds the counts of the table. -/
theorem reload_apply (P : Platform) (hP : P.Lawful) (t : FrequencyTable) (x : Byte) :
    (t.reload P) x = t x := by
  unfold FrequencyTable.reload
  cases hx : t x with
  | none =>
    rw [foldl_assign_not_mem]
    · rfl
    · rw [entries_keys P hP, (iter_keys_perm P hP t).mem_iff, mem_keys]
      show ¬ (t x).isSome = true
      rw [hx]
      simp
  | some c =>
    apply foldl_assign_mem _ _ _ _ (entries_keys_nodup P hP t)
    rw [mem_entries P hP]
    exact hx

/-- The keys of the reloaded table were inserted in the order of iteration of the table. -/
theorem reload_inserted (P : Platform) (hP : P.Lawful) (t : FrequencyTable) :
    (t.reload P).inserted = P.iterOrder t.inserted := by
  unfold FrequencyTable.reload
  rw [foldl_assign_inserted _ _ (entries_keys_nodup P hP t) (fun e _ h => by cases h),
    entries_keys P hP]
  rfl

/-- A table that is iterated in the order of insertion of its keys is reloaded as it was. -/
theorem reload_eq (P : Platform) (hP : P.Lawful) (t : FrequencyTable)
    (hiter : P.iterOrder t.inserted = t.inserted) : t.reload P = t :=
  table_ext _ _ (reload_apply P hP t) (by rw [reload_inserted P hP, hiter])

theorem size_lt (P : Platform) (hP : P.Lawful) (t : FrequencyTable) :
    t.size < 2 ^ (8 * P.W) := by
  have h1 : t.size ≤ 256 := by
    unfold FrequencyTable.size FrequencyTable.keys
    calc (allBytes.filter _).length ≤ allBytes.length := List.length_filter_le _ _
      _ = 256 := allBytes_length
  have h2 : 2 ^ (8 * 2) ≤ 2 ^ (8 * P.W) :=
    Nat.pow_le_pow_right (by norm_num) (by have := hP.word; omega)
  have h3 : (2 : Nat) ^ (8 * 2) = 65536 := by norm_num
  omega

/-- Loading what `saveFrequencyTable` wrote, whatever follows it in the buffer. -/
theorem load_save (P : Platform) (hP : P.Lawful) (p post : Buffer) (t : FrequencyTable)
    (ht : ∀ b c, t b = some c → c < 2 ^ (8 * P.W)) :
    loadFrequencyTable P (saveFrequencyTable P p t ++ post) p.length
      = .ok (true, t.reload P) := by
  have hlen : ¬ (saveFrequencyTable P p t ++ post).length < P.W := by
    rw [List.length_append, saveFrequencyTable_length P hP]
    omega
  have hsz : readSize P (saveFrequencyTable P p t ++ post) p.length = .ok t.size := by
    rw [saveFrequencyTable_eq, List.append_assoc, List.append_assoc, ← List.append_assoc]
    exact readSize_append P p _ t.size (size_lt P hP t)
  have hloop : loadLoop P (saveFrequencyTable P p t ++ post) t.size (p.length + P.W)
      FrequencyTable.empty = .ok (t.reload P) := by
    have h := loadLoop_entries P (t.entries P) (p ++ sizeBytes P t.size) post
      FrequencyTable.empty (fun e he => ht e.1 e.2 (mem_entries_imp P t e he))
    rw [entries_length P hP, List.length_append, sizeBytes_length,
      ← saveFrequencyTable_eq] at h
    exact h
  unfold loadFrequencyTable
  simp only [if_neg hlen, Nat.zero_mul, Nat.not_lt_zero, if_false, hsz, hloop]

/-! ## Counting -/

theorem foldl_incr_isSome (P : Platform) (buf : Buffer) (acc : FrequencyTable) (b : Byte) :
    ((buf.foldl (FrequencyTable.incr P) acc) b).isSome = ((acc b).isSome || decide (b ∈ buf)) := by
  induction buf generalizing acc with
  | nil => simp
  | cons a buf ih =>
    rw [List.foldl_cons, ih]
    by_cases hab : b = a
    · subst hab
      simp [incr_apply]
    · have hne : ¬ a = b := fun h => hab h.symm
      simp [incr_apply, hab, hne]

theorem foldl_incr_count (P : Platform) (buf : Buffer) (acc : FrequencyTable) (b : Byte)
    (h : (acc b).getD 0 + buf.count b < 2 ^ (8 * P.W)) :
    (buf.foldl (FrequencyTable.incr P) acc) b
      = if buf.count b = 0 then acc b else some ((acc b).getD 0 + buf.count b) := by
  induction buf generalizing acc with
  | nil => simp
  | cons a buf ih =>
    rw [List.foldl_cons]
    by_cases hab : a = b
    · subst hab
      rw [List.count_cons_self] at h ⊢
      have hacc : (FrequencyTable.incr P acc a) a = some ((acc a).getD 0 + 1) := by
        rw [incr_apply, if_pos rfl, wrap, Nat.mod_eq_of_lt (by omega)]
      rw [ih]
      · rw [hacc]
        by_cases hc : buf.count a = 0
        · simp [hc]
        · simp only [hc, if_false, Option.getD_some, Nat.add_one_ne_zero]
          congr 1
          omega
      · rw [hacc]
        simp only [Option.getD_some]
        omega
    · have hacc : (FrequencyTable.incr P acc a) b = acc b := by
        have hne : ¬ b = a := fun h => hab h.symm
        rw [incr_apply, if_neg hne]
      have hcnt : (a :: buf).count b = buf.count b := List.count_cons_of_ne (fun h => hab h.symm) buf
      rw [hcnt] at h ⊢
      rw [ih _ (by rw [hacc]; exact h), hacc]

theorem buildFrequencyTable_apply (P : Platform) (buf : Buffer) (b : Byte)
    (h : buf.length < 2 ^ (8 * P.W)) :
    buildFrequencyTable P buf b = if buf.count b = 0 then none else some (buf.count b) := by
  unfold buildFrequencyTable
  have hc : buf.count b ≤ buf.length := List.count_le_length b buf
  rw [foldl_incr_count]
  · simp [empty_apply]
  · simp only [empty_apply, Option.getD_none]
    omega

theorem keys_perm_dedup (t : FrequencyTable) (buf : Buffer)
    (h : ∀ b, (t b).isSome = decide (b ∈ buf)) : t.keys.Perm buf.dedup := by
  rw [List.perm_ext_iff_of_nodup (keys_nodup t) (List.nodup_dedup buf)]
  intro b
  rw [mem_keys, h, List.mem_dedup]
  simp

theorem buildFrequencyTable_keys (P : Platform) (buf : Buffer) :
    (buildFrequencyTable P buf).keys.Perm buf.dedup := by
  apply keys_perm_dedup
  intro b
  unfold buildFrequencyTable
  rw [foldl_incr_isSome]
  simp [empty_apply]

theorem buildFrequencyTable_size (P : Platform) (buf : Buffer) :
    (buildFrequencyTable P buf).size = buf.dedup.length :=
  (buildFrequencyTable_keys P buf).length_eq

theorem encode_guard (P : Platform) (inBuffer outBuffer : Buffer)
    (h : inBuffer = [] ∨ inBuffer.length < P.W + inBuffer.dedup.length * (1 + P.W)) :
    encode P inBuffer outBuffer = .ok (false, outBuffer) := by
  unfold encode
  rcases h with h | h
  · subst h
    exact if_pos (Nat.le_refl 0)
  · by_cases h0 : inBuffer.length ≤ 0
    · rw [if_pos h0]
    · rw [if_neg h0]
      have hg : (buildFrequencyTable P inBuffer).size * (1 + P.W) + P.W > inBuffer.length := by
        rw [buildFrequencyTable_size]
        omega
      exact if_pos hg

/-! ## Tree construction -/

theorem proper_leafNode (e : Byte × Nat) : Proper (leafNode e) := by
  simp [leafNode, Proper]

theorem leaves_leafNode (e : Byte × Nat) : leaves (leafNode e) = [e] := by
  simp [leafNode, leaves]

theorem proper_ne_null {n : HuffNode} (h : Proper n) : n ≠ .null := by
  intro hn
  subst hn
  exact h

theorem proper_flagged {b : Byte} {c : Nat} {l r : HuffNode} (h : Proper (.node b c l r true)) :
    HuffNode.node b c l r true = leafNode (b, c) := by
  rcases h with ⟨hr, hl, _⟩ | ⟨_, _, hd⟩
  · subst hr
    subst hl
    rfl
  · cases hd

theorem leaves_parent (b : Byte) (c : Nat) (l r : HuffNode) (d : Bool) (hl : l ≠ .null) :
    leaves (.node b c l r d) = leaves l ++ leaves r := by
  simp [leaves, hl]

theorem addTwoNodesToTree_ok (P : Platform) (f1 f2 : FrequencyAndHuffNode)
    (h1 : Proper f1.2) (h2 : Proper f2.2) :
    ∃ c, addTwoNodesToTree P f1 f2 = .ok (.node 0 c f1.2 f2.2 false) := by
  obtain ⟨k1, n1⟩ := f1
  obtain ⟨k2, n2⟩ := f2
  cases n1 with
  | null => exact absurd h1 (by simp [Proper])
  | node b1 c1 l1 r1 d1 =>
    cases n2 with
    | null => exact absurd h2 (by simp [Proper])
    | node b2 c2 l2 r2 d2 => exact ⟨wrap P (c1 + c2), rfl⟩

theorem pop_decompose (P : Platform) (hP : P.Lawful) (v : List FrequencyAndHuffNode)
    (hv : v ≠ []) (hh : is_heap v) :
    ∃ f d, lastElem (P.pop_heap v) = .ok f ∧ (P.pop_heap v).dropLast = d ∧
      (d ++ [f]).Perm v ∧ is_heap d ∧ d.length + 1 = v.length ∧ v.head? = some f := by
  have hperm := hP.pop_perm v hv hh
  have hne : P.pop_heap v ≠ [] := by
    intro h0
    rw [h0] at hperm
    exact hv (List.perm_nil.mp hperm.symm)
  obtain ⟨f, hf⟩ := Option.isSome_iff_exists.mp (List.getLast?_isSome.mpr hne)
  have hd : (P.pop_heap v).dropLast ++ [f] = P.pop_heap v :=
    List.dropLast_append_getLast? f hf
  refine ⟨f, (P.pop_heap v).dropLast, ?_, rfl, ?_, hP.pop_is_heap v hv hh, ?_, ?_⟩
  · simp [lastElem, hf]
  · rw [hd]
    exact hperm
  · have h1 := congrArg List.length hd
    rw [List.length_append, List.length_singleton, hperm.length_eq] at h1
    exact h1
  · rw [← hP.pop_last v hv hh, hf]

theorem registerLeaf_spec (E : List (Byte × Nat)) (lt : Option LeafNodeTable)
    (p : FrequencyAndHuffNode) (hp : Proper p.2) (hsub : ∀ e ∈ leaves p.2, e ∈ E)
    (hA : TabEntries E lt)
    (hB : ∀ b c l r, p.2 = .node b c l r false → ∀ e ∈ leaves p.2, Registered lt e.1) :
    ∃ lt', registerLeaf p lt = .ok lt' ∧ (lt = none → lt' = none) ∧
      (∀ f, lt = some f → ∃ f', lt' = some f') ∧ TabEntries E lt' ∧
      (∀ x, Registered lt x → Registered lt' x) ∧ (∀ e ∈ leaves p.2, Registered lt' e.1) := by
  cases lt with
  | none =>
    refine ⟨none, rfl, fun _ => rfl, ?_, ?_, ?_, ?_⟩
    · intro f hf; cases hf
    · intro f hf; cases hf
    · intro x _ f hf; cases hf
    · intro e _ f hf; cases hf
  | some f =>
    obtain ⟨k, n⟩ := p
    cases n with
    | null => exact absurd hp (by simp [Proper])
    | node b c l r d =>
      cases d with
      | false =>
        refine ⟨some f, rfl, ?_, fun f0 _ => ⟨f, rfl⟩, hA, fun x hx => hx, ?_⟩
        · intro h; cases h
        · exact hB b c l r rfl
      | true =>
        have hleaf : HuffNode.node b c l r true = leafNode (b, c) := proper_flagged hp
        have hmem : (b, c) ∈ E := by
          apply hsub
          show (b, c) ∈ leaves (HuffNode.node b c l r true)
          rw [hleaf, leaves_leafNode]
          exact List.mem_singleton_self _
        refine ⟨some (fun x => if x = b then HuffNode.node b c l r true else f x), rfl, ?_,
          fun f0 _ => ⟨_, rfl⟩, ?_, ?_, ?_⟩
        · intro h; cases h
        · intro f' hf' x hx
          cases hf'
          by_cases hxb : x = b
          · subst hxb
            refine ⟨c, hmem, ?_⟩
            simp only [if_true]
            exact hleaf
          · simp only [hxb, if_false] at hx ⊢
            exact hA f rfl x hx
        · intro x hx f' hf'
          cases hf'
          by_cases hxb : x = b
          · simp [hxb]
          · simp only [hxb, if_false]
            exact hx f rfl
        · intro e he f' hf'
          cases hf'
          have he' : e ∈ leaves (HuffNode.node b c l r true) := he
          rw [hleaf, leaves_leafNode, List.mem_singleton] at he'
          subst he'
          simp

theorem buildLoop_spec (P : Platform) (hP : P.Lawful) (E : List (Byte × Nat)) :
    ∀ (fuel : Nat) (v : List FrequencyAndHuffNode) (pNode : HuffNode)
      (lt : Option LeafNodeTable),
      v.length ≤ fuel → LoopInv E v lt →
      (2 ≤ v.length ∨ ∃ w c l r, v = [(w, pNode)] ∧ pNode = .node 0 c l r false) →
      ∃ root lt', buildLoop P fuel v pNode lt = .ok (root, lt') ∧ Proper root ∧
        (∃ c l r, root = .node 0 c l r false) ∧ (leaves root).Perm E ∧
        (lt = none → lt' = none) ∧ (∀ f, lt = some f → ∃ f', lt' = some f') ∧
        TabEntries E lt' ∧ ∀ e ∈ leaves root, Registered lt' e.1 := by
  intro fuel
  induction fuel with
  | zero =>
    intro v pNode lt hlen inv hcase
    rcases hcase with h2 | ⟨w, c, l, r, hv, _⟩
    · omega
    · subst hv
      simp at hlen
  | succ fuel ih =>
    intro v pNode lt hlen inv hcase
    rcases hcase with h2 | ⟨w, c, l, r, hv, hp⟩
    · -- one iteration
      have hvne : v ≠ [] := by
        intro h0; subst h0; simp at h2
      obtain ⟨f1, d1, hlast1, hdrop1, hperm1, hheap1, hlen1, _⟩ :=
        pop_decompose P hP v hvne inv.heap
      have hd1ne : d1 ≠ [] := by
        intro h0; subst h0; simp at hlen1; omega
      obtain ⟨f2, d2, hlast2, hdrop2, hperm2, hheap2, hlen2, _⟩ :=
        pop_decompose P hP d1 hd1ne hheap1
      have hpermv : (d2 ++ [f2] ++ [f1]).Perm v :=
        (List.Perm.append_right [f1] hperm2).trans hperm1
      have hf1 : f1 ∈ v := hpermv.mem_iff.mp (by simp)
      have hf2 : f2 ∈ v := hpermv.mem_iff.mp (by simp)
      have hd2 : ∀ p ∈ d2, p ∈ v := fun p hp => hpermv.mem_iff.mp (by simp [hp])
      have hEperm : (d2.flatMap (fun p => leaves p.2) ++ leaves f2.2 ++ leaves f1.2).Perm E := by
        have h := (List.Perm.flatMap_right (fun p : FrequencyAndHuffNode => leaves p.2)
          hpermv).trans inv.perm
        simpa [List.flatMap_append] using h
      have hsub1 : ∀ e ∈ leaves f1.2, e ∈ E := fun e he =>
        hEperm.mem_iff.mp (by simp [he])
      have hsub2 : ∀ e ∈ leaves f2.2, e ∈ E := fun e he =>
        hEperm.mem_iff.mp (by simp [he])
      obtain ⟨lt1, hreg1, hnone1, hsome1, hA1, hmono1, hnew1⟩ :=
        registerLeaf_spec E lt f1 (inv.proper f1 hf1) hsub1 inv.entries
          (inv.registered f1 hf1)
      obtain ⟨lt2, hreg2, hnone2, hsome2, hA2, hmono2, hnew2⟩ :=
        registerLeaf_spec E lt1 f2 (inv.proper f2 hf2) hsub2 hA1
          (fun b c l r hn e he => hmono1 _ (inv.registered f2 hf2 b c l r hn e he))
      obtain ⟨c, hadd⟩ := addTwoNodesToTree_ok P f1 f2 (inv.proper f1 hf1) (inv.proper f2 hf2)
      have hstep : buildLoop P (fuel + 1) v pNode lt
          = buildLoop P fuel
              (P.push_heap (d2 ++ [(wrap P (f1.1 + f2.1), HuffNode.node 0 c f1.2 f2.2 false)]))
              (HuffNode.node 0 c f1.2 f2.2 false) lt2 := by
        rw [buildLoop, if_pos (by omega)]
        simp only [hlast1, hdrop1, hlast2, hdrop2, hreg1, hreg2, hadd]
      rw [hstep]
      have hpre : is_heap
          (d2 ++ [(wrap P (f1.1 + f2.1), HuffNode.node 0 c f1.2 f2.2 false)]).dropLast := by
        rw [List.dropLast_concat]
        exact hheap2
      have hperm3 := hP.push_perm _ hpre
      have hparent : Proper (HuffNode.node 0 c f1.2 f2.2 false) :=
        Or.inr ⟨inv.proper f1 hf1, inv.proper f2 hf2, rfl⟩
      have hleaves : leaves (HuffNode.node 0 c f1.2 f2.2 false) = leaves f1.2 ++ leaves f2.2 :=
        leaves_parent _ _ _ _ _ (proper_ne_null (inv.proper f1 hf1))
      have hlen3 : (P.push_heap
          (d2 ++ [(wrap P (f1.1 + f2.1), HuffNode.node 0 c f1.2 f2.2 false)])).length
            = d2.length + 1 := by
        rw [hperm3.length_eq]
        simp
      have hlen' : (P.push_heap
          (d2 ++ [(wrap P (f1.1 + f2.1), HuffNode.node 0 c f1.2 f2.2 false)])).length ≤ fuel := by
        omega
      have hinv : LoopInv E (P.push_heap
          (d2 ++ [(wrap P (f1.1 + f2.1), HuffNode.node 0 c f1.2 f2.2 false)])) lt2 := by
        refine ⟨hP.push_is_heap _ hpre, ?_, ?_, hA2, ?_⟩
        · intro p hp
          rw [hperm3.mem_iff, List.mem_append, List.mem_singleton] at hp
          rcases hp with hp | hp
          · exact inv.proper p (hd2 p hp)
          · subst hp
            exact hparent
        · refine ((List.Perm.flatMap_right (fun p : FrequencyAndHuffNode => leaves p.2)
            hperm3).trans ?_).trans hEperm
          simp only [List.flatMap_append, List.flatMap_cons, List.flatMap_nil,
            List.append_nil, hleaves, List.append_assoc]
          exact List.Perm.append_left _ List.perm_append_comm
        · intro p hp b' c' l' r' hn e he
          rw [hperm3.mem_iff, List.mem_append, List.mem_singleton] at hp
          rcases hp with hp | hp
          · exact hmono2 _ (hmono1 _ (inv.registered p (hd2 p hp) b' c' l' r' hn e he))
          · subst hp
            have he' : e ∈ leaves f1.2 ++ leaves f2.2 := by
              rw [← hleaves]
              exact he
            rcases List.mem_append.mp he' with h1 | h1
            · exact hmono2 _ (hnew1 e h1)
            · exact hnew2 e h1
      have hcase' : 2 ≤ (P.push_heap
          (d2 ++ [(wrap P (f1.1 + f2.1), HuffNode.node 0 c f1.2 f2.2 false)])).length ∨
          ∃ w c' l r, P.push_heap
            (d2 ++ [(wrap P (f1.1 + f2.1), HuffNode.node 0 c f1.2 f2.2 false)])
              = [(w, HuffNode.node 0 c f1.2 f2.2 false)] ∧
            HuffNode.node 0 c f1.2 f2.2 false = HuffNode.node 0 c' l r false := by
        by_cases h3 : 3 ≤ v.length
        · left
          omega
        · right
          have hd2nil : d2 = [] := List.eq_nil_of_length_eq_zero (by omega)
          subst hd2nil
          refine ⟨wrap P (f1.1 + f2.1), c, f1.2, f2.2, ?_, rfl⟩
          exact List.perm_singleton.mp hperm3
      obtain ⟨root, lt', hrun, hproper, hshape, hlv, hnone, hsome, hA, hR⟩ :=
        ih _ _ lt2 hlen' hinv hcase'
      refine ⟨root, lt', hrun, hproper, hshape, hlv, ?_, ?_, hA, hR⟩
      · intro h
        exact hnone (hnone2 (hnone1 h))
      · intro f hf
        obtain ⟨f1', hf1'⟩ := hsome1 f hf
        obtain ⟨f2', hf2'⟩ := hsome2 f1' hf1'
        exact hsome f2' hf2'
    · -- the loop has ended
      subst hv
      subst hp
      have hroot : buildLoop P (fuel + 1) [(w, HuffNode.node 0 c l r false)]
          (HuffNode.node 0 c l r false) lt = .ok (HuffNode.node 0 c l r false, lt) := by
        rw [buildLoop, if_neg (by simp)]
      refine ⟨_, lt, hroot, inv.proper _ (List.mem_singleton_self _), ⟨c, l, r, rfl⟩, ?_,
        fun h => h, fun f hf => ⟨f, hf⟩, inv.entries, ?_⟩
      · have h := inv.perm
        simpa using h
      · intro e he
        exact inv.registered _ (List.mem_singleton_self _) 0 c l r rfl e he

theorem buildLoop_root (P : Platform) :
    ∀ (fuel : Nat) (v : List FrequencyAndHuffNode) (pNode : HuffNode)
      (lt : Option LeafNodeTable),
      Except.map Prod.fst (buildLoop P fuel v pNode lt)
        = Except.map Prod.fst (buildLoop P fuel v pNode none) := by
  intro fuel
  induction fuel with
  | zero =>
    intro v pNode lt
    simp only [buildLoop]
    split <;> rfl
  | succ fuel ih =>
    intro v pNode lt
    cases lt with
    | none => rfl
    | some f =>
      simp only [buildLoop]
      split
      · cases h1 : lastElem (P.pop_heap v) with
        | error e => rfl
        | ok f1 =>
          cases h2 : lastElem (P.pop_heap (P.pop_heap v).dropLast) with
          | error e => rfl
          | ok f2 =>
            obtain ⟨k1, n1⟩ := f1
            obtain ⟨k2, n2⟩ := f2
            cases n1 with
            | null => cases n2 <;> rfl
            | node b1 c1 l1 r1 d1 =>
              cases n2 with
              | null => cases d1 <;> rfl
              | node b2 c2 l2 r2 d2 =>
                cases d1 <;> cases d2 <;>
                  simp only [registerLeaf, addTwoNodesToTree, if_true, if_false,
                    Bool.false_eq_true] <;>
                  rw [ih]
      · rfl

theorem buildLoop_none (P : Platform) :
    ∀ (fuel : Nat) (v : List FrequencyAndHuffNode) (pNode root : HuffNode)
      (lt' : Option LeafNodeTable),
      buildLoop P fuel v pNode none = .ok (root, lt') → lt' = none := by
  intro fuel
  induction fuel with
  | zero =>
    intro v pNode root lt' h
    simp only [buildLoop] at h
    split at h
    · cases h
    · cases h
      rfl
  | succ fuel ih =>
    intro v pNode root lt' h
    simp only [buildLoop] at h
    split at h
    · revert h
      cases h1 : lastElem (P.pop_heap v) with
      | error e => intro h; cases h
      | ok f1 =>
        cases h2 : lastElem (P.pop_heap (P.pop_heap v).dropLast) with
        | error e => intro h; cases h
        | ok f2 =>
          simp only [registerLeaf]
          cases h3 : addTwoNodesToTree P f1 f2 with
          | error e => intro h; cases h
          | ok parent =>
            intro h
            exact ih _ _ _ _ h
    · cases h
      rfl

theorem initialNodes_leaves (P : Platform) (t : FrequencyTable) :
    (initialNodes P t).flatMap (fun p => leaves p.2) = t.entries P := by
  unfold initialNodes
  induction t.entries P with
  | nil => rfl
  | cons e es ih =>
    rw [List.map_cons, List.flatMap_cons, ih]
    simp [leaves]

theorem initialNodes_length (P : Platform) (hP : P.Lawful) (t : FrequencyTable) :
    (initialNodes P t).length = t.size := by
  rw [initialNodes, List.length_map, entries_length P hP]

theorem buildHuffmanTree_spec (P : Platform) (hP : P.Lawful) (r0 : HuffNode)
    (t : FrequencyTable) (lt : Option LeafNodeTable) (hn : 2 ≤ t.size)
    (hlt : ∀ f, lt = some f → ∀ b, f b = .null) :
    ∃ root lt', buildHuffmanTree P r0 t lt = .ok (true, root, lt') ∧ Proper root ∧
      (∃ c l r, root = .node 0 c l r false) ∧ (leaves root).Perm (t.entries P) ∧
      (lt = none → lt' = none) ∧
      (∀ f, lt = some f → ∃ f', lt' = some f' ∧ ∀ e ∈ t.entries P, f' e.1 = leafNode e) := by
  have hmk := hP.make_perm (initialNodes P t)
  have hlen : (P.make_heap (initialNodes P t)).length = t.size := by
    rw [hmk.length_eq, initialNodes_length P hP]
  have hinv : LoopInv (t.entries P) (P.make_heap (initialNodes P t)) lt := by
    refine ⟨hP.make_is_heap _, ?_, ?_, ?_, ?_⟩
    · intro p hp
      rw [hmk.mem_iff, initialNodes, List.mem_map] at hp
      obtain ⟨e, _, rfl⟩ := hp
      exact proper_leafNode e
    · rw [← initialNodes_leaves]
      exact List.Perm.flatMap_right _ hmk
    · intro f hf b hb
      exact absurd (hlt f hf b) hb
    · intro p hp b c l r hnode
      rw [hmk.mem_iff, initialNodes, List.mem_map] at hp
      obtain ⟨e, _, rfl⟩ := hp
      cases hnode
  obtain ⟨root, lt', hrun, hproper, hshape, hlv, hnone, hsome, hA, hR⟩ :=
    buildLoop_spec P hP (t.entries P) _ _ HuffNode.null lt (Nat.le_refl _) hinv
      (Or.inl (by omega))
  refine ⟨root, lt', ?_, hproper, hshape, hlv, hnone, ?_⟩
  · unfold buildHuffmanTree
    rw [if_neg (by omega)]
    simp only [hrun]
  · intro f hf
    obtain ⟨f', hf'⟩ := hsome f hf
    refine ⟨f', hf', ?_⟩
    intro e he
    have hreg := hR e (hlv.mem_iff.mpr he) f' hf'
    obtain ⟨c, hc, heq⟩ := hA f' hf' e.1 hreg
    have h1 := mem_entries_imp P t _ hc
    have h2 := mem_entries_imp P t _ he
    simp only at h1
    rw [h1] at h2
    cases h2
    exact heq

theorem buildHuffmanTree_root (P : Platform) (r0 : HuffNode) (t : FrequencyTable)
    (lt : Option LeafNodeTable) (root : HuffNode) (lt' : Option LeafNodeTable)
    (h : buildHuffmanTree P r0 t lt = .ok (true, root, lt')) :
    buildHuffmanTree P r0 t none = .ok (true, root, none) := by
  unfold buildHuffmanTree at h ⊢
  by_cases h0 : t.size ≤ 0
  · rw [if_pos h0] at h
    cases h
  · rw [if_neg h0] at h ⊢
    dsimp only at h ⊢
    have hr := buildLoop_root P (P.make_heap (initialNodes P t)).length
      (P.make_heap (initialNodes P t)) HuffNode.null lt
    generalize buildLoop P (P.make_heap (initialNodes P t)).length
      (P.make_heap (initialNodes P t)) HuffNode.null lt = x at h hr
    generalize hy : buildLoop P (P.make_heap (initialNodes P t)).length
      (P.make_heap (initialNodes P t)) HuffNode.null none = y at hr ⊢
    cases x with
    | error e => cases h
    | ok r1 =>
      obtain ⟨p1, t1⟩ := r1
      cases y with
      | error e => cases hr
      | ok r2 =>
        obtain ⟨p2, t2⟩ := r2
        simp only [Except.map, Except.ok.injEq] at hr
        simp only [Except.ok.injEq, Prod.mk.injEq, true_and] at h
        have ht2 : t2 = none := buildLoop_none P _ _ _ _ _ hy
        rw [ht2, ← hr, h.1]

theorem buildHuffmanTree_single (P : Platform) (hP : P.Lawful) (r0 : HuffNode)
    (t : FrequencyTable) (lt : Option LeafNodeTable) (h1 : t.size = 1) :
    buildHuffmanTree P r0 t lt = .ok (true, .null, lt) := by
  have hlen : (P.make_heap (initialNodes P t)).length = 1 := by
    rw [(hP.make_perm _).length_eq, initialNodes_length P hP, h1]
  unfold buildHuffmanTree
  rw [if_neg (by omega)]
  simp only [hlen, buildLoop, Nat.lt_irrefl, if_false]

/-! ## Packing bits -/

theorem set_replicate_last (n : Nat) (x : Bool) (R : List Bool) :
    List.set (List.replicate (n + 1) false ++ R) n x = List.replicate n false ++ x :: R := by
  induction n with
  | zero => rfl
  | succ n ih =>
    rw [List.replicate_succ, List.cons_append, List.set_cons_succ, ih]
    rfl

theorem ofByte_explicit (b : Byte) : ∃ d0 d1 d2 d3 d4 d5 d6 d7,
    Bitset.ofByte b = [d0, d1, d2, d3, d4, d5, d6, d7] :=
  ⟨_, _, _, _, _, _, _, _, rfl⟩

theorem msbBits_length (b : Byte) : (msbBits b).length = 8 := by
  rw [msbBits, List.length_reverse, ofByte_length]

theorem msbBits_lowByte (s : Bitset) (h : s.length = 8) : msbBits s.lowByte = s.reverse := by
  rw [msbBits, ofByte_lowByte s h]

theorem bitsOf_append (xs ys : Buffer) : bitsOf (xs ++ ys) = bitsOf xs ++ bitsOf ys := by
  simp [bitsOf]

theorem bitsOf_cons (x : Byte) (ys : Buffer) : bitsOf (x :: ys) = msbBits x ++ bitsOf ys := by
  simp [bitsOf]

theorem packState_zero : PackState [] Bitset.zero 0 := by
  refine ⟨rfl, by norm_num, ?_⟩
  simp [Bitset.zero]

theorem packBits_spec : ∀ (bs : List Bool) (out : Buffer) (pend : List Bool) (bits : Bitset)
    (cb : Nat), PackState pend bits cb →
    ∃ bytes pend', (packBits bs out bits cb).1 = out ++ bytes ∧
      PackState pend' (packBits bs out bits cb).2.1 (packBits bs out bits cb).2.2 ∧
      bitsOf bytes ++ pend' = pend ++ bs := by
  intro bs
  induction bs with
  | nil =>
    intro out pend bits cb h
    exact ⟨[], pend, by simp [packBits], h, by simp [bitsOf]⟩
  | cons top rest ih =>
    intro out pend bits cb h
    obtain ⟨hcb, hlt, hbits⟩ := h
    have hset : Bitset.set bits (8 - (cb + 1)) top
        = List.replicate (8 - (cb + 1)) false ++ (pend ++ [top]).reverse := by
      have h8 : 8 - cb = (8 - (cb + 1)) + 1 := by omega
      rw [hbits, h8, Bitset.set, set_replicate_last]
      simp
    by_cases hfull : cb + 1 ≥ 8
    · have hcb7 : cb = 7 := by omega
      have hstep : packBits (top :: rest) out bits cb
          = packBits rest (out ++ [(Bitset.set bits (8 - (cb + 1)) top).lowByte])
              Bitset.zero 0 := by
        rw [packBits]
        simp only [if_pos hfull]
      have hbyte : Bitset.set bits (8 - (cb + 1)) top = (pend ++ [top]).reverse := by
        rw [hset, hcb7]
        rfl
      have hlen8 : ((pend ++ [top]).reverse).length = 8 := by
        rw [List.length_reverse, List.length_append, List.length_singleton, ← hcb, hcb7]
      obtain ⟨bytes, pend', h1, h2, h3⟩ :=
        ih (out ++ [(Bitset.set bits (8 - (cb + 1)) top).lowByte]) [] Bitset.zero 0
          packState_zero
      refine ⟨(Bitset.set bits (8 - (cb + 1)) top).lowByte :: bytes, pend', ?_, ?_, ?_⟩
      · rw [hstep, h1]
        simp
      · rw [hstep]
        exact h2
      · rw [bitsOf_cons, List.append_assoc, h3, hbyte, msbBits_lowByte _ hlen8,
          List.reverse_reverse]
        simp
    · have hstep : packBits (top :: rest) out bits cb
          = packBits rest out (Bitset.set bits (8 - (cb + 1)) top) (cb + 1) := by
        rw [packBits]
        simp only [if_neg hfull]
      have hst : PackState (pend ++ [top]) (Bitset.set bits (8 - (cb + 1)) top) (cb + 1) := by
        refine ⟨by simp [hcb], by omega, hset⟩
      obtain ⟨bytes, pend', h1, h2, h3⟩ := ih out (pend ++ [top]) _ (cb + 1) hst
      refine ⟨bytes, pend', ?_, ?_, ?_⟩
      · rw [hstep, h1]
      · rw [hstep]
        exact h2
      · rw [h3]
        simp

theorem flushBits_spec (out : Buffer) (pend : List Bool) (bits : Bitset) (cb : Nat)
    (h : PackState pend bits cb) :
    ∃ last, flushBits out bits cb = out ++ [last] ∧
      msbBits last = pend ++ List.replicate (8 - cb) false := by
  obtain ⟨hcb, hlt, hbits⟩ := h
  refine ⟨bits.lowByte, ?_, ?_⟩
  · rw [flushBits, if_pos hlt]
  · have hlen : bits.length = 8 := by
      rw [hbits, List.length_append, List.length_replicate, List.length_reverse, ← hcb]
      omega
    rw [msbBits_lowByte _ hlen, hbits]
    simp

/-! ## Walking the tree -/

theorem walkToRoot_leafAt : ∀ (t target : HuffNode) (pushed : List Bool),
    walkToRoot t target = some pushed →
    ∀ b c d, target = HuffNode.node b c .null .null d → leafAt t pushed.reverse = some b := by
  intro t
  induction t with
  | null =>
    intro target pushed h
    cases h
  | node tb tc l r td ihl ihr =>
    intro target pushed h b c d htarget
    rw [walkToRoot] at h
    by_cases heq : HuffNode.node tb tc l r td = target
    · rw [if_pos heq] at h
      cases h
      rw [htarget] at heq
      cases heq
      simp [leafAt]
    · rw [if_neg heq] at h
      by_cases hleaf : r = HuffNode.null ∧ l = HuffNode.null
      · obtain ⟨hr, hl⟩ := hleaf
        subst hr
        subst hl
        simp [walkToRoot] at h
      · cases hwl : walkToRoot l target with
        | some bl =>
          rw [hwl] at h
          cases h
          have := ihl target bl hwl b c d htarget
          rw [List.reverse_append, List.reverse_singleton, List.singleton_append, leafAt,
            if_neg hleaf]
          exact this
        | none =>
          rw [hwl] at h
          cases hwr : walkToRoot r target with
          | some br =>
            rw [hwr] at h
            cases h
            have := ihr target br hwr b c d htarget
            rw [List.reverse_append, List.reverse_singleton, List.singleton_append, leafAt,
              if_neg hleaf]
            exact this
          | none =>
            rw [hwr] at h
            cases h

theorem walkToRoot_exists : ∀ (t : HuffNode) (e : Byte × Nat), Proper t → e ∈ leaves t →
    ∃ pushed, walkToRoot t (leafNode e) = some pushed := by
  intro t
  induction t with
  | null =>
    intro e hp
    exact absurd hp (by simp [Proper])
  | node tb tc l r td ihl ihr =>
    intro e hp he
    rw [walkToRoot]
    by_cases heq : HuffNode.node tb tc l r td = leafNode e
    · exact ⟨[], by rw [if_pos heq]⟩
    · rw [if_neg heq]
      rcases hp with ⟨hr, hl, hd⟩ | ⟨hpl, hpr, hd⟩
      · subst hr
        subst hl
        subst hd
        simp only [leaves, and_self, if_true, List.mem_singleton] at he
        subst he
        exact absurd rfl heq
      · have hl : l ≠ HuffNode.null := proper_ne_null hpl
        rw [leaves_parent _ _ _ _ _ hl, List.mem_append] at he
        cases hwl : walkToRoot l (leafNode e) with
        | some bl => exact ⟨_, rfl⟩
        | none =>
          rcases he with he | he
          · obtain ⟨pushed, hpushed⟩ := ihl e hpl he
            rw [hwl] at hpushed
            cases hpushed
          · obtain ⟨pushed, hpushed⟩ := ihr e hpr he
            exact ⟨pushed ++ [true], by simp only [hpushed]⟩

theorem walkBits_of_walkToRoot (root p : HuffNode) (pushed : List Bool)
    (hp : p ≠ .null) (h : walkToRoot root p = some pushed) : walkBits root p = .ok pushed := by
  unfold walkBits
  by_cases heq : p = root
  · rw [if_pos heq]
    subst heq
    cases p with
    | null => exact absurd rfl hp
    | node b c l r d =>
      rw [walkToRoot, if_pos rfl] at h
      cases h
      rfl
  · rw [if_neg heq, if_neg hp, h]

theorem destroyTree_ok : ∀ (t : HuffNode), Proper t → destroyTree t = .ok () := by
  intro t
  induction t with
  | null =>
    intro hp
    exact absurd hp (by simp [Proper])
  | node tb tc l r td ihl ihr =>
    intro hp
    rw [destroyTree]
    rcases hp with ⟨hr, hl, _⟩ | ⟨hpl, hpr, _⟩
    · rw [if_pos ⟨hr, hl⟩]
    · rw [if_neg (fun h => proper_ne_null hpl h.2), ihl hpl]
      exact ihr hpr

theorem encodeLoop_spec (P : Platform) (root : HuffNode) (lt : LeafNodeTable) :
    ∀ (input out : Buffer) (pend : List Bool) (bits : Bitset) (cb : Nat),
      PackState pend bits cb →
      (∀ b ∈ input, lt b ≠ .null ∧ ∃ pushed, walkToRoot root (lt b) = some pushed) →
      ∃ bytes pend' bits' cb',
        encodeLoop P root lt input out bits cb = .ok (out ++ bytes, bits', cb') ∧
        PackState pend' bits' cb' ∧
        bitsOf bytes ++ pend' = pend ++ input.flatMap (codeOf root lt) := by
  intro input
  induction input with
  | nil =>
    intro out pend bits cb h _
    exact ⟨[], pend, bits, cb, by simp [encodeLoop], h, by simp [bitsOf]⟩
  | cons b rest ih =>
    intro out pend bits cb h hall
    obtain ⟨hnn, pushed, hpushed⟩ := hall b (List.mem_cons_self b rest)
    have hwalk := walkBits_of_walkToRoot root (lt b) pushed hnn hpushed
    obtain ⟨bytes1, pend1, h1, h2, h3⟩ := packBits_spec pushed.reverse out pend bits cb h
    obtain ⟨bytes2, pend2, bits2, cb2, h4, h5, h6⟩ :=
      ih (packBits pushed.reverse out bits cb).1 pend1 _ _ h2
        (fun x hx => hall x (List.mem_cons_of_mem b hx))
    refine ⟨bytes1 ++ bytes2, pend2, bits2, cb2, ?_, h5, ?_⟩
    · rw [encodeLoop]
      have hcond : ¬ (lt b = HuffNode.null ∧ P.NDEBUG = false) := fun hc => hnn hc.1
      simp only [if_neg hcond, hwalk]
      rw [h4, h1, List.append_assoc]
    · have hcode : codeOf root lt b = pushed.reverse := by
        simp [codeOf, hpushed]
      rw [bitsOf_append, List.append_assoc, h6, ← List.append_assoc, h3, List.flatMap_cons,
        hcode, List.append_assoc]

/-! ## Unpacking bits -/

theorem msbBits_drop (b : Byte) (k : Nat) (hk : k < 8) :
    (msbBits b).drop k = (Bitset.ofByte b).test (8 - (k + 1)) :: (msbBits b).drop (k + 1) := by
  obtain ⟨d0, d1, d2, d3, d4, d5, d6, d7, hb⟩ := ofByte_explicit b
  rw [msbBits, hb]
  interval_cases k <;> rfl

theorem decState_bit (inBuffer : Buffer) (i : Nat) (bits : Bitset) (nBit : Nat) (bit : Bool)
    (rest : List Bool) (h : DecState inBuffer i bits nBit (bit :: rest)) (hlt : ¬ nBit ≥ 8) :
    bits.test (8 - (nBit + 1)) = bit ∧ DecState inBuffer i bits (nBit + 1) rest := by
  obtain ⟨b, hb, hbits, hle, hrest⟩ := h
  rw [msbBits_drop b nBit (by omega), List.cons_append, List.cons.injEq] at hrest
  refine ⟨?_, b, hb, hbits, by omega, hrest.2⟩
  rw [hbits]
  exact hrest.1.symm

theorem decState_next (inBuffer : Buffer) (i : Nat) (bits : Bitset) (nBit : Nat) (bit : Bool)
    (rest : List Bool) (h : DecState inBuffer i bits nBit (bit :: rest)) (hge : nBit ≥ 8) :
    ∃ b, readByte inBuffer (i + 1) = .ok b ∧ (Bitset.ofByte b).test (8 - 1) = bit ∧
      DecState inBuffer (i + 1) (Bitset.ofByte b) 1 rest := by
  obtain ⟨b0, hb0, hbits, hle, hrest⟩ := h
  have h8 : nBit = 8 := by omega
  subst h8
  have hd : (msbBits b0).drop 8 = [] := by
    apply List.drop_eq_nil_of_le
    rw [msbBits_length]
  rw [hd, List.nil_append] at hrest
  cases hdrop : inBuffer.drop (i + 1) with
  | nil =>
    rw [hdrop] at hrest
    cases hrest
  | cons b tl =>
    have h0 := msbBits_drop b 0 (by norm_num)
    rw [List.drop_zero] at h0
    rw [hdrop, bitsOf_cons, h0] at hrest
    have hget : inBuffer[i + 1]? = some b := by
      rw [← List.head?_drop, hdrop]
      rfl
    have htl : inBuffer.drop (i + 1 + 1) = tl := by
      have := congrArg List.tail hdrop
      rw [List.tail_drop] at this
      exact this
    rw [List.cons_append, List.cons.injEq] at hrest
    refine ⟨b, ?_, hrest.1.symm, b, hget, rfl, by norm_num, ?_⟩
    · simp [readByte, hget]
    · rw [htl]
      exact hrest.2

theorem decodeWalk_spec (inBuffer : Buffer) : ∀ (t : HuffNode) (code : List Bool) (byte : Byte),
    leafAt t code = some byte →
    ∀ (i : Nat) (bits : Bitset) (nBit : Nat) (rest : List Bool),
      DecState inBuffer i bits nBit (code ++ rest) →
      ∃ i' bits' nBit', decodeWalk inBuffer t i bits nBit = .ok (byte, i', bits', nBit') ∧
        DecState inBuffer i' bits' nBit' rest := by
  intro t
  induction t with
  | null =>
    intro code byte h
    cases h
  | node tb tc l r td ihl ihr =>
    intro code byte h i bits nBit rest hst
    rw [decodeWalk]
    by_cases hleaf : r = HuffNode.null ∧ l = HuffNode.null
    · rw [if_pos hleaf]
      cases code with
      | nil =>
        rw [leafAt, if_pos hleaf] at h
        cases h
        exact ⟨i, bits, nBit, rfl, hst⟩
      | cons c cs =>
        rw [leafAt, if_pos hleaf] at h
        cases h
    · rw [if_neg hleaf]
      cases code with
      | nil =>
        rw [leafAt, if_neg hleaf] at h
        cases h
      | cons c cs =>
        rw [List.cons_append] at hst
        by_cases hge : nBit ≥ 8
        · rw [if_pos hge]
          obtain ⟨b, hread, htest, hst'⟩ := decState_next inBuffer i bits nBit c _ hst hge
          simp only [hread, htest]
          cases c with
          | false =>
            rw [leafAt, if_neg hleaf] at h
            exact ihl cs byte h _ _ _ rest hst'
          | true =>
            rw [leafAt, if_neg hleaf] at h
            exact ihr cs byte h _ _ _ rest hst'
        · rw [if_neg hge]
          obtain ⟨htest, hst'⟩ := decState_bit inBuffer i bits nBit c _ hst hge
          simp only [htest]
          cases c with
          | false =>
            rw [leafAt, if_neg hleaf] at h
            exact ihl cs byte h _ _ _ rest hst'
          | true =>
            rw [leafAt, if_neg hleaf] at h
            exact ihr cs byte h _ _ _ rest hst'

theorem decodeLoop_spec (inBuffer : Buffer) (tree : HuffNode) (code : Byte → List Bool) :
    ∀ (syms : Buffer) (i : Nat) (bits : Bitset) (nBit : Nat) (rest : List Bool) (out : Buffer),
      (∀ s ∈ syms, leafAt tree (code s) = some s) →
      DecState inBuffer i bits nBit (syms.flatMap code ++ rest) →
      decodeLoop inBuffer tree syms.length i bits nBit out = .ok (out ++ syms) := by
  intro syms
  induction syms with
  | nil =>
    intro i bits nBit rest out _ _
    simp [decodeLoop]
  | cons s syms ih =>
    intro i bits nBit rest out hall hst
    rw [List.flatMap_cons, List.append_assoc] at hst
    have hi : i < inBuffer.length := by
      obtain ⟨b, hb, _⟩ := hst
      exact (List.getElem?_eq_some_iff.mp hb).1
    obtain ⟨i', bits', nBit', hwalk, hst'⟩ :=
      decodeWalk_spec inBuffer tree (code s) s (hall s (List.mem_cons_self s syms))
        i bits nBit _ hst
    rw [List.length_cons, decodeLoop, if_pos hi]
    simp only [hwalk]
    rw [ih i' bits' nBit' rest (out ++ [s]) (fun x hx => hall x (List.mem_cons_of_mem s hx))
      hst']
    simp

/-! ## The whole encoder and decoder -/

theorem table_count_lt (P : Platform) (inBuffer : Buffer) (hlen : inBuffer.length < 2 ^ (8 * P.W))
    (b : Byte) (c : Nat) (h : buildFrequencyTable P inBuffer b = some c) :
    c = inBuffer.count b ∧ b ∈ inBuffer ∧ c < 2 ^ (8 * P.W) := by
  rw [buildFrequencyTable_apply P inBuffer b hlen] at h
  by_cases h0 : inBuffer.count b = 0
  · rw [if_pos h0] at h
    cases h
  · rw [if_neg h0] at h
    cases h
    have hc : inBuffer.count b ≤ inBuffer.length := List.count_le_length b inBuffer
    exact ⟨rfl, List.count_pos_iff.mp (Nat.pos_of_ne_zero h0), by omega⟩

theorem table_of_mem (P : Platform) (inBuffer : Buffer) (hlen : inBuffer.length < 2 ^ (8 * P.W))
    (b : Byte) (hb : b ∈ inBuffer) :
    buildFrequencyTable P inBuffer b = some (inBuffer.count b) := by
  rw [buildFrequencyTable_apply P inBuffer b hlen]
  have : inBuffer.count b ≠ 0 := Nat.pos_iff_ne_zero.mp (List.count_pos_iff.mpr hb)
  rw [if_neg this]

/-- What a successful run of the buffer encoder produces, for an input with at least two
distinct byte values. -/
theorem encode_ok (P : Platform) (hP : P.Lawful) (inBuffer outBuffer : Buffer)
    (h2 : 2 ≤ inBuffer.dedup.length)
    (hg : P.W + inBuffer.dedup.length * (1 + P.W) ≤ inBuffer.length)
    (hlen : inBuffer.length < 2 ^ (8 * P.W)) :
    ∃ root lt payload k,
      buildHuffmanTree P .null (buildFrequencyTable P inBuffer) (some (fun _ => HuffNode.null))
        = .ok (true, root, some lt) ∧
      Proper root ∧ (∃ c l r, root = .node 0 c l r false) ∧
      (leaves root).Perm ((buildFrequencyTable P inBuffer).entries P) ∧
      (∀ e ∈ (buildFrequencyTable P inBuffer).entries P, lt e.1 = leafNode e) ∧
      (∀ b ∈ inBuffer, leafAt root (codeOf root lt b) = some b) ∧
      bitsOf payload = inBuffer.flatMap (codeOf root lt) ++ List.replicate k false ∧
      1 ≤ k ∧ k ≤ 8 ∧
      encode P inBuffer outBuffer
        = .ok (true, saveFrequencyTable P (sizeBytes P inBuffer.length)
            (buildFrequencyTable P inBuffer) ++ payload) := by
  have hsize := buildFrequencyTable_size P inBuffer
  obtain ⟨root, lt', hbuild, hproper, hshape, hlv, _, hsome⟩ :=
    buildHuffmanTree_spec P hP .null (buildFrequencyTable P inBuffer)
      (some (fun _ => HuffNode.null)) (by rw [hsize]; exact h2)
      (fun f hf b => by cases hf; rfl)
  obtain ⟨lt, hlt', hlt⟩ := hsome _ rfl
  subst hlt'
  have hcodes : ∀ b ∈ inBuffer, lt b ≠ .null ∧ ∃ pushed, walkToRoot root (lt b) = some pushed ∧
      leafAt root pushed.reverse = some b := by
    intro b hb
    have hmem : (b, inBuffer.count b) ∈ (buildFrequencyTable P inBuffer).entries P :=
      (mem_entries P hP _ _).mpr (table_of_mem P inBuffer hlen b hb)
    have hltb : lt b = leafNode (b, inBuffer.count b) := hlt _ hmem
    obtain ⟨pushed, hpushed⟩ := walkToRoot_exists root _ hproper (hlv.mem_iff.mpr hmem)
    rw [hltb]
    refine ⟨by simp [leafNode], pushed, hpushed, ?_⟩
    exact walkToRoot_leafAt root _ pushed hpushed b (inBuffer.count b) true rfl
  obtain ⟨bytes, pend, bits, cb, hloop, hstate, hbits⟩ :=
    encodeLoop_spec P root lt inBuffer
      (saveFrequencyTable P (sizeBytes P inBuffer.length) (buildFrequencyTable P inBuffer))
      [] Bitset.zero 0 packState_zero
      (fun b hb => ⟨(hcodes b hb).1, (hcodes b hb).2.choose, (hcodes b hb).2.choose_spec.1⟩)
  obtain ⟨last, hflush, hlast⟩ := flushBits_spec
    (saveFrequencyTable P (sizeBytes P inBuffer.length) (buildFrequencyTable P inBuffer) ++ bytes)
    pend bits cb hstate
  refine ⟨root, lt, bytes ++ [last], 8 - cb, hbuild, hproper, hshape, hlv, hlt, ?_, ?_, ?_, ?_,
    ?_⟩
  · intro b hb
    obtain ⟨_, pushed, hpushed, hleaf⟩ := hcodes b hb
    have hcode : codeOf root lt b = pushed.reverse := by simp [codeOf, hpushed]
    rw [hcode]
    exact hleaf
  · rw [bitsOf_append, bitsOf_cons, hlast]
    simp only [bitsOf, List.flatMap_nil, List.append_nil] at hbits ⊢
    rw [← List.append_assoc, hbits, List.nil_append]
  · have := hstate.2.1
    omega
  · omega
  · unfold encode
    have h0 : ¬ inBuffer.length ≤ 0 := by
      have : 0 < P.W := by have := hP.word; omega
      omega
    have hguard : ¬ (buildFrequencyTable P inBuffer).size * (1 + P.W) + P.W
        > inBuffer.length := by
      rw [hsize]
      omega
    rw [if_neg h0]
    dsimp only
    rewrite [if_neg hguard, hbuild]
    dsimp only
    rewrite [hloop]
    dsimp only
    rewrite [hflush, destroyTree_ok root hproper, List.append_assoc]
    rfl

theorem reload_size (P : Platform) (hP : P.Lawful) (t : FrequencyTable) :
    (t.reload P).size = t.size := by
  unfold FrequencyTable.size FrequencyTable.keys
  congr 2
  funext b
  rw [reload_apply P hP]

/-- A table whose iteration order is kept by insertion in that order is reloaded with the
same entries in the same order. -/
theorem reload_entries (P : Platform) (hP : P.Lawful) (t : FrequencyTable)
    (hiter : P.iterOrder (P.iterOrder t.inserted) = P.iterOrder t.inserted) :
    (t.reload P).entries P = t.entries P := by
  unfold FrequencyTable.entries
  rw [reload_inserted P hP, hiter]
  congr 1
  funext b
  rw [reload_apply P hP]

theorem buildHuffmanTree_congr (P : Platform) (r0 : HuffNode) (t1 t2 : FrequencyTable)
    (lt : Option LeafNodeTable) (he : t1.entries P = t2.entries P) (hs : t1.size = t2.size) :
    buildHuffmanTree P r0 t1 lt = buildHuffmanTree P r0 t2 lt := by
  unfold buildHuffmanTree initialNodes
  rw [he, hs]

/-- What the decoder returns when the payload holds the codes, in the tree that the decoder
builds from the table it loads, of a sequence of bytes of the stored length. -/
theorem decode_ok (P : Platform) (hP : P.Lawful) (inBuffer back : Buffer)
    (t : FrequencyTable) (root : HuffNode) (code : Byte → List Bool) (payload : Buffer)
    (k : Nat)
    (hlen : inBuffer.length < 2 ^ (8 * P.W))
    (ht : ∀ b c, t b = some c → c < 2 ^ (8 * P.W))
    (hbuild : buildHuffmanTree P .null (t.reload P) none = .ok (true, root, none))
    (hproper : Proper root)
    (hcodes : ∀ b ∈ inBuffer, leafAt root (code b) = some b)
    (hbits : bitsOf payload = inBuffer.flatMap code ++ List.replicate k false)
    (hk : 1 ≤ k) :
    decode P (saveFrequencyTable P (sizeBytes P inBuffer.length) t ++ payload) back
      = .ok (true, inBuffer) := by
  have hW : 0 < P.W := by have := hP.word; omega
  have hsave := saveFrequencyTable_eq P (sizeBytes P inBuffer.length) t
  have hsavelen := saveFrequencyTable_length P hP (sizeBytes P inBuffer.length) t
  rw [sizeBytes_length] at hsavelen
  have hne : ¬ (saveFrequencyTable P (sizeBytes P inBuffer.length) t ++ payload).length ≤ 0 := by
    rw [List.length_append, hsavelen]
    omega
  have hsz : readSize P (saveFrequencyTable P (sizeBytes P inBuffer.length) t ++ payload) 0
      = .ok inBuffer.length := by
    have h := readSize_append P [] (sizeBytes P t.size
      ++ (t.entries P).flatMap (fun e => e.1 :: sizeBytes P e.2) ++ payload) inBuffer.length hlen
    rw [hsave]
    simpa [List.append_assoc] using h
  have hload : loadFrequencyTable P
      (saveFrequencyTable P (sizeBytes P inBuffer.length) t ++ payload) P.W
        = .ok (true, t.reload P) := by
    have h := load_save P hP (sizeBytes P inBuffer.length) payload t ht
    rw [sizeBytes_length] at h
    exact h
  cases hpay : payload with
  | nil =>
    rw [hpay] at hbits
    have := congrArg List.length hbits
    simp [bitsOf] at this
    omega
  | cons b0 tl =>
    have hstart : P.W + t.size * (1 + P.W) + P.W
        = (saveFrequencyTable P (sizeBytes P inBuffer.length) t).length := by
      rw [hsavelen]
      omega
    have hread : readByte (saveFrequencyTable P (sizeBytes P inBuffer.length) t ++ b0 :: tl)
        (P.W + t.size * (1 + P.W) + P.W) = .ok b0 := by
      rw [hstart]
      exact readByte_append _ _ _
    have hst : DecState (saveFrequencyTable P (sizeBytes P inBuffer.length) t ++ b0 :: tl)
        (P.W + t.size * (1 + P.W) + P.W) (Bitset.ofByte b0) 0
        (inBuffer.flatMap code ++ List.replicate k false) := by
      refine ⟨b0, ?_, rfl, by norm_num, ?_⟩
      · rw [hstart]
        exact getElem?_append_cons _ _ _
      · have hdrop : (saveFrequencyTable P (sizeBytes P inBuffer.length) t ++ b0 :: tl).drop
            ((saveFrequencyTable P (sizeBytes P inBuffer.length) t).length + 1) = tl := by
          rw [← List.drop_drop, List.drop_left]
          rfl
        rewrite [hstart, List.drop_zero, ← hbits, hpay, bitsOf_cons, hdrop]
        exact rfl
    have hloop := decodeLoop_spec _ root code inBuffer _ _ _ _ [] hcodes hst
    rw [hpay] at hne hsz hload
    unfold decode
    rewrite [if_neg hne, hsz]
    dsimp only
    rewrite [hload]
    dsimp only
    rewrite [hbuild, reload_size P hP]
    dsimp only
    rewrite [hread]
    dsimp only
    rewrite [hloop]
    dsimp only
    rewrite [destroyTree_ok root hproper]
    rfl

/-- The round trip, for an input whose table is reloaded with the iteration order it had. -/
theorem encode_decode (P : Platform) (hP : P.Lawful) (inBuffer outBuffer back : Buffer)
    (h2 : 2 ≤ inBuffer.dedup.length)
    (hg : P.W + inBuffer.dedup.length * (1 + P.W) ≤ inBuffer.length)
    (hlen : inBuffer.length < 2 ^ (8 * P.W))
    (hiter : P.iterOrder (P.iterOrder (buildFrequencyTable P inBuffer).inserted)
      = P.iterOrder (buildFrequencyTable P inBuffer).inserted) :
    ∃ out, encode P inBuffer outBuffer = .ok (true, out) ∧
      decode P out back = .ok (true, inBuffer) := by
  obtain ⟨root, lt, payload, k, hbuild, hproper, _, _, _, hcodes, hbits, hk1, _, henc⟩ :=
    encode_ok P hP inBuffer outBuffer h2 hg hlen
  refine ⟨_, henc, ?_⟩
  exact decode_ok P hP inBuffer back (buildFrequencyTable P inBuffer) root (codeOf root lt)
    payload k hlen (fun b c h => (table_count_lt P inBuffer hlen b c h).2.2)
    (by
      rw [buildHuffmanTree_congr P _ _ _ _ (reload_entries P hP _ hiter) (reload_size P hP _)]
      exact buildHuffmanTree_root P _ _ _ _ _ hbuild)
    hproper hcodes hbits hk1

/-! ## Shape of proper trees -/

theorem proper_twoChildren : ∀ (t : HuffNode), Proper t → TwoChildren t := by
  intro t
  induction t with
  | null => intro _; trivial
  | node b c l r d ihl ihr =>
    intro hp
    rcases hp with ⟨hr, hl, _⟩ | ⟨hpl, hpr, _⟩
    · exact Or.inl ⟨hr, hl⟩
    · exact Or.inr ⟨proper_ne_null hpl, proper_ne_null hpr, ihl hpl, ihr hpr⟩

theorem proper_internalCount : ∀ (t : HuffNode), Proper t →
    internalCount t + 1 = (leaves t).length := by
  intro t
  induction t with
  | null => intro hp; exact absurd hp (by simp [Proper])
  | node b c l r d ihl ihr =>
    intro hp
    rcases hp with ⟨hr, hl, _⟩ | ⟨hpl, hpr, _⟩
    · simp [internalCount, leaves, hr, hl]
    · have hl : l ≠ HuffNode.null := proper_ne_null hpl
      have hcond : ¬ (r = HuffNode.null ∧ l = HuffNode.null) := fun h => hl h.2
      rw [leaves_parent _ _ _ _ _ hl, List.length_append, internalCount, if_neg hcond]
      have h1 := ihl hpl
      have h2 := ihr hpr
      omega

/-- The tree built for a table with at least two entries, whatever leaf table is passed. -/
theorem buildHuffmanTree_shape (P : Platform) (hP : P.Lawful) (r0 : HuffNode)
    (t : FrequencyTable) (lt : Option LeafNodeTable) (hn : 2 ≤ t.size) :
    ∃ root lt', buildHuffmanTree P r0 t lt = .ok (true, root, lt') ∧ Proper root ∧
      (leaves root).Perm (t.entries P) := by
  obtain ⟨root, lt0, hbuild, hproper, _, hlv, _, _⟩ :=
    buildHuffmanTree_spec P hP r0 t none hn (fun f hf => by cases hf)
  refine ⟨root, ?_⟩
  unfold buildHuffmanTree at hbuild ⊢
  rw [if_neg (by omega)] at hbuild ⊢
  dsimp only at hbuild ⊢
  have hr := buildLoop_root P (P.make_heap (initialNodes P t)).length
    (P.make_heap (initialNodes P t)) HuffNode.null lt
  generalize buildLoop P (P.make_heap (initialNodes P t)).length
    (P.make_heap (initialNodes P t)) HuffNode.null none = y at hbuild hr
  generalize buildLoop P (P.make_heap (initialNodes P t)).length
    (P.make_heap (initialNodes P t)) HuffNode.null lt = x at hr ⊢
  cases y with
  | error e => cases hbuild
  | ok r2 =>
    obtain ⟨p2, t2⟩ := r2
    simp only [Except.ok.injEq, Prod.mk.injEq, true_and] at hbuild
    cases x with
    | error e => cases hr
    | ok r1 =>
      obtain ⟨p1, t1⟩ := r1
      simp only [Except.map, Except.ok.injEq] at hr
      refine ⟨t1, ?_, hproper, hlv⟩
      rw [hr, hbuild.1]

theorem entries_nodup (P : Platform) (hP : P.Lawful) (t : FrequencyTable) :
    (t.entries P).Nodup :=
  List.Nodup.of_map Prod.fst (entries_keys_nodup P hP t)

/-! ## The degenerate alphabet -/

theorem encodeLoop_null (P : Platform) (hN : P.NDEBUG = true) :
    ∀ (input out : Buffer) (bits : Bitset) (cb : Nat),
      encodeLoop P .null (fun _ => HuffNode.null) input out bits cb = .ok (out, bits, cb) := by
  intro input
  induction input with
  | nil => intro out bits cb; rfl
  | cons b rest ih =>
    intro out bits cb
    rw [encodeLoop]
    have hcond : ¬ (HuffNode.null = HuffNode.null ∧ P.NDEBUG = false) := by
      rw [hN]
      simp
    dsimp only
    rw [if_neg hcond]
    simp only [walkBits, if_true, List.reverse_nil, packBits]
    exact ih out bits cb

theorem encode_single (P : Platform) (hP : P.Lawful) (inBuffer outBuffer : Buffer)
    (h1 : inBuffer.dedup.length = 1) (hg : P.W + (1 + P.W) ≤ inBuffer.length) :
    encode P inBuffer outBuffer
      = .error (if P.NDEBUG = true then Fault.nullDeref else Fault.assertFailed) := by
  have hsize := buildFrequencyTable_size P inBuffer
  rw [h1] at hsize
  have hbuild := buildHuffmanTree_single P hP .null (buildFrequencyTable P inBuffer)
    (some (fun _ => HuffNode.null)) hsize
  have h0 : ¬ inBuffer.length ≤ 0 := by omega
  have hguard : ¬ (buildFrequencyTable P inBuffer).size * (1 + P.W) + P.W
      > inBuffer.length := by
    rw [hsize]
    omega
  unfold encode
  rw [if_neg h0]
  dsimp only
  rewrite [if_neg hguard, hbuild]
  dsimp only
  by_cases hN : P.NDEBUG = true
  · rewrite [encodeLoop_null P hN, if_pos hN]
    rfl
  · rewrite [if_neg hN]
    cases hin : inBuffer with
    | nil => rw [hin] at h0; exact absurd (Nat.le_refl 0) h0
    | cons b rest =>
      rw [encodeLoop]
      have hcond : HuffNode.null = HuffNode.null ∧ P.NDEBUG = false :=
        ⟨rfl, by simpa using hN⟩
      dsimp only
      rw [if_pos hcond]

/-! ## The magic identifier -/

theorem fileIdDiffers_spec (inBuffer : Buffer) : ∀ (ids : Buffer) (i : Nat),
    i + ids.length ≤ inBuffer.length →
    fileIdDiffers inBuffer i ids = .ok (decide ((inBuffer.drop i).take ids.length ≠ ids)) := by
  intro ids
  induction ids with
  | nil =>
    intro i _
    simp [fileIdDiffers]
  | cons id ids ih =>
    intro i hlen
    rw [List.length_cons] at hlen
    have hi : i < inBuffer.length := by omega
    have hdrop : inBuffer.drop i = inBuffer[i] :: inBuffer.drop (i + 1) :=
      List.drop_eq_getElem_cons hi
    have hread : readByte inBuffer i = .ok inBuffer[i] := by
      simp [readByte, List.getElem?_eq_getElem hi]
    rw [fileIdDiffers, hread]
    dsimp only
    by_cases hb : inBuffer[i] = id
    · rw [if_neg (not_not.mpr hb), ih (i + 1) (by omega), hdrop, List.length_cons,
        List.take_succ_cons, hb]
      simp
    · rw [if_pos hb, hdrop, List.length_cons, List.take_succ_cons]
      simp [hb]

/-! ## Frequency counting -/

theorem buildFrequencyTable_mem (P : Platform) (buffer : Buffer) (b : Byte)
    (hlen : buffer.length < 2 ^ (8 * P.W)) :
    buildFrequencyTable P buffer b = if b ∈ buffer then some (buffer.count b) else none := by
  rw [buildFrequencyTable_apply P buffer b hlen]
  by_cases hb : b ∈ buffer
  · rw [if_pos hb, if_neg (Nat.pos_iff_ne_zero.mp (List.count_pos_iff.mpr hb))]
  · rw [if_neg hb, if_pos (List.count_eq_zero_of_not_mem hb)]

theorem buildFrequencyTable_total (P : Platform) (buffer : Buffer)
    (hlen : buffer.length < 2 ^ (8 * P.W)) :
    (buildFrequencyTable P buffer).total = buffer.length := by
  unfold FrequencyTable.total
  have hperm := buildFrequencyTable_keys P buffer
  rw [(hperm.map _).sum_eq]
  have hcongr : buffer.dedup.map (fun b => (buildFrequencyTable P buffer b).getD 0)
      = buffer.dedup.map (fun b => buffer.count b) := by
    apply List.map_congr_left
    intro b hb
    rw [buildFrequencyTable_mem P buffer b hlen, if_pos (List.mem_dedup.mp hb)]
    rfl
  rw [hcongr]
  exact List.sum_map_count_dedup_eq_length buffer

/-! ## Paths and codes -/

theorem leafAt_mem_leaves : ∀ (t : HuffNode) (code : List Bool) (b : Byte),
    leafAt t code = some b → ∃ c, (b, c) ∈ leaves t := by
  intro t
  induction t with
  | null =>
    intro code b h
    cases h
  | node tb tc l r td ihl ihr =>
    intro code b h
    by_cases hleaf : r = HuffNode.null ∧ l = HuffNode.null
    · cases code with
      | nil =>
        rw [leafAt, if_pos hleaf] at h
        cases h
        exact ⟨tc, by simp [leaves, hleaf]⟩
      | cons c cs =>
        rw [leafAt, if_pos hleaf] at h
        cases h
    · have hlv : leaves (HuffNode.node tb tc l r td) = leaves l ++ leaves r := by
        rw [leaves, if_neg hleaf]
      cases code with
      | nil =>
        rw [leafAt, if_neg hleaf] at h
        cases h
      | cons c cs =>
        cases c with
        | false =>
          rw [leafAt, if_neg hleaf] at h
          obtain ⟨cnt, hc⟩ := ihl cs b h
          exact ⟨cnt, by rw [hlv]; exact List.mem_append_left _ hc⟩
        | true =>
          rw [leafAt, if_neg hleaf] at h
          obtain ⟨cnt, hc⟩ := ihr cs b h
          exact ⟨cnt, by rw [hlv]; exact List.mem_append_right _ hc⟩

theorem leafAt_extend : ∀ (t : HuffNode) (code ext : List Bool) (b : Byte),
    leafAt t code = some b → ext ≠ [] → leafAt t (code ++ ext) = none := by
  intro t
  induction t with
  | null =>
    intro code ext b h
    cases h
  | node tb tc l r td ihl ihr =>
    intro code ext b h hext
    by_cases hleaf : r = HuffNode.null ∧ l = HuffNode.null
    · cases code with
      | nil =>
        cases ext with
        | nil => exact absurd rfl hext
        | cons e es => rw [List.nil_append, leafAt, if_pos hleaf]
      | cons c cs =>
        rw [leafAt, if_pos hleaf] at h
        cases h
    · cases code with
      | nil =>
        rw [leafAt, if_neg hleaf] at h
        cases h
      | cons c cs =>
        cases c with
        | false =>
          rw [leafAt, if_neg hleaf] at h
          rw [List.cons_append, leafAt, if_neg hleaf]
          exact ihl cs ext b h hext
        | true =>
          rw [leafAt, if_neg hleaf] at h
          rw [List.cons_append, leafAt, if_neg hleaf]
          exact ihr cs ext b h hext

theorem leafAt_unique : ∀ (t : HuffNode) (c1 c2 : List Bool) (b : Byte),
    ((leaves t).map Prod.fst).Nodup → leafAt t c1 = some b → leafAt t c2 = some b →
    c1 = c2 := by
  intro t
  induction t with
  | null =>
    intro c1 c2 b _ h
    cases h
  | node tb tc l r td ihl ihr =>
    intro c1 c2 b hnd h1 h2
    by_cases hleaf : r = HuffNode.null ∧ l = HuffNode.null
    · cases c1 with
      | nil =>
        cases c2 with
        | nil => rfl
        | cons c cs =>
          rw [leafAt, if_pos hleaf] at h2
          cases h2
      | cons c cs =>
        rw [leafAt, if_pos hleaf] at h1
        cases h1
    · have hlv : leaves (HuffNode.node tb tc l r td) = leaves l ++ leaves r := by
        rw [leaves, if_neg hleaf]
      rw [hlv, List.map_append, List.nodup_append] at hnd
      obtain ⟨hndl, hndr, hdisj⟩ := hnd
      cases c1 with
      | nil =>
        rw [leafAt, if_neg hleaf] at h1
        cases h1
      | cons x xs =>
        cases c2 with
        | nil =>
          rw [leafAt, if_neg hleaf] at h2
          cases h2
        | cons y ys =>
          cases x <;> cases y <;> rw [leafAt, if_neg hleaf] at h1 h2
          · rw [ihl xs ys b hndl h1 h2]
          · obtain ⟨k1, hk1⟩ := leafAt_mem_leaves l xs b h1
            obtain ⟨k2, hk2⟩ := leafAt_mem_leaves r ys b h2
            exact absurd (List.mem_map_of_mem Prod.fst hk2)
              (fun hmem => hdisj (List.mem_map_of_mem Prod.fst hk1) hmem)
          · obtain ⟨k1, hk1⟩ := leafAt_mem_leaves r xs b h1
            obtain ⟨k2, hk2⟩ := leafAt_mem_leaves l ys b h2
            exact absurd (List.mem_map_of_mem Prod.fst hk1)
              (fun hmem => hdisj (List.mem_map_of_mem Prod.fst hk2) hmem)
          · rw [ihr xs ys b hndr h1 h2]

theorem leafAt_exists (t : HuffNode) (e : Byte × Nat) (hp : Proper t) (he : e ∈ leaves t) :
    ∃ code, leafAt t code = some e.1 := by
  obtain ⟨pushed, hpushed⟩ := walkToRoot_exists t e hp he
  exact ⟨pushed.reverse, walkToRoot_leafAt t _ pushed hpushed e.1 e.2 true rfl⟩

theorem leafAt_nil_internal (b : Byte) (c : Nat) (l r : HuffNode) (d : Bool)
    (hp : Proper (.node b c l r false)) (s : Byte) :
    leafAt (.node b c l r d) [] ≠ some s := by
  rcases hp with ⟨_, _, hd⟩ | ⟨hpl, _, _⟩
  · cases hd
  · rw [leafAt, if_neg (fun h => proper_ne_null hpl h.2)]
    intro h
    cases h

theorem leaves_keys_nodup (P : Platform) (hP : P.Lawful) (t : FrequencyTable) (root : HuffNode)
    (hlv : (leaves root).Perm (t.entries P)) : ((leaves root).map Prod.fst).Nodup :=
  ((hlv.map Prod.fst).nodup_iff).mpr (entries_keys_nodup P hP t)

/-! ## Payload size, payload contents and padding -/

theorem encode_success (P : Platform) (hP : P.Lawful) (buffer out0 out : Buffer)
    (h : encode P buffer out0 = .ok (true, out)) :
    2 ≤ buffer.dedup.length ∧ P.W + buffer.dedup.length * (1 + P.W) ≤ buffer.length := by
  by_cases hrej : buffer = [] ∨ buffer.length < P.W + buffer.dedup.length * (1 + P.W)
  · rw [encode_guard P buffer out0 hrej] at h
    cases h
  · rw [not_or] at hrej
    have hg : P.W + buffer.dedup.length * (1 + P.W) ≤ buffer.length := by omega
    have hpos : 0 < buffer.dedup.length := by
      apply List.length_pos.mpr
      intro h0
      exact hrej.1 (List.dedup_eq_nil buffer |>.mp h0)
    by_cases h1 : buffer.dedup.length = 1
    · rw [encode_single P hP buffer out0 h1 (by rw [h1] at hg; omega)] at h
      cases h
    · exact ⟨by omega, hg⟩

theorem bitsOf_length (bytes : Buffer) : (bitsOf bytes).length = 8 * bytes.length := by
  induction bytes with
  | nil => rfl
  | cons b bs ih =>
    rw [bitsOf_cons, List.length_append, msbBits_length, ih, List.length_cons]
    omega

theorem payload_length (payload : Buffer) (bits : List Bool) (k : Nat)
    (hbits : bitsOf payload = bits ++ List.replicate k false) (hk1 : 1 ≤ k) (hk8 : k ≤ 8) :
    payload.length = bits.length / 8 + 1 := by
  have h := congrArg List.length hbits
  rw [bitsOf_length, List.length_append, List.length_replicate] at h
  omega

theorem decode_ok_rest (P : Platform) (hP : P.Lawful) (inBuffer back : Buffer)
    (t : FrequencyTable) (root : HuffNode) (code : Byte → List Bool) (payload : Buffer)
    (rest : List Bool)
    (hlen : inBuffer.length < 2 ^ (8 * P.W))
    (ht : ∀ b c, t b = some c → c < 2 ^ (8 * P.W))
    (hbuild : buildHuffmanTree P .null (t.reload P) none = .ok (true, root, none))
    (hproper : Proper root)
    (hcodes : ∀ b ∈ inBuffer, leafAt root (code b) = some b)
    (hbits : bitsOf payload = inBuffer.flatMap code ++ rest)
    (hpayne : payload ≠ []) :
    decode P (saveFrequencyTable P (sizeBytes P inBuffer.length) t ++ payload) back
      = .ok (true, inBuffer) := by
  have hW : 0 < P.W := by have := hP.word; omega
  have hsave := saveFrequencyTable_eq P (sizeBytes P inBuffer.length) t
  have hsavelen := saveFrequencyTable_length P hP (sizeBytes P inBuffer.length) t
  rw [sizeBytes_length] at hsavelen
  have hne : ¬ (saveFrequencyTable P (sizeBytes P inBuffer.length) t ++ payload).length ≤ 0 := by
    rw [List.length_append, hsavelen]
    omega
  have hsz : readSize P (saveFrequencyTable P (sizeBytes P inBuffer.length) t ++ payload) 0
      = .ok inBuffer.length := by
    have h := readSize_append P [] (sizeBytes P t.size
      ++ (t.entries P).flatMap (fun e => e.1 :: sizeBytes P e.2) ++ payload) inBuffer.length hlen
    rw [hsave]
    simpa [List.append_assoc] using h
  have hload : loadFrequencyTable P
      (saveFrequencyTable P (sizeBytes P inBuffer.length) t ++ payload) P.W
        = .ok (true, t.reload P) := by
    have h := load_save P hP (sizeBytes P inBuffer.length) payload t ht
    rw [sizeBytes_length] at h
    exact h
  cases hpay : payload with
  | nil => exact absurd hpay hpayne
  | cons b0 tl =>
    have hstart : P.W + t.size * (1 + P.W) + P.W
        = (saveFrequencyTable P (sizeBytes P inBuffer.length) t).length := by
      rw [hsavelen]
      omega
    have hread : readByte (saveFrequencyTable P (sizeBytes P inBuffer.length) t ++ b0 :: tl)
        (P.W + t.size * (1 + P.W) + P.W) = .ok b0 := by
      rw [hstart]
      exact readByte_append _ _ _
    have hst : DecState (saveFrequencyTable P (sizeBytes P inBuffer.length) t ++ b0 :: tl)
        (P.W + t.size * (1 + P.W) + P.W) (Bitset.ofByte b0) 0
        (inBuffer.flatMap code ++ rest) := by
      refine ⟨b0, ?_, rfl, by norm_num, ?_⟩
      · rw [hstart]
        exact getElem?_append_cons _ _ _
      · have hdrop : (saveFrequencyTable P (sizeBytes P inBuffer.length) t ++ b0 :: tl).drop
            ((saveFrequencyTable P (sizeBytes P inBuffer.length) t).length + 1) = tl := by
          rw [← List.drop_drop, List.drop_left]
          rfl
        rewrite [hstart, List.drop_zero, ← hbits, hpay, bitsOf_cons, hdrop]
        exact rfl
    have hloop := decodeLoop_spec _ root code inBuffer _ _ _ _ [] hcodes hst
    rw [hpay] at hne hsz hload
    unfold decode
    rewrite [if_neg hne, hsz]
    dsimp only
    rewrite [hload]
    dsimp only
    rewrite [hbuild, reload_size P hP]
    dsimp only
    rewrite [hread]
    dsimp only
    rewrite [hloop]
    dsimp only
    rewrite [destroyTree_ok root hproper]
    rfl

/-! ## The file form and the buffer form -/

theorem packBits_append (pre : Buffer) : ∀ (bs : List Bool) (out : Buffer) (bits : Bitset)
    (cb : Nat),
    packBits bs (pre ++ out) bits cb
      = (pre ++ (packBits bs out bits cb).1, (packBits bs out bits cb).2.1,
          (packBits bs out bits cb).2.2) := by
  intro bs
  induction bs with
  | nil => intro out bits cb; rfl
  | cons top rest ih =>
    intro out bits cb
    rw [packBits, packBits]
    by_cases hfull : cb + 1 ≥ 8
    · rw [if_pos hfull, if_pos hfull, List.append_assoc, ih]
    · rw [if_neg hfull, if_neg hfull, ih]

theorem encodeLoop_append (P : Platform) (root : HuffNode) (lt : LeafNodeTable)
    (pre : Buffer) : ∀ (input out : Buffer) (bits : Bitset) (cb : Nat),
    encodeLoop P root lt input (pre ++ out) bits cb
      = Except.map (fun r => (pre ++ r.1, r.2.1, r.2.2))
          (encodeLoop P root lt input out bits cb) := by
  intro input
  induction input with
  | nil => intro out bits cb; rfl
  | cons b rest ih =>
    intro out bits cb
    rw [encodeLoop, encodeLoop]
    dsimp only
    by_cases hc : lt b = HuffNode.null ∧ P.NDEBUG = false
    · rw [if_pos hc, if_pos hc]
      rfl
    · rw [if_neg hc, if_neg hc]
      cases hw : walkBits root (lt b) with
      | error e => rfl
      | ok pushed =>
        dsimp only
        rw [packBits_append]
        exact ih _ _ _

theorem saveFrequencyTable_append (P : Platform) (pre out : Buffer) (t : FrequencyTable) :
    saveFrequencyTable P (pre ++ out) t = pre ++ saveFrequencyTable P out t := by
  rw [saveFrequencyTable_eq, saveFrequencyTable_eq]
  simp only [List.append_assoc]

theorem flushBits_append (pre out : Buffer) (bits : Bitset) (cb : Nat) :
    flushBits (pre ++ out) bits cb = pre ++ flushBits out bits cb := by
  unfold flushBits
  by_cases h : cb < 8
  · rw [if_pos h, if_pos h, List.append_assoc]
  · rw [if_neg h, if_neg h]

theorem buildHuffmanTree_empty (P : Platform) (r0 : HuffNode) (t : FrequencyTable)
    (lt : Option LeafNodeTable) (h : t.size ≤ 0) :
    buildHuffmanTree P r0 t lt = .ok (false, r0, lt) := by
  unfold buildHuffmanTree
  rw [if_pos h]

/-- The result flag and output buffer of the file form on a fresh object, in terms of the
buffer form on the contents of the file. -/
theorem encodeFile_new (P : Platform) (content out0 : Buffer) :
    Except.map (fun r : Bool × Huffman => (r.1, r.2.m_OutBuffer))
        (encodeFile P (some content) Huffman.new)
      = Except.map (fun r : Bool × Buffer =>
          (r.1, if r.1 = true then fileIdBytes ++ r.2 else []))
        (encode P content out0) := by
  have hopen : openFile (some content) Huffman.new.m_File
      = (true, { isOpen := true, failbit := false }) := rfl
  unfold encodeFile encode
  rewrite [hopen]
  dsimp only [Option.getD, Huffman.new, atEof]
  have htab : content.foldl (FrequencyTable.incr P) FrequencyTable.empty
      = buildFrequencyTable P content := rfl
  rewrite [htab]
  by_cases hg : (buildFrequencyTable P content).size * (1 + P.W) + P.W > content.length
  · rewrite [if_pos hg]
    by_cases h0 : content.length ≤ 0
    · rewrite [if_pos h0]
      rfl
    · rewrite [if_neg h0, if_pos hg]
      rfl
  · rewrite [if_neg hg]
    by_cases h0 : content.length ≤ 0
    · rewrite [if_pos h0]
      have hnil : content = [] := List.eq_nil_of_length_eq_zero (by omega)
      have hsz : (buildFrequencyTable P content).size ≤ 0 := by
        rw [buildFrequencyTable_size, hnil]
        exact Nat.le_refl 0
      rewrite [buildHuffmanTree_empty P _ _ _ hsz]
      rfl
    · rewrite [if_neg h0, if_neg hg]
      cases hb : buildHuffmanTree P HuffNode.null (buildFrequencyTable P content)
          (some (fun _ => HuffNode.null)) with
      | error e => rfl
      | ok res =>
        obtain ⟨flag, root, table⟩ := res
        cases flag with
        | false => rfl
        | true =>
          cases table with
          | none => rfl
          | some lt =>
            dsimp only
            rewrite [saveFrequencyTable_append, encodeLoop_append]
            cases hl : encodeLoop P root lt content
                (saveFrequencyTable P (sizeBytes P content.length)
                  (buildFrequencyTable P content)) Bitset.zero 0 with
            | error e => rfl
            | ok res2 =>
              obtain ⟨out3, bits, cb⟩ := res2
              dsimp only [Except.map]
              rewrite [flushBits_append]
              cases hd : destroyTree root with
              | error e => rfl
              | ok u => rfl

theorem fileIdBytes_eq : fileIdBytes = [0xDE, 0xC0, 0xEF, 0xBE] := by decide

/-! ## The loop of `buildHuffmanTree`, pass by pass -/

theorem buildLoop_step (P : Platform) (fuel : Nat) (v : List FrequencyAndHuffNode)
    (pNode : HuffNode) (lt : Option LeafNodeTable) (h : v.length > 1) :
    buildLoop P (fuel + 1) v pNode lt
      = match loopBody P v lt with
        | .error e => .error e
        | .ok (_, _, parent, v', lt') => buildLoop P fuel v' parent lt' := by
  rw [buildLoop, if_pos h]
  unfold loopBody
  dsimp only
  cases lastElem (P.pop_heap v) with
  | error e => rfl
  | ok f1 =>
    dsimp only
    cases lastElem (P.pop_heap (P.pop_heap v).dropLast) with
    | error e => rfl
    | ok f2 =>
      dsimp only
      cases registerLeaf f1 lt with
      | error e => rfl
      | ok t1 =>
        dsimp only
        cases registerLeaf f2 t1 with
        | error e => rfl
        | ok t2 =>
          dsimp only
          cases addTwoNodesToTree P f1 f2 with
          | error e => rfl
          | ok parent => rfl

theorem heap_head_min (v : List FrequencyAndHuffNode) (f : FrequencyAndHuffNode)
    (hh : is_heap v) (hf : v.head? = some f) : ∀ p ∈ v, f.1 ≤ p.1 := by
  have key : ∀ (n i : Nat), i ≤ n → ∀ y, v[i]? = some y → f.1 ≤ y.1 := by
    intro n
    induction n with
    | zero =>
      intro i hi y hy
      have hi0 : i = 0 := by omega
      subst hi0
      cases v with
      | nil => cases hf
      | cons a t =>
        simp only [List.head?_cons, Option.some.injEq] at hf
        simp only [List.getElem?_cons_zero, Option.some.injEq] at hy
        rw [← hf, hy]
    | succ n ih =>
      intro i hi y hy
      by_cases hin : i ≤ n
      · exact ih i hin y hy
      · have hpos : 0 < i := by omega
        have hlt : i < v.length := (List.getElem?_eq_some_iff.mp hy).1
        have hpar : (i - 1) / 2 < v.length := by omega
        have hx : v[(i - 1) / 2]? = some v[(i - 1) / 2] := List.getElem?_eq_getElem hpar
        have h1 := ih ((i - 1) / 2) (by omega) _ hx
        have h2 := hh i _ y hpos hx hy
        simp only [HuffCompare, gt_iff_lt, decide_eq_false_iff_not, not_lt] at h2
        omega
  intro p hp
  obtain ⟨i, hi, hget⟩ := List.getElem_of_mem hp
  exact key i i (Nat.le_refl i) p (by rw [List.getElem?_eq_getElem hi, hget])

theorem registerLeaf_ok (f : FrequencyAndHuffNode) (lt : Option LeafNodeTable)
    (hf : f.2 ≠ .null) : ∃ lt', registerLeaf f lt = .ok lt' := by
  cases lt with
  | none => exact ⟨none, rfl⟩
  | some table =>
    obtain ⟨k, n⟩ := f
    cases n with
    | null => exact absurd rfl hf
    | node b c l r d =>
      cases d with
      | false => exact ⟨some table, rfl⟩
      | true => exact ⟨_, rfl⟩

theorem addTwoNodesToTree_count (P : Platform) (f1 f2 : FrequencyAndHuffNode)
    (h1 : f1.2 ≠ .null) (h2 : f2.2 ≠ .null) :
    addTwoNodesToTree P f1 f2
      = .ok (.node 0 (wrap P (nodeCount f1.2 + nodeCount f2.2)) f1.2 f2.2 false) := by
  obtain ⟨k1, n1⟩ := f1
  obtain ⟨k2, n2⟩ := f2
  cases n1 with
  | null => exact absurd rfl h1
  | node b1 c1 l1 r1 d1 =>
    cases n2 with
    | null => exact absurd rfl h2
    | node b2 c2 l2 r2 d2 => rfl

/-- One pass of the loop on a heap of at least two pairs with non-null nodes. -/
theorem loopBody_spec (P : Platform) (hP : P.Lawful) (v : List FrequencyAndHuffNode)
    (lt : Option LeafNodeTable) (hh : is_heap v) (h2 : 2 ≤ v.length)
    (hnn : ∀ p ∈ v, p.2 ≠ .null) :
    ∃ f1 f2 rest v' lt',
      loopBody P v lt
        = .ok (f1, f2, .node 0 (wrap P (nodeCount f1.2 + nodeCount f2.2)) f1.2 f2.2 false,
            v', lt') ∧
      v.Perm (f1 :: f2 :: rest) ∧ f1.1 ≤ f2.1 ∧ (∀ p ∈ rest, f2.1 ≤ p.1) ∧
      v'.Perm ((wrap P (f1.1 + f2.1),
          HuffNode.node 0 (wrap P (nodeCount f1.2 + nodeCount f2.2)) f1.2 f2.2 false) :: rest) ∧
      is_heap v' := by
  have hvne : v ≠ [] := by
    intro h0; subst h0; simp at h2
  obtain ⟨f1, d1, hlast1, hdrop1, hperm1, hheap1, hlen1, hhead1⟩ :=
    pop_decompose P hP v hvne hh
  have hd1ne : d1 ≠ [] := by
    intro h0; subst h0; simp at hlen1; omega
  obtain ⟨f2, d2, hlast2, hdrop2, hperm2, hheap2, hlen2, hhead2⟩ :=
    pop_decompose P hP d1 hd1ne hheap1
  have hpermv : v.Perm (f1 :: f2 :: d2) := by
    have h1 : (d2 ++ [f2] ++ [f1]).Perm v :=
      (List.Perm.append_right [f1] hperm2).trans hperm1
    refine h1.symm.trans ?_
    have h3 : (d2 ++ [f2] ++ [f1]).Perm ([f1] ++ (d2 ++ [f2])) := List.perm_append_comm
    refine h3.trans ?_
    have h4 : (d2 ++ [f2]).Perm ([f2] ++ d2) := List.perm_append_comm
    exact List.Perm.cons f1 h4
  have hf1 : f1 ∈ v := hpermv.mem_iff.mpr (by simp)
  have hf2 : f2 ∈ v := hpermv.mem_iff.mpr (by simp)
  have hf2d1 : f2 ∈ d1 := hperm2.mem_iff.mp (by simp)
  have hmin1 := heap_head_min v f1 hh hhead1
  have hmin2 := heap_head_min d1 f2 hheap1 hhead2
  obtain ⟨lt1, hreg1⟩ := registerLeaf_ok f1 lt (hnn f1 hf1)
  obtain ⟨lt2, hreg2⟩ := registerLeaf_ok f2 lt1 (hnn f2 hf2)
  have hadd := addTwoNodesToTree_count P f1 f2 (hnn f1 hf1) (hnn f2 hf2)
  have hpre : is_heap (d2 ++ [(wrap P (f1.1 + f2.1),
      HuffNode.node 0 (wrap P (nodeCount f1.2 + nodeCount f2.2)) f1.2 f2.2 false)]).dropLast := by
    rw [List.dropLast_concat]
    exact hheap2
  refine ⟨f1, f2, d2, _, lt2, ?_, hpermv, hmin1 f2 hf2, ?_, ?_, hP.push_is_heap _ hpre⟩
  · unfold loopBody
    simp only [hlast1, hdrop1, hlast2, hdrop2, hreg1, hreg2, hadd]
  · intro p hp
    exact hmin2 p (hperm2.mem_iff.mp (by simp [hp]))
  · refine (hP.push_perm _ hpre).trans ?_
    exact List.perm_append_comm

/-! ## Properties kept by every pass of the loop -/

theorem buildLoop_forall (P : Platform) (hP : P.Lawful) (Q : HuffNode → Prop)
    (hnull : ∀ n, Q n → n ≠ .null)
    (hQ : ∀ n1 n2, Q n1 → Q n2 →
      Q (.node 0 (wrap P (nodeCount n1 + nodeCount n2)) n1 n2 false)) :
    ∀ (fuel : Nat) (v : List FrequencyAndHuffNode) (pNode : HuffNode)
      (lt : Option LeafNodeTable) (root : HuffNode) (lt' : Option LeafNodeTable),
      is_heap v → (∀ p ∈ v, Q p.2) → (2 ≤ v.length ∨ Q pNode) →
      buildLoop P fuel v pNode lt = .ok (root, lt') → Q root := by
  intro fuel
  induction fuel with
  | zero =>
    intro v pNode lt root lt' _ _ hcase h
    rw [buildLoop] at h
    by_cases hl : v.length > 1
    · rw [if_pos hl] at h
      cases h
    · rw [if_neg hl] at h
      cases h
      rcases hcase with h2 | hq
      · omega
      · exact hq
  | succ fuel ih =>
    intro v pNode lt root lt' hh hall hcase h
    by_cases hl : v.length > 1
    · rw [buildLoop_step P fuel v pNode lt hl] at h
      obtain ⟨f1, f2, rest, v', lt2, hbody, hperm, _, _, hperm', hheap'⟩ :=
        loopBody_spec P hP v lt hh (by omega) (fun p hp => hnull _ (hall p hp))
      rw [hbody] at h
      have hf1 : f1 ∈ v := hperm.mem_iff.mpr (by simp)
      have hf2 : f2 ∈ v := hperm.mem_iff.mpr (by simp)
      have hparent := hQ f1.2 f2.2 (hall f1 hf1) (hall f2 hf2)
      refine ih v' _ lt2 root lt' hheap' ?_ (Or.inr hparent) h
      intro p hp
      rw [hperm'.mem_iff, List.mem_cons] at hp
      rcases hp with hp | hp
      · subst hp
        exact hparent
      · exact hall p (hperm.mem_iff.mpr (by simp [hp]))
    · rw [buildLoop, if_neg hl] at h
      cases h
      rcases hcase with h2 | hq
      · omega
      · exact hq

theorem buildHuffmanTree_loop (P : Platform) (r0 : HuffNode) (t : FrequencyTable)
    (lt : Option LeafNodeTable) (root : HuffNode) (table : Option LeafNodeTable)
    (h : buildHuffmanTree P r0 t lt = .ok (true, root, table)) :
    buildLoop P (P.make_heap (initialNodes P t)).length (P.make_heap (initialNodes P t))
      .null lt = .ok (root, table) := by
  unfold buildHuffmanTree at h
  by_cases h0 : t.size ≤ 0
  · rw [if_pos h0] at h
    cases h
  · rw [if_neg h0] at h
    dsimp only at h
    generalize buildLoop P (P.make_heap (initialNodes P t)).length
      (P.make_heap (initialNodes P t)) HuffNode.null lt = x at h ⊢
    cases x with
    | error e => cases h
    | ok r =>
      obtain ⟨p1, t1⟩ := r
      simp only [Except.ok.injEq, Prod.mk.injEq, true_and] at h
      rw [h.1, h.2]

/-- A property of the new leaves that every merge keeps holds of the root. -/
theorem buildHuffmanTree_forall (P : Platform) (hP : P.Lawful) (Q : HuffNode → Prop)
    (hnull : ∀ n, Q n → n ≠ .null)
    (hleaf : ∀ e : Byte × Nat, Q (leafNode e))
    (hQ : ∀ n1 n2, Q n1 → Q n2 →
      Q (.node 0 (wrap P (nodeCount n1 + nodeCount n2)) n1 n2 false))
    (r0 : HuffNode) (t : FrequencyTable) (lt : Option LeafNodeTable) (hn : 2 ≤ t.size)
    (root : HuffNode) (table : Option LeafNodeTable)
    (h : buildHuffmanTree P r0 t lt = .ok (true, root, table)) : Q root := by
  have hloop := buildHuffmanTree_loop P r0 t lt root table h
  have hmk := hP.make_perm (initialNodes P t)
  refine buildLoop_forall P hP Q hnull hQ _ _ _ lt root table (hP.make_is_heap _) ?_
    (Or.inl ?_) hloop
  · intro p hp
    rw [hmk.mem_iff, initialNodes, List.mem_map] at hp
    obtain ⟨e, _, rfl⟩ := hp
    exact hleaf e
  · rw [hmk.length_eq, initialNodes_length P hP]
    exact hn

/-! ## Weights -/

theorem leafSum_eq_sum : ∀ (n : HuffNode), leafSum n = ((leaves n).map Prod.snd).sum := by
  intro n
  induction n with
  | null => rfl
  | node b c l r d ihl ihr =>
    by_cases hleaf : r = HuffNode.null ∧ l = HuffNode.null
    · simp [leafSum, leaves, hleaf]
    · rw [leafSum, leaves, if_neg hleaf, if_neg hleaf, List.map_append, List.sum_append, ihl,
        ihr]

theorem leafSum_parent (b : Byte) (c : Nat) (l r : HuffNode) (d : Bool) (hl : l ≠ .null) :
    leafSum (.node b c l r d) = leafSum l + leafSum r := by
  rw [leafSum, if_neg (fun h => hl h.2)]

theorem filterMap_entries_snd (t : FrequencyTable) (l : List Byte)
    (h : ∀ b ∈ l, (t b).isSome = true) :
    (l.filterMap (fun b => (t b).map (fun c => (b, c)))).map Prod.snd
      = l.map (fun b => (t b).getD 0) := by
  induction l with
  | nil => rfl
  | cons a l ih =>
    have ha := h a (List.mem_cons_self a l)
    obtain ⟨c, hc⟩ := Option.isSome_iff_exists.mp ha
    rw [List.filterMap_cons, hc]
    simp only [Option.map_some', List.map_cons, Option.getD_some]
    rw [ih (fun b hb => h b (List.mem_cons_of_mem a hb)), hc]
    rfl

theorem entries_total (P : Platform) (hP : P.Lawful) (t : FrequencyTable) :
    ((t.entries P).map Prod.snd).sum = t.total := by
  unfold FrequencyTable.entries FrequencyTable.total
  rw [filterMap_entries_snd]
  · exact ((iter_keys_perm P hP t).map _).sum_eq
  · intro b hb
    rw [(iter_keys_perm P hP t).mem_iff] at hb
    exact (mem_keys t b).mp hb

theorem weights_merge (P : Platform) (n1 n2 : HuffNode)
    (h1 : n1 ≠ .null ∧ WeightsAddMod P n1 ∧
      (leafSum n1 < 2 ^ (8 * P.W) → WeightsAdd n1 ∧ nodeCount n1 = leafSum n1))
    (h2 : n2 ≠ .null ∧ WeightsAddMod P n2 ∧
      (leafSum n2 < 2 ^ (8 * P.W) → WeightsAdd n2 ∧ nodeCount n2 = leafSum n2)) :
    HuffNode.node 0 (wrap P (nodeCount n1 + nodeCount n2)) n1 n2 false ≠ .null ∧
      WeightsAddMod P (.node 0 (wrap P (nodeCount n1 + nodeCount n2)) n1 n2 false) ∧
      (leafSum (.node 0 (wrap P (nodeCount n1 + nodeCount n2)) n1 n2 false) < 2 ^ (8 * P.W) →
        WeightsAdd (.node 0 (wrap P (nodeCount n1 + nodeCount n2)) n1 n2 false) ∧
        nodeCount (.node 0 (wrap P (nodeCount n1 + nodeCount n2)) n1 n2 false)
          = leafSum (.node 0 (wrap P (nodeCount n1 + nodeCount n2)) n1 n2 false)) := by
  refine ⟨by simp, Or.inr ⟨rfl, h1.2.1, h2.2.1⟩, ?_⟩
  rw [leafSum_parent _ _ _ _ _ h1.1]
  intro hlt
  obtain ⟨hw1, hc1⟩ := h1.2.2 (by omega)
  obtain ⟨hw2, hc2⟩ := h2.2.2 (by omega)
  have hwrap : wrap P (nodeCount n1 + nodeCount n2) = nodeCount n1 + nodeCount n2 := by
    unfold wrap
    rw [Nat.mod_eq_of_lt (by omega)]
  refine ⟨Or.inr ⟨hwrap, hw1, hw2⟩, ?_⟩
  show wrap P (nodeCount n1 + nodeCount n2) = leafSum n1 + leafSum n2
  rw [hwrap, hc1, hc2]

theorem buildHuffmanTree_weights (P : Platform) (hP : P.Lawful) (r0 : HuffNode)
    (t : FrequencyTable) (lt : Option LeafNodeTable) (hn : 2 ≤ t.size) :
    ∃ root table, buildHuffmanTree P r0 t lt = .ok (true, root, table) ∧
      WeightsAddMod P root ∧
      (t.total < 2 ^ (8 * P.W) → WeightsAdd root ∧ nodeCount root = t.total) := by
  obtain ⟨root, table, hbuild, _, hlv⟩ := buildHuffmanTree_shape P hP r0 t lt hn
  have hq := buildHuffmanTree_forall P hP
    (fun n => n ≠ .null ∧ WeightsAddMod P n ∧
      (leafSum n < 2 ^ (8 * P.W) → WeightsAdd n ∧ nodeCount n = leafSum n))
    (fun n h => h.1)
    (fun e => ⟨by simp [leafNode], Or.inl ⟨rfl, rfl⟩,
      fun _ => ⟨Or.inl ⟨rfl, rfl⟩, by simp [leafNode, nodeCount, leafSum]⟩⟩)
    (weights_merge P) r0 t lt hn root table hbuild
  have hsum : leafSum root = t.total := by
    rw [leafSum_eq_sum, (hlv.map Prod.snd).sum_eq, entries_total P hP]
  refine ⟨root, table, hbuild, hq.2.1, ?_⟩
  intro htot
  rw [← hsum] at htot ⊢
  exact hq.2.2 htot

/-! ## The input `"abc"` repeated 400 times -/

theorem count_flatten_replicate (n : Nat) (l : Buffer) (b : Byte) :
    (List.replicate n l).flatten.count b = n * l.count b := by
  induction n with
  | zero => simp
  | succ n ih =>
    rw [List.replicate_succ, List.flatten_cons, List.count_append, ih]
    ring

theorem length_flatMap_flatten_replicate (n : Nat) (l : Buffer) (f : Byte → List Bool) :
    ((List.replicate n l).flatten.flatMap f).length = n * (l.flatMap f).length := by
  induction n with
  | zero => simp
  | succ n ih =>
    rw [List.replicate_succ, List.flatten_cons, List.flatMap_append, List.length_append, ih]
    ring

theorem length_flatten_replicate (n : Nat) (l : Buffer) :
    (List.replicate n l).flatten.length = n * l.length := by
  induction n with
  | zero => simp
  | succ n ih =>
    rw [List.replicate_succ, List.flatten_cons, List.length_append, ih]
    ring

theorem abcInput_length : abcInput.length = 1200 := by
  rw [abcInput, length_flatten_replicate]
  rfl

theorem incr_inserted_of_mem (P : Platform) (t : FrequencyTable) (b : Byte)
    (h : b ∈ t.inserted) : (t.incr P b).inserted = t.inserted := by
  show (if (t.count b).isSome = true then t.inserted else t.inserted ++ [b]) = t.inserted
  rw [if_pos ((t.mem_inserted b).mp h)]

/-- Counting a byte whose key the table holds inserts no key. -/
theorem foldl_incr_inserted_of_mem (P : Platform) (buf : Buffer) (t : FrequencyTable)
    (h : ∀ b ∈ buf, b ∈ t.inserted) :
    (buf.foldl (FrequencyTable.incr P) t).inserted = t.inserted := by
  induction buf generalizing t with
  | nil => rfl
  | cons a buf ih =>
    have ha := incr_inserted_of_mem P t a (h a (List.mem_cons_self a buf))
    rw [List.foldl_cons, ih, ha]
    intro b hb
    rw [ha]
    exact h b (List.mem_cons_of_mem a hb)

theorem mem_flatten_replicate (n : Nat) (l : Buffer) (b : Byte)
    (h : b ∈ (List.replicate n l).flatten) : b ∈ l := by
  rw [List.mem_flatten] at h
  obtain ⟨l', hl', hb⟩ := h
  rw [List.eq_of_mem_replicate hl'] at hb
  exact hb

theorem abcInput_table : buildFrequencyTable refPlatform abcInput = abcTable := by
  apply table_ext
  · intro b
    rw [buildFrequencyTable_apply refPlatform abcInput b
      (by rw [abcInput_length]; norm_num [refPlatform])]
    rw [abcInput, count_flatten_replicate]
    by_cases h3 : b = 0x63
    · subst h3
      rfl
    · by_cases h2 : b = 0x62
      · subst h2
        rfl
      · by_cases h1 : b = 0x61
        · subst h1
          rfl
        · have hc : List.count b [0x61, 0x62, 0x63] = 0 := by
            apply List.count_eq_zero_of_not_mem
            simp [h1, h2, h3]
          rw [hc]
          simp [abcTable, assign_apply, empty_apply, h1, h2, h3]
  · have hsplit : abcInput
        = [0x61, 0x62, 0x63] ++ (List.replicate 399 [0x61, 0x62, 0x63]).flatten := rfl
    unfold buildFrequencyTable
    rw [hsplit, List.foldl_append, foldl_incr_inserted_of_mem]
    · rfl
    · intro b hb
      have hmem := mem_flatten_replicate _ _ _ hb
      have hins : (List.foldl (FrequencyTable.incr refPlatform) FrequencyTable.empty
          [0x61, 0x62, 0x63]).inserted = [0x61, 0x62, 0x63] := rfl
      rw [hins]
      exact hmem

theorem abcInput_mem (b : Byte) : b ∈ abcInput ↔ b = 0x61 ∨ b = 0x62 ∨ b = 0x63 := by
  rw [← List.count_pos_iff, abcInput, count_flatten_replicate]
  constructor
  · intro h
    have hpos : 0 < List.count b [0x61, 0x62, 0x63] := by
      rcases Nat.eq_zero_or_pos (List.count b [0x61, 0x62, 0x63]) with h0 | h0
      · rw [h0] at h
        cases h
      · exact h0
    have := List.count_pos_iff.mp hpos
    simpa using this
  · intro h
    have hmem : b ∈ [(0x61 : Byte), 0x62, 0x63] := by simpa using h
    have := List.count_pos_iff.mpr hmem
    omega

theorem abcRoot_built :
    buildHuffmanTree refPlatform .null abcTable none = .ok (true, abcRoot, none) := rfl

/-! ## Depth lists of full binary trees -/

theorem fullDepths_length_pos {l : List Nat} (h : FullDepths l) : 0 < l.length := by
  induction h with
  | single => simp
  | join a b _ _ iha _ =>
    rw [List.length_map, List.length_append]
    omega
  | perm a b hab _ ih =>
    rw [← hab.length_eq]
    exact ih

theorem fullDepths_singleton {l : List Nat} (h : FullDepths l) (h1 : l.length = 1) :
    l = [0] := by
  induction h with
  | single => rfl
  | join a b ha hb _ _ =>
    have := fullDepths_length_pos ha
    have := fullDepths_length_pos hb
    rw [List.length_map, List.length_append] at h1
    omega
  | perm a b hab _ ih =>
    have ha := ih (by rw [hab.length_eq]; exact h1)
    rw [ha] at hab
    exact (List.singleton_perm.mp hab).symm

theorem siblings_join_left (a b a' : List Nat) (m : Nat)
    (hperm : a.Perm ((m + 1) :: (m + 1) :: a')) (hle : ∀ d ∈ a', d ≤ m + 1)
    (hfull : FullDepths (m :: a')) (hb : FullDepths b) (hble : ∀ d ∈ b, d ≤ m + 1) :
    ∃ m2 r, ((a ++ b).map (fun d => d + 1)).Perm ((m2 + 1) :: (m2 + 1) :: r) ∧
      (∀ d ∈ r, d ≤ m2 + 1) ∧ FullDepths (m2 :: r) := by
  refine ⟨m + 1, (a' ++ b).map (fun d => d + 1), ?_, ?_, ?_⟩
  · exact ((hperm.append_right b).map _)
  · intro d hd
    rw [List.mem_map] at hd
    obtain ⟨x, hx, rfl⟩ := hd
    rw [List.mem_append] at hx
    rcases hx with hx | hx
    · have := hle x hx
      omega
    · have := hble x hx
      omega
  · exact FullDepths.join (m :: a') b hfull hb

theorem fullDepths_cases {l : List Nat} (h : FullDepths l) :
    l = [0] ∨ ∃ m r, l.Perm ((m + 1) :: (m + 1) :: r) ∧ (∀ d ∈ r, d ≤ m + 1) ∧
      FullDepths (m :: r) := by
  induction h with
  | single => exact Or.inl rfl
  | join a b ha hb iha ihb =>
    right
    have hswap : ((a ++ b).map (fun d => d + 1)).Perm ((b ++ a).map (fun d => d + 1)) :=
      List.perm_append_comm.map _
    rcases iha with ha0 | ⟨m1, r1, hp1, hle1, hf1⟩
    · rcases ihb with hb0 | ⟨m2, r2, hp2, hle2, hf2⟩
      · subst ha0
        subst hb0
        exact ⟨0, [], List.Perm.refl _, by simp, FullDepths.single⟩
      · obtain ⟨m, r, hp, hle, hf⟩ := siblings_join_left b a r2 m2 hp2 hle2 hf2 ha
          (by subst ha0; simp)
        exact ⟨m, r, hswap.trans hp, hle, hf⟩
    · rcases ihb with hb0 | ⟨m2, r2, hp2, hle2, hf2⟩
      · exact siblings_join_left a b r1 m1 hp1 hle1 hf1 hb (by subst hb0; simp)
      · by_cases hm : m2 ≤ m1
        · refine siblings_join_left a b r1 m1 hp1 hle1 hf1 hb ?_
          intro d hd
          rw [hp2.mem_iff] at hd
          simp only [List.mem_cons] at hd
          rcases hd with hd | hd | hd
          · omega
          · omega
          · have := hle2 d hd
            omega
        · obtain ⟨m, r, hp, hle, hf⟩ := siblings_join_left b a r2 m2 hp2 hle2 hf2 ha (by
            intro d hd
            rw [hp1.mem_iff] at hd
            simp only [List.mem_cons] at hd
            rcases hd with hd | hd | hd
            · omega
            · omega
            · have := hle1 d hd
              omega)
          exact ⟨m, r, hswap.trans hp, hle, hf⟩
  | perm a b hab _ ih =>
    rcases ih with ha0 | ⟨m, r, hp, hle, hf⟩
    · left
      rw [ha0] at hab
      exact (List.singleton_perm.mp hab).symm
    · exact Or.inr ⟨m, r, hab.symm.trans hp, hle, hf⟩

/-- A full tree with at least two leaves has two leaves of greatest depth that are
siblings; replacing them by their parent leaves a full tree. -/
theorem fullDepths_siblings {l : List Nat} (h : FullDepths l) (h2 : 2 ≤ l.length) :
    ∃ m r, l.Perm ((m + 1) :: (m + 1) :: r) ∧ (∀ d ∈ r, d ≤ m + 1) ∧ FullDepths (m :: r) := by
  rcases fullDepths_cases h with h0 | h'
  · rw [h0] at h2
    simp at h2
  · exact h'

/-! ## Pairings of weights with depths -/

theorem pairCost_cons (p : Nat × Nat) (D : List (Nat × Nat)) :
    pairCost (p :: D) = p.1 * p.2 + pairCost D := by
  simp [pairCost]

theorem pairCost_perm {D E : List (Nat × Nat)} (h : D.Perm E) : pairCost D = pairCost E :=
  (h.map _).sum_eq

theorem exists_perm_cons {α : Type} (a : α) (l : List α) (h : a ∈ l) :
    ∃ E : List α, l.Perm (a :: E) := by
  obtain ⟨s, t, rfl⟩ := List.append_of_mem h
  exact ⟨s ++ t, List.perm_middle⟩

/-- The least weight can take the greatest depth without raising the cost. -/
theorem pair_swap (D : List (Nat × Nat)) (a M : Nat) (R Δ : List Nat)
    (hw : (D.map Prod.fst).Perm (a :: R)) (hd : (D.map Prod.snd).Perm (M :: Δ))
    (ha : ∀ w ∈ R, a ≤ w) (hM : ∀ d ∈ Δ, d ≤ M) :
    ∃ D' : List (Nat × Nat), (D'.map Prod.fst).Perm R ∧ (D'.map Prod.snd).Perm Δ ∧
      a * M + pairCost D' ≤ pairCost D := by
  have hmem : a ∈ D.map Prod.fst := hw.mem_iff.mpr (List.mem_cons_self a R)
  rw [List.mem_map] at hmem
  obtain ⟨p, hp, hpa⟩ := hmem
  obtain ⟨E, hD⟩ := exists_perm_cons p D hp
  have hw1 : (a :: E.map Prod.fst).Perm (a :: R) := by
    have := (hD.map Prod.fst).symm.trans hw
    rw [List.map_cons, hpa] at this
    exact this
  have hwE : (E.map Prod.fst).Perm R := hw1.cons_inv
  have hd1 : (p.2 :: E.map Prod.snd).Perm (M :: Δ) := by
    have := (hD.map Prod.snd).symm.trans hd
    rw [List.map_cons] at this
    exact this
  have hcost : pairCost D = a * p.2 + pairCost E := by
    rw [pairCost_perm hD, pairCost_cons, hpa]
  by_cases hpm : p.2 = M
  · refine ⟨E, hwE, ?_, ?_⟩
    · rw [hpm] at hd1
      exact hd1.cons_inv
    · rw [hcost, hpm]
  · have hMmem : M ∈ p.2 :: E.map Prod.snd :=
      hd1.mem_iff.mpr (List.mem_cons_self M Δ)
    rw [List.mem_cons] at hMmem
    rcases hMmem with hMp | hMmem
    · exact absurd hMp.symm hpm
    · rw [List.mem_map] at hMmem
      obtain ⟨q, hq, hqM⟩ := hMmem
      obtain ⟨F, hE⟩ := exists_perm_cons q E hq
      have hwF : (q.1 :: F.map Prod.fst).Perm R := by
        have := (hE.map Prod.fst).symm.trans hwE
        rw [List.map_cons] at this
        exact this
      have hqa : a ≤ q.1 := ha q.1 (hwF.mem_iff.mp (List.mem_cons_self _ _))
      have hd2 : (M :: p.2 :: F.map Prod.snd).Perm (M :: Δ) := by
        have h1 : (p.2 :: E.map Prod.snd).Perm
            (p.2 :: M :: F.map Prod.snd) := by
          have := hE.map Prod.snd
          rw [List.map_cons, hqM] at this
          exact this.cons p.2
        exact (List.Perm.swap _ _ _).trans (h1.symm.trans hd1)
      have hdF : (p.2 :: F.map Prod.snd).Perm Δ := hd2.cons_inv
      have hpM : p.2 ≤ M := hM p.2 (hdF.mem_iff.mp (List.mem_cons_self _ _))
      refine ⟨(q.1, p.2) :: F, hwF, hdF, ?_⟩
      rw [hcost, pairCost_perm hE, pairCost_cons, pairCost_cons, hqM]
      obtain ⟨x, hx⟩ := Nat.exists_eq_add_of_le hqa
      obtain ⟨y, hy⟩ := Nat.exists_eq_add_of_le hpM
      rw [hx, hy]
      nlinarith [Nat.zero_le (x * y)]

/-- The exchange step: a full pairing whose two least weights are `a` and `b` gives a full
pairing of the weights with `a` and `b` replaced by `a + b` that costs `a + b` less. -/
theorem pair_merge (D : List (Nat × Nat)) (a b : Nat) (R : List Nat)
    (hfull : FullDepths (D.map Prod.snd))
    (hw : (D.map Prod.fst).Perm (a :: b :: R)) (hab : a ≤ b) (hb : ∀ w ∈ R, b ≤ w) :
    ∃ D' : List (Nat × Nat), (D'.map Prod.fst).Perm ((a + b) :: R) ∧
      FullDepths (D'.map Prod.snd) ∧ pairCost D' + a + b ≤ pairCost D := by
  have hlen : 2 ≤ (D.map Prod.snd).length := by
    have := hw.length_eq
    simp only [List.length_map, List.length_cons] at this ⊢
    omega
  obtain ⟨m, r, hp, hle, hf⟩ := fullDepths_siblings hfull hlen
  obtain ⟨D1, hw1, hd1, hc1⟩ := pair_swap D a (m + 1) (b :: R) ((m + 1) :: r) hw hp
    (by
      intro w hw
      rw [List.mem_cons] at hw
      rcases hw with hw | hw
      · omega
      · have := hb w hw
        omega)
    (by
      intro d hd
      rw [List.mem_cons] at hd
      rcases hd with hd | hd
      · omega
      · exact hle d hd)
  obtain ⟨D2, hw2, hd2, hc2⟩ := pair_swap D1 b (m + 1) R r hw1 hd1 hb hle
  refine ⟨(a + b, m) :: D2, ?_, ?_, ?_⟩
  · rw [List.map_cons]
    exact hw2.cons _
  · rw [List.map_cons]
    exact FullDepths.perm _ _ ((hd2.cons m).symm) hf
  · rw [pairCost_cons]
    dsimp only
    nlinarith

/-! ## Depths of the leaves of a tree -/

theorem leafDepths_leaves : ∀ (n : HuffNode) (d : Nat),
    (leafDepths d n).map (fun p => (p.1, p.2.1)) = leaves n := by
  intro n
  induction n with
  | null =>
    intro d
    rfl
  | node b c l r flag ihl ihr =>
    intro d
    by_cases hleaf : r = HuffNode.null ∧ l = HuffNode.null
    · rw [leafDepths, leaves, if_pos hleaf, if_pos hleaf]
      rfl
    · rw [leafDepths, leaves, if_neg hleaf, if_neg hleaf, List.map_append, ihl, ihr]

theorem leafDepths_succ : ∀ (n : HuffNode) (d : Nat),
    leafDepths (d + 1) n = (leafDepths d n).map (fun p => (p.1, p.2.1, p.2.2 + 1)) := by
  intro n
  induction n with
  | null =>
    intro d
    rfl
  | node b c l r flag ihl ihr =>
    intro d
    by_cases hleaf : r = HuffNode.null ∧ l = HuffNode.null
    · rw [leafDepths, leafDepths, if_pos hleaf, if_pos hleaf]
      rfl
    · rw [leafDepths, leafDepths, if_neg hleaf, if_neg hleaf, List.map_append, ihl, ihr]

theorem leafSum_leafDepths (n : HuffNode) (d : Nat) :
    leafSum n = ((leafDepths d n).map (fun p => p.2.1)).sum := by
  rw [leafSum_eq_sum, ← leafDepths_leaves n d, List.map_map]
  rfl

theorem sum_map_add_one (l : List (Byte × Nat × Nat)) :
    (l.map (fun p => p.2.1 * (p.2.2 + 1))).sum
      = (l.map (fun p => p.2.1 * p.2.2)).sum + (l.map (fun p => p.2.1)).sum := by
  induction l with
  | nil => rfl
  | cons a l ih =>
    simp only [List.map_cons, List.sum_cons]
    rw [ih, Nat.mul_add, Nat.mul_one]
    omega

theorem fieldCost_succ (n : HuffNode) (d : Nat) :
    fieldCost (d + 1) n = fieldCost d n + leafSum n := by
  rw [fieldCost, fieldCost, leafDepths_succ, List.map_map, leafSum_leafDepths n d]
  exact sum_map_add_one (leafDepths d n)

theorem fieldCost_parent (b : Byte) (c : Nat) (l r : HuffNode) (flag : Bool)
    (hl : l ≠ .null) :
    fieldCost 0 (.node b c l r flag)
      = fieldCost 0 l + fieldCost 0 r + leafSum l + leafSum r := by
  have h1 := fieldCost_succ l 0
  have h2 := fieldCost_succ r 0
  rw [fieldCost] at h1 h2
  rw [fieldCost, leafDepths, if_neg (fun h => hl h.2), List.map_append, List.sum_append, h1, h2]
  omega

theorem fieldCost_leaf (b : Byte) (c : Nat) (flag : Bool) :
    fieldCost 0 (.node b c .null .null flag) = 0 := by
  simp [fieldCost, leafDepths]

theorem leafSum_leaf (b : Byte) (c : Nat) (flag : Bool) :
    leafSum (.node b c .null .null flag) = c := by
  simp [leafSum]

/-- The depths of the leaves of a tree whose inner nodes have two children. -/
theorem fullDepths_tree : ∀ (n : HuffNode), n ≠ .null → TwoChildren n →
    FullDepths ((leafDepths 0 n).map (fun p => p.2.2)) := by
  intro n
  induction n with
  | null =>
    intro h
    exact absurd rfl h
  | node b c l r flag ihl ihr =>
    intro _ h2
    by_cases hleaf : r = HuffNode.null ∧ l = HuffNode.null
    · rw [leafDepths, if_pos hleaf]
      exact FullDepths.single
    · rw [leafDepths, if_neg hleaf]
      rcases h2 with h | ⟨hl, hr, h2l, h2r⟩
      · exact absurd h hleaf
      · have h := FullDepths.join _ _ (ihl hl h2l) (ihr hr h2r)
        rw [leafDepths_succ l 0, leafDepths_succ r 0, List.map_append, List.map_map,
          List.map_map]
        rw [List.map_append, List.map_map, List.map_map] at h
        exact h

/-! ## The loop builds a tree of least cost -/

theorem buildLoop_optimal (P : Platform) (hP : P.Lawful) :
    ∀ (fuel : Nat) (v : List FrequencyAndHuffNode) (pNode : HuffNode)
      (lt : Option LeafNodeTable) (root : HuffNode) (lt' : Option LeafNodeTable),
      is_heap v →
      (∀ p ∈ v, p.2 ≠ .null ∧ p.1 = leafSum p.2 ∧ nodeCount p.2 = leafSum p.2) →
      (v.map Prod.fst).sum < 2 ^ (8 * P.W) →
      (2 ≤ v.length ∨ ∃ k, v = [(k, pNode)]) →
      buildLoop P fuel v pNode lt = .ok (root, lt') →
      ∀ D : List (Nat × Nat), (D.map Prod.fst).Perm (v.map Prod.fst) →
        FullDepths (D.map Prod.snd) →
        fieldCost 0 root ≤ (v.map (fun p => fieldCost 0 p.2)).sum + pairCost D := by
  intro fuel
  induction fuel with
  | zero =>
    intro v pNode lt root lt' _ _ _ hcase h D _ _
    rw [buildLoop] at h
    by_cases hl : v.length > 1
    · rw [if_pos hl] at h
      cases h
    · rw [if_neg hl] at h
      cases h
      rcases hcase with h2 | ⟨k, hk⟩
      · omega
      · subst hk
        simp only [List.map_cons, List.map_nil, List.sum_cons, List.sum_nil]
        omega
  | succ fuel ih =>
    intro v pNode lt root lt' hh hall hsum hcase h D hDw hDf
    by_cases hl : v.length > 1
    · rw [buildLoop_step P fuel v pNode lt hl] at h
      obtain ⟨f1, f2, rest, v', lt2, hbody, hperm, h12, hrest, hperm', hheap'⟩ :=
        loopBody_spec P hP v lt hh (by omega) (fun p hp => (hall p hp).1)
      rw [hbody] at h
      dsimp only at h
      obtain ⟨hn1, hk1, hc1⟩ := hall f1 (hperm.mem_iff.mpr (by simp))
      obtain ⟨hn2, hk2, hc2⟩ := hall f2 (hperm.mem_iff.mpr (by simp))
      have hkeys : (v.map Prod.fst).sum = f1.1 + f2.1 + (rest.map Prod.fst).sum := by
        rw [(hperm.map Prod.fst).sum_eq]
        simp only [List.map_cons, List.sum_cons]
        omega
      have hw1 : wrap P (f1.1 + f2.1) = f1.1 + f2.1 := Nat.mod_eq_of_lt (by omega)
      have hw2 : wrap P (nodeCount f1.2 + nodeCount f2.2) = f1.1 + f2.1 := by
        rw [hc1, hc2, ← hk1, ← hk2]
        exact hw1
      rw [hw1, hw2] at hperm'
      rw [hw2] at h
      have hls : leafSum (.node 0 (f1.1 + f2.1) f1.2 f2.2 false) = f1.1 + f2.1 := by
        rw [leafSum_parent _ _ _ _ _ hn1, ← hk1, ← hk2]
      have hfc : fieldCost 0 (.node 0 (f1.1 + f2.1) f1.2 f2.2 false)
          = fieldCost 0 f1.2 + fieldCost 0 f2.2 + f1.1 + f2.1 := by
        rw [fieldCost_parent _ _ _ _ _ hn1, ← hk1, ← hk2]
      obtain ⟨D', hD'w, hD'f, hD'c⟩ := pair_merge D f1.1 f2.1 (rest.map Prod.fst) hDf
        (hDw.trans (hperm.map Prod.fst)) h12 (by
          intro w hw
          rw [List.mem_map] at hw
          obtain ⟨p, hp, rfl⟩ := hw
          exact hrest p hp)
      have hall' : ∀ p ∈ v', p.2 ≠ .null ∧ p.1 = leafSum p.2 ∧ nodeCount p.2 = leafSum p.2 := by
        intro p hp
        rw [hperm'.mem_iff, List.mem_cons] at hp
        rcases hp with hp | hp
        · subst hp
          exact ⟨by simp, hls.symm, hls.symm⟩
        · exact hall p (hperm.mem_iff.mpr (by simp [hp]))
      have hsum' : (v'.map Prod.fst).sum < 2 ^ (8 * P.W) := by
        rw [(hperm'.map Prod.fst).sum_eq]
        simp only [List.map_cons, List.sum_cons]
        omega
      have hcase' : 2 ≤ v'.length ∨
          ∃ k, v' = [(k, HuffNode.node 0 (f1.1 + f2.1) f1.2 f2.2 false)] := by
        cases rest with
        | nil => exact Or.inr ⟨_, List.perm_singleton.mp hperm'⟩
        | cons x xs =>
          left
          rw [hperm'.length_eq]
          simp
      have hih := ih v' _ lt2 root lt' hheap' hall' hsum' hcase' h D'
        (hD'w.trans (hperm'.map Prod.fst).symm) hD'f
      have hcost' : (v'.map (fun p => fieldCost 0 p.2)).sum
          = fieldCost 0 f1.2 + fieldCost 0 f2.2 + f1.1 + f2.1
            + (rest.map (fun p => fieldCost 0 p.2)).sum := by
        rw [(hperm'.map _).sum_eq]
        simp only [List.map_cons, List.sum_cons]
        rw [hfc]
      have hcost : (v.map (fun p => fieldCost 0 p.2)).sum
          = fieldCost 0 f1.2 + fieldCost 0 f2.2
            + (rest.map (fun p => fieldCost 0 p.2)).sum := by
        rw [(hperm.map _).sum_eq]
        simp only [List.map_cons, List.sum_cons]
        omega
      rw [hcost'] at hih
      rw [hcost]
      omega
    · rw [buildLoop, if_neg hl] at h
      cases h
      rcases hcase with h2 | ⟨k, hk⟩
      · omega
      · subst hk
        simp only [List.map_cons, List.map_nil, List.sum_cons, List.sum_nil]
        omega

theorem entries_snd_perm (P : Platform) (hP : P.Lawful) (t : FrequencyTable) :
    ((t.entries P).map Prod.snd).Perm (t.keys.map (fun b => (t b).getD 0)) := by
  unfold FrequencyTable.entries
  rw [filterMap_entries_snd]
  · exact (iter_keys_perm P hP t).map _
  · intro b hb
    rw [(iter_keys_perm P hP t).mem_iff] at hb
    exact (mem_keys t b).mp hb

/-- With counts that sum to less than `2 ^ (8 * W)`, the tree built costs no more than any
full pairing of the counts with depths. -/
theorem buildHuffmanTree_fieldCost (P : Platform) (hP : P.Lawful) (r0 : HuffNode)
    (t : FrequencyTable) (lt : Option LeafNodeTable) (hn : 2 ≤ t.size)
    (htot : t.total < 2 ^ (8 * P.W)) (root : HuffNode) (table : Option LeafNodeTable)
    (h : buildHuffmanTree P r0 t lt = .ok (true, root, table))
    (D : List (Nat × Nat)) (hDw : (D.map Prod.fst).Perm ((t.entries P).map Prod.snd))
    (hDf : FullDepths (D.map Prod.snd)) : fieldCost 0 root ≤ pairCost D := by
  have hloop := buildHuffmanTree_loop P r0 t lt root table h
  have hmk := hP.make_perm (initialNodes P t)
  have hfst : (initialNodes P t).map Prod.fst = (t.entries P).map Prod.snd := by
    rw [initialNodes, List.map_map]
    rfl
  have hopt := buildLoop_optimal P hP _ _ _ lt root table (hP.make_is_heap _)
    (by
      intro p hp
      rw [hmk.mem_iff, initialNodes, List.mem_map] at hp
      obtain ⟨e, _, rfl⟩ := hp
      exact ⟨by simp, (leafSum_leaf _ _ _).symm, by simp [nodeCount, leafSum]⟩)
    (by
      rw [(hmk.map Prod.fst).sum_eq, hfst, entries_total P hP]
      exact htot)
    (Or.inl (by
      rw [hmk.length_eq, initialNodes_length P hP]
      exact hn))
    hloop D (by
      rw [← hfst] at hDw
      exact hDw.trans (hmk.map Prod.fst).symm)
    hDf
  have hzero : ((P.make_heap (initialNodes P t)).map (fun p => fieldCost 0 p.2)).sum = 0 := by
    rw [(hmk.map _).sum_eq]
    apply List.sum_eq_zero
    intro x hx
    rw [initialNodes, List.map_map, List.mem_map] at hx
    obtain ⟨e, _, rfl⟩ := hx
    exact fieldCost_leaf _ _ _
  rw [hzero] at hopt
  omega

theorem weightedPathLength_fieldCost (P : Platform) (t : FrequencyTable) (root : HuffNode)
    (hlv : (leaves root).Perm (t.entries P)) :
    weightedPathLength t root = fieldCost 0 root := by
  unfold weightedPathLength fieldCost
  congr 1
  apply List.map_congr_left
  intro p hp
  have hmem : (p.1, p.2.1) ∈ leaves root := by
    rw [← leafDepths_leaves root 0]
    exact List.mem_map_of_mem (fun p : Byte × Nat × Nat => (p.1, p.2.1)) hp
  have := mem_entries_imp P t _ (hlv.mem_iff.mp hmem)
  dsimp only at this
  rw [this]
  rfl

/-- A competing tree as a full pairing of the counts of the table with depths. -/
theorem tree_pairing (P : Platform) (hP : P.Lawful) (t : FrequencyTable) (other : HuffNode)
    (hne : other ≠ .null) (h2 : TwoChildren other)
    (hsyms : ((leafDepths 0 other).map (fun p => p.1)).Perm t.keys) :
    ∃ D : List (Nat × Nat), (D.map Prod.fst).Perm ((t.entries P).map Prod.snd) ∧
      FullDepths (D.map Prod.snd) ∧ pairCost D = weightedPathLength t other := by
  refine ⟨(leafDepths 0 other).map (fun p => ((t p.1).getD 0, p.2.2)), ?_, ?_, ?_⟩
  · have h1 := hsyms.map (fun b => (t b).getD 0)
    rw [List.map_map] at h1
    rw [List.map_map]
    exact h1.trans (entries_snd_perm P hP t).symm
  · rw [List.map_map]
    exact fullDepths_tree other hne h2
  · rw [pairCost, List.map_map]
    rfl

/-! ## Codes in which no code word begins another -/

theorem sum_length_tail (T : List Byte) (c : Byte → List Bool) (h : ∀ s ∈ T, c s ≠ []) :
    (T.map (fun s => (c s).length)).sum
      = (T.map (fun s => (c s).tail.length)).sum + T.length := by
  induction T with
  | nil => rfl
  | cons a T ih =>
    have ha := h a (List.mem_cons_self a T)
    have hlen : (c a).length = (c a).tail.length + 1 := by
      cases hc : c a with
      | nil => exact absurd hc ha
      | cons x xs => simp
    simp only [List.map_cons, List.sum_cons, List.length_cons]
    rw [ih (fun s hs => h s (List.mem_cons_of_mem a hs)), hlen]
    omega

theorem cons_headD_tail (l : List Bool) (h : l ≠ []) : l = l.headD false :: l.tail := by
  cases l with
  | nil => exact absurd rfl h
  | cons x xs => rfl

theorem code_nonempty (S : List Byte) (c : Byte → List Bool) (hnd : S.Nodup)
    (h2 : 2 ≤ S.length) (hfree : ∀ a ∈ S, ∀ b ∈ S, a ≠ b → ∀ ext, c b ≠ c a ++ ext) :
    ∀ a ∈ S, c a ≠ [] := by
  intro a ha hnil
  have hother : ∃ b ∈ S, a ≠ b := by
    match S, hnd, h2, ha with
    | x :: y :: rest, hnd, _, ha =>
      have hxy : x ≠ y := by
        intro hxy
        rw [hxy] at hnd
        exact (List.nodup_cons.mp hnd).1 (List.mem_cons_self y rest)
      by_cases hax : a = x
      · exact ⟨y, by simp, by rw [hax]; exact hxy⟩
      · exact ⟨x, by simp, hax⟩
  obtain ⟨b, hb, hab⟩ := hother
  exact hfree a ha b hb hab (c b) (by rw [hnil, List.nil_append])

/-- Kraft, one direction: the words of a code in which no word begins another are at least
as long as the depths of the leaves of some full binary tree. -/
theorem code_depths : ∀ (n : Nat) (S : List Byte) (c : Byte → List Bool),
    S ≠ [] → S.Nodup →
    (∀ a ∈ S, ∀ b ∈ S, a ≠ b → ∀ ext, c b ≠ c a ++ ext) →
    (S.map (fun s => (c s).length)).sum ≤ n →
    ∃ d : Byte → Nat, (∀ s ∈ S, d s ≤ (c s).length) ∧ FullDepths (S.map d) := by
  intro n
  induction n with
  | zero =>
    intro S c hne hnd hfree hsum
    by_cases h1 : S.length = 1
    · obtain ⟨s, hs⟩ := List.length_eq_one.mp h1
      subst hs
      exact ⟨fun _ => 0, fun _ _ => Nat.zero_le _, FullDepths.single⟩
    · have hpos : 0 < S.length := List.length_pos.mpr hne
      have hcode := code_nonempty S c hnd (by omega) hfree
      rw [sum_length_tail S c hcode] at hsum
      omega
  | succ n ih =>
    intro S c hne hnd hfree hsum
    by_cases h1 : S.length = 1
    · obtain ⟨s, hs⟩ := List.length_eq_one.mp h1
      subst hs
      exact ⟨fun _ => 0, fun _ _ => Nat.zero_le _, FullDepths.single⟩
    · have hpos : 0 < S.length := List.length_pos.mpr hne
      have hcode := code_nonempty S c hnd (by omega) hfree
      have descend : ∀ (T : List Byte) (β : Bool), T ≠ [] → T.Nodup → (∀ s ∈ T, s ∈ S) →
          (∀ s ∈ T, (c s).headD false = β) →
          (T.map (fun s => (c s).length)).sum ≤ n + 1 →
          ∃ d : Byte → Nat, (∀ s ∈ T, d s + 1 ≤ (c s).length) ∧ FullDepths (T.map d) := by
        intro T β hTne hTnd hTS hβ hTsum
        have hTcode : ∀ s ∈ T, c s ≠ [] := fun s hs => hcode s (hTS s hs)
        have hTpos : 0 < T.length := List.length_pos.mpr hTne
        rw [sum_length_tail T c hTcode] at hTsum
        obtain ⟨d, hd, hfull⟩ := ih T (fun s => (c s).tail) hTne hTnd
          (by
            intro a ha b hb hab ext hext
            refine hfree a (hTS a ha) b (hTS b hb) hab ext ?_
            rw [cons_headD_tail (c b) (hTcode b hb), cons_headD_tail (c a) (hTcode a ha),
              hβ a ha, hβ b hb, List.cons_append]
            exact congrArg (List.cons β) hext)
          (by
            show (T.map (fun s => (c s).tail.length)).sum ≤ n
            omega)
        refine ⟨d, ?_, hfull⟩
        intro s hs
        have := hd s hs
        have hlen := congrArg List.length (cons_headD_tail (c s) (hTcode s hs))
        rw [List.length_cons] at hlen
        omega
      have hsplit := List.filter_append_perm (fun s => (c s).headD false) S
      by_cases hS1 : S.filter (fun s => (c s).headD false) = []
      · obtain ⟨d, hd, hfull⟩ := descend S false hne hnd (fun s hs => hs)
          (by
            intro s hs
            have := List.filter_eq_nil_iff.mp hS1 s hs
            simpa using this)
          hsum
        exact ⟨d, fun s hs => by have := hd s hs; omega, hfull⟩
      · by_cases hS0 : S.filter (fun s => !(c s).headD false) = []
        · obtain ⟨d, hd, hfull⟩ := descend S true hne hnd (fun s hs => hs)
            (by
              intro s hs
              have := List.filter_eq_nil_iff.mp hS0 s hs
              simpa using this)
            hsum
          exact ⟨d, fun s hs => by have := hd s hs; omega, hfull⟩
        · have hsums : (S.map (fun s => (c s).length)).sum
              = ((S.filter (fun s => (c s).headD false)).map (fun s => (c s).length)).sum
                + ((S.filter (fun s => !(c s).headD false)).map
                    (fun s => (c s).length)).sum := by
            rw [← (hsplit.map (fun s => (c s).length)).sum_eq, List.map_append,
              List.sum_append]
          obtain ⟨d1, hd1, hfull1⟩ := descend _ true hS1 (hnd.filter _)
            (fun s hs => (List.mem_filter.mp hs).1)
            (fun s hs => by simpa using (List.mem_filter.mp hs).2)
            (by omega)
          obtain ⟨d0, hd0, hfull0⟩ := descend _ false hS0 (hnd.filter _)
            (fun s hs => (List.mem_filter.mp hs).1)
            (fun s hs => by simpa using (List.mem_filter.mp hs).2)
            (by omega)
          refine ⟨fun s => if (c s).headD false = true then d1 s + 1 else d0 s + 1, ?_, ?_⟩
          · intro s hs
            dsimp only
            by_cases hh : (c s).headD false = true
            · rw [if_pos hh]
              exact hd1 s (List.mem_filter.mpr ⟨hs, hh⟩)
            · rw [if_neg hh]
              exact hd0 s (List.mem_filter.mpr ⟨hs, by simpa using hh⟩)
          · have hjoin := FullDepths.join _ _ hfull1 hfull0
            refine FullDepths.perm _ _ ?_ hjoin
            refine List.Perm.trans ?_ (hsplit.map _)
            rw [List.map_append, List.map_append, List.map_map, List.map_map]
            refine List.Perm.of_eq ?_
            congr 1
            · apply List.map_congr_left
              intro s hs
              have hh : (c s).headD false = true := by simpa using (List.mem_filter.mp hs).2
              dsimp only [Function.comp]
              rw [if_pos hh]
            · apply List.map_congr_left
              intro s hs
              have hh : ¬ (c s).headD false = true := by
                simpa using (List.mem_filter.mp hs).2
              dsimp only [Function.comp]
              rw [if_neg hh]

/-- A code on the symbols of a table in which no word begins another costs at least as much
as some full pairing of the counts with depths. -/
theorem code_pairing (P : Platform) (hP : P.Lawful) (t : FrequencyTable)
    (c : Byte → List Bool) (hn : 1 ≤ t.size)
    (hfree : ∀ a ∈ t.keys, ∀ b ∈ t.keys, a ≠ b → ∀ ext, c b ≠ c a ++ ext) :
    ∃ D : List (Nat × Nat), (D.map Prod.fst).Perm ((t.entries P).map Prod.snd) ∧
      FullDepths (D.map Prod.snd) ∧
      pairCost D ≤ (t.keys.map (fun s => (t s).getD 0 * (c s).length)).sum := by
  have hne : t.keys ≠ [] := by
    intro h
    rw [FrequencyTable.size, h] at hn
    simp at hn
  obtain ⟨d, hd, hfull⟩ := code_depths _ t.keys c hne (keys_nodup t) hfree (Nat.le_refl _)
  refine ⟨t.keys.map (fun s => ((t s).getD 0, d s)), ?_, ?_, ?_⟩
  · rw [List.map_map]
    exact (entries_snd_perm P hP t).symm
  · rw [List.map_map]
    exact hfull
  · rw [pairCost, List.map_map]
    apply List.sum_le_sum
    intro s hs
    exact Nat.mul_le_mul_left _ (hd s hs)

/-! ## The number of code bits of an input -/

theorem sum_map_count_dedup (l : List Byte) (f : Byte → Nat) :
    (l.map f).sum = (l.dedup.map (fun s => l.count s * f s)).sum := by
  have hfin : l.dedup.toFinset = l.toFinset := by
    ext x
    simp
  rw [Finset.sum_list_map_count, ← List.sum_toFinset _ (List.nodup_dedup l), hfin]
  rfl

theorem length_flatMap_sum (l : Buffer) (f : Byte → List Bool) :
    (l.flatMap f).length = (l.map (fun b => (f b).length)).sum := by
  induction l with
  | nil => rfl
  | cons a l ih => rw [List.flatMap_cons, List.length_append, ih, List.map_cons, List.sum_cons]

theorem codeBits_table (P : Platform) (buffer : Buffer) (c : Byte → List Bool)
    (hlen : buffer.length < 2 ^ (8 * P.W)) :
    (buffer.flatMap c).length
      = ((buildFrequencyTable P buffer).keys.map
          (fun s => (buildFrequencyTable P buffer s).getD 0 * (c s).length)).sum := by
  rw [length_flatMap_sum, sum_map_count_dedup,
    ((buildFrequencyTable_keys P buffer).map _).sum_eq]
  congr 1
  apply List.map_congr_left
  intro s hs
  rw [buildFrequencyTable_mem P buffer s hlen, if_pos (List.mem_dedup.mp hs)]
  rfl

theorem leafDepths_leafAt : ∀ (n : HuffNode) (d : Nat) (p : Byte × Nat × Nat),
    p ∈ leafDepths d n → ∃ path, leafAt n path = some p.1 ∧ p.2.2 = d + path.length := by
  intro n
  induction n with
  | null =>
    intro d p hp
    cases hp
  | node b c l r flag ihl ihr =>
    intro d p hp
    by_cases hleaf : r = HuffNode.null ∧ l = HuffNode.null
    · rw [leafDepths, if_pos hleaf, List.mem_singleton] at hp
      subst hp
      exact ⟨[], by rw [leafAt, if_pos hleaf], rfl⟩
    · rw [leafDepths, if_neg hleaf, List.mem_append] at hp
      rcases hp with hp | hp
      · obtain ⟨path, hpath, hlen⟩ := ihl (d + 1) p hp
        refine ⟨false :: path, by rw [leafAt, if_neg hleaf]; exact hpath, ?_⟩
        rw [hlen, List.length_cons]
        omega
      · obtain ⟨path, hpath, hlen⟩ := ihr (d + 1) p hp
        refine ⟨true :: path, by rw [leafAt, if_neg hleaf]; exact hpath, ?_⟩
        rw [hlen, List.length_cons]
        omega

/-- The weighted path length of the tree built for a table, by the lengths of the paths to
its leaves. -/
theorem weightedPathLength_codes (P : Platform) (hP : P.Lawful) (t : FrequencyTable)
    (root : HuffNode) (hlv : (leaves root).Perm (t.entries P)) (c : Byte → List Bool)
    (hc : ∀ s ∈ t.keys, leafAt root (c s) = some s) :
    weightedPathLength t root = (t.keys.map (fun s => (t s).getD 0 * (c s).length)).sum := by
  have hnd := leaves_keys_nodup P hP t root hlv
  have hsyms : ((leafDepths 0 root).map (fun p => p.1)).Perm t.keys := by
    have h1 : (leafDepths 0 root).map (fun p => p.1) = (leaves root).map Prod.fst := by
      rw [← leafDepths_leaves root 0, List.map_map]
      rfl
    rw [h1]
    refine (hlv.map Prod.fst).trans ?_
    rw [entries_keys P hP t]
    exact iter_keys_perm P hP t
  rw [← (hsyms.map _).sum_eq, List.map_map]
  unfold weightedPathLength
  congr 1
  apply List.map_congr_left
  intro p hp
  obtain ⟨path, hpath, hlen⟩ := leafDepths_leafAt root 0 p hp
  have hkey : p.1 ∈ t.keys :=
    hsyms.mem_iff.mp (List.mem_map_of_mem (fun p : Byte × Nat × Nat => p.1) hp)
  have := leafAt_unique root _ _ p.1 hnd hpath (hc p.1 hkey)
  dsimp only [Function.comp]
  rw [hlen, this]
  simp

/-- The root that `buildHuffmanTree` leaves depends on the table only. -/
theorem buildHuffmanTree_root_eq (P : Platform) (r1 r2 : HuffNode) (t : FrequencyTable)
    (lt1 lt2 : Option LeafNodeTable) (root1 root2 : HuffNode)
    (table1 table2 : Option LeafNodeTable)
    (h1 : buildHuffmanTree P r1 t lt1 = .ok (true, root1, table1))
    (h2 : buildHuffmanTree P r2 t lt2 = .ok (true, root2, table2)) : root1 = root2 := by
  have l1 := buildHuffmanTree_loop P r1 t none root1 none
    (buildHuffmanTree_root P r1 t lt1 root1 table1 h1)
  have l2 := buildHuffmanTree_loop P r2 t none root2 none
    (buildHuffmanTree_root P r2 t lt2 root2 table2 h2)
  rw [l1] at l2
  simp only [Except.ok.injEq, Prod.mk.injEq, and_true] at l2
  exact l2

/-! ## The platform of libstdc++ is lawful -/

theorem sum_map_ite_range (n m c : Nat) (h : m < n) :
    ((List.range n).map (fun k => if m = k then c else 0)).sum = c := by
  induction n with
  | zero => omega
  | succ n ih =>
    rw [List.range_succ, List.map_append, List.sum_append]
    by_cases hm : m = n
    · subst hm
      have hzero : ((List.range m).map (fun k => if m = k then c else 0)).sum = 0 := by
        apply List.sum_eq_zero
        intro x hx
        rw [List.mem_map] at hx
        obtain ⟨k, hk, rfl⟩ := hx
        rw [List.mem_range] at hk
        rw [if_neg (by omega)]
      rw [hzero]
      simp
    · rw [ih (by omega)]
      simp [hm]

theorem count_filter_mod (inserted : List Byte) (a : Byte) (k : Nat) :
    List.count a ((inserted.filter (fun b => b.val % 11 = k)).reverse)
      = if a.val % 11 = k then List.count a inserted else 0 := by
  rw [List.count_reverse]
  by_cases h : a.val % 11 = k
  · rw [if_pos h, List.count_filter]
    simpa using h
  · rw [if_neg h]
    apply List.count_eq_zero_of_not_mem
    intro hmem
    rw [List.mem_filter] at hmem
    exact h (by simpa using hmem.2)

theorem chainOrder_perm (inserted : List Byte) : (chainOrder inserted).Perm inserted := by
  rw [List.perm_iff_count]
  intro a
  unfold chainOrder
  rw [List.count_flatMap]
  have hfun : (List.count a ∘ fun k => (inserted.filter (fun b => b.val % 11 = k)).reverse)
      = fun k => if a.val % 11 = k then List.count a inserted else 0 := by
    funext k
    exact count_filter_mod inserted a k
  rw [hfun]
  exact sum_map_ite_range 11 (a.val % 11) _ (Nat.mod_lt _ (by norm_num))

/-! ## The heap algorithms of libstdc++ -/

theorem keyAt_set (v : List FrequencyAndHuffNode) (j i : Nat) (a : FrequencyAndHuffNode)
    (hj : j < v.length) : keyAt (v.set j a) i = if i = j then a.1 else keyAt v i := by
  unfold keyAt
  rw [List.getElem?_set]
  by_cases h : j = i
  · subst h
    simp [hj]
  · have h2 : ¬ i = j := fun e => h e.symm
    simp [h, h2]

theorem keyAt_getD (v : List FrequencyAndHuffNode) (i : Nat) (d : FrequencyAndHuffNode)
    (hi : i < v.length) : (v.getD i d).1 = keyAt v i := by
  unfold keyAt
  simp [List.getD_eq_getElem?_getD, List.getElem?_eq_getElem hi]

theorem keyAt_of_getElem? (v : List FrequencyAndHuffNode) (i : Nat) (x : FrequencyAndHuffNode)
    (h : v[i]? = some x) : keyAt v i = x.1 := by
  unfold keyAt
  rw [h]

theorem huffCompare_true_iff (a b : FrequencyAndHuffNode) :
    HuffCompare a b = true ↔ b.1 < a.1 := by
  unfold HuffCompare
  simp

theorem is_heap_iff (v : List FrequencyAndHuffNode) : is_heap v ↔ HeapOn 0 v.length v := by
  constructor
  · intro h i hi hlt _
    have hp : (i - 1) / 2 < v.length := by omega
    have h1 := h i _ _ hi (List.getElem?_eq_getElem hp) (List.getElem?_eq_getElem hlt)
    rw [keyAt_of_getElem? v _ _ (List.getElem?_eq_getElem hp),
      keyAt_of_getElem? v _ _ (List.getElem?_eq_getElem hlt)]
    have h2 : ¬ HuffCompare (v[(i - 1) / 2]) (v[i]) = true := by
      rw [h1]
      simp
    rw [huffCompare_true_iff] at h2
    omega
  · intro h i x y hi hx hy
    have hlt : i < v.length := (List.getElem?_eq_some_iff.mp hy).1
    have h1 := h i hi hlt (Nat.zero_le _)
    rw [keyAt_of_getElem? v _ _ hx, keyAt_of_getElem? v _ _ hy] at h1
    have h2 : ¬ HuffCompare x y = true := by
      rw [huffCompare_true_iff]
      omega
    simpa using h2

theorem heapOn_congr (top len : Nat) (v w : List FrequencyAndHuffNode)
    (h : ∀ i, i < len → keyAt w i = keyAt v i) (hv : HeapOn top len v) : HeapOn top len w := by
  intro i hi hlt htop
  rw [h i hlt, h ((i - 1) / 2) (by omega)]
  exact hv i hi hlt htop

theorem keyAt_dropLast (v : List FrequencyAndHuffNode) (i : Nat) (hi : i < v.length - 1) :
    keyAt v.dropLast i = keyAt v i := by
  unfold keyAt
  rw [List.dropLast_eq_take, List.getElem?_take_of_lt hi]

theorem is_heap_dropLast_iff (v : List FrequencyAndHuffNode) :
    is_heap v.dropLast ↔ HeapOn 0 (v.length - 1) v := by
  rw [is_heap_iff, List.length_dropLast]
  constructor
  · exact heapOn_congr 0 _ _ _ (fun i hi => (keyAt_dropLast v i hi).symm)
  · exact heapOn_congr 0 _ _ _ (fun i hi => keyAt_dropLast v i hi)

theorem heapDesc_le (top h : Nat) (hd : HeapDesc top h) : top ≤ h := by
  induction hd with
  | refl => exact Nat.le_refl _
  | left h _ ih => omega
  | right h _ ih => omega

theorem heapDesc_parent (top h : Nat) (hd : HeapDesc top h) (hne : h ≠ top) :
    HeapDesc top ((h - 1) / 2) := by
  cases hd with
  | refl => exact absurd rfl hne
  | left k hk =>
    have e : (2 * k + 1 - 1) / 2 = k := by omega
    rw [e]
    exact hk
  | right k hk =>
    have e : (2 * k + 2 - 1) / 2 = k := by omega
    rw [e]
    exact hk

theorem heapDesc_zero (h : Nat) : HeapDesc 0 h := by
  induction h using Nat.strong_induction_on with
  | _ h ih =>
    by_cases h0 : h = 0
    · subst h0
      exact HeapDesc.refl
    · have hp := ih ((h - 1) / 2) (by omega)
      by_cases hodd : h % 2 = 1
      · have e : h = 2 * ((h - 1) / 2) + 1 := by omega
        rw [e]
        exact HeapDesc.left _ hp
      · have e : h = 2 * ((h - 1) / 2) + 2 := by omega
        rw [e]
        exact HeapDesc.right _ hp

theorem set_set_perm {α : Type} [DecidableEq α] (w : List α) (h c : Nat) (x value : α)
    (hh : h < w.length) (hc : c < w.length) (hne : h ≠ c) (hx : w[c]? = some x) :
    ((w.set h x).set c value).Perm (w.set h value) := by
  rw [List.perm_iff_count]
  intro b
  have hc2 : c < (w.set h x).length := by
    rw [List.length_set]
    exact hc
  have hget : (w.set h x)[c] = x := by
    rw [List.getElem_set_ne hne]
    have := List.getElem?_eq_getElem hc
    rw [hx] at this
    exact (Option.some.inj this).symm
  rw [List.count_set _ _ _ _ hc2, hget, List.count_set _ _ _ _ hh, List.count_set _ _ _ _ hh]
  omega

theorem set_self_eq {α : Type} (w : List α) (i : Nat) (x : α) (hx : w[i]? = some x) :
    w.set i x = w := by
  apply List.ext_getElem?
  intro j
  rw [List.getElem?_set]
  by_cases h : i = j
  · subst h
    have hlt : i < w.length := (List.getElem?_eq_some_iff.mp hx).1
    simp [hlt, hx]
  · simp [h]

theorem getD_getElem? (w : List FrequencyAndHuffNode) (i : Nat) (d : FrequencyAndHuffNode)
    (hi : i < w.length) : w[i]? = some (w.getD i d) := by
  simp [List.getD_eq_getElem?_getD, List.getElem?_eq_getElem hi]

theorem heapOn_set_hole (value : FrequencyAndHuffNode) (top len hole : Nat)
    (w : List FrequencyAndHuffNode) (hlt : hole < len) (hlen : len ≤ w.length)
    (hA : ∀ i, 0 < i → i < len → top ≤ (i - 1) / 2 → i ≠ hole → (i - 1) / 2 ≠ hole →
      keyAt w ((i - 1) / 2) ≤ keyAt w i)
    (hC : ∀ c, 0 < c → c < len → (c - 1) / 2 = hole → value.1 ≤ keyAt w c)
    (hP : top < hole → keyAt w ((hole - 1) / 2) ≤ value.1) :
    HeapOn top len (w.set hole value) := by
  intro i hi hilt htop
  have hh : hole < w.length := by omega
  rw [keyAt_set _ _ _ _ hh, keyAt_set _ _ _ _ hh]
  by_cases h1 : i = hole
  · subst h1
    have h2 : ¬ (i - 1) / 2 = i := by omega
    rw [if_neg h2, if_pos rfl]
    exact hP (by omega)
  · rw [if_neg h1]
    by_cases h2 : (i - 1) / 2 = hole
    · rw [if_pos h2]
      exact hC i hi hilt h2
    · rw [if_neg h2]
      exact hA i hi hilt htop h1 h2

theorem std_push_heap_spec (value : FrequencyAndHuffNode) (top len : Nat) :
    ∀ (fuel : Nat) (w : List FrequencyAndHuffNode) (hole : Nat),
      hole ≤ fuel → hole < len → len ≤ w.length → HeapDesc top hole →
      (∀ i, 0 < i → i < len → top ≤ (i - 1) / 2 → i ≠ hole → (i - 1) / 2 ≠ hole →
        keyAt w ((i - 1) / 2) ≤ keyAt w i) →
      (top < hole → ∀ c, 0 < c → c < len → (c - 1) / 2 = hole →
        keyAt w ((hole - 1) / 2) ≤ keyAt w c) →
      (∀ c, 0 < c → c < len → (c - 1) / 2 = hole → value.1 ≤ keyAt w c) →
      (std_push_heap value top fuel w hole).length = w.length ∧
        HeapOn top len (std_push_heap value top fuel w hole) ∧
        (std_push_heap value top fuel w hole).Perm (w.set hole value) ∧
        ∀ i, len ≤ i → (std_push_heap value top fuel w hole)[i]? = w[i]? := by
  intro fuel
  induction fuel with
  | zero =>
    intro w hole hf hlt hlen hd hA hB hC
    have h0 : hole = 0 := by omega
    subst h0
    refine ⟨?_, ?_, ?_, ?_⟩
    · show (w.set 0 value).length = _
      exact List.length_set ..
    · exact heapOn_set_hole value top len 0 w hlt hlen hA hC (fun h => absurd h (by omega))
    · exact List.Perm.refl _
    · intro i hi
      show (w.set 0 value)[i]? = _
      rw [List.getElem?_set_ne (by omega)]
  | succ fuel ih =>
    intro w hole hf hlt hlen hd hA hB hC
    have hh : hole < w.length := by omega
    by_cases hcond : hole > top ∧ HuffCompare (w.getD ((hole - 1) / 2) value) value = true
    · have hstep : std_push_heap value top (fuel + 1) w hole
          = std_push_heap value top fuel (w.set hole (w.getD ((hole - 1) / 2) value))
              ((hole - 1) / 2) := by
        rw [std_push_heap]
        exact if_pos hcond
      rw [hstep]
      obtain ⟨htop, hcmp⟩ := hcond
      have hp : (hole - 1) / 2 < w.length := by omega
      have hpl : (hole - 1) / 2 < hole := by omega
      rw [huffCompare_true_iff, keyAt_getD w _ value hp] at hcmp
      have hxkey := keyAt_getD w _ value hp
      have hx := getD_getElem? w _ value hp
      generalize w.getD ((hole - 1) / 2) value = x at hxkey hx
      have hk : ∀ i, keyAt (w.set hole x) i
          = if i = hole then keyAt w ((hole - 1) / 2) else keyAt w i := by
        intro i
        rw [keyAt_set _ _ _ _ hh, hxkey]
      have hd2 : HeapDesc top ((hole - 1) / 2) := heapDesc_parent top hole hd (by omega)
      have htp := heapDesc_le _ _ hd2
      have hres := ih (w.set hole x) ((hole - 1) / 2) (by omega) (by omega)
        (by rw [List.length_set]; exact hlen) hd2
        (by
          intro i hi hilt htopi hne1 hne2
          rw [hk, hk]
          have h1 : ¬ i = hole := by
            intro e
            subst e
            exact hne2 rfl
          rw [if_neg h1]
          by_cases h2 : (i - 1) / 2 = hole
          · rw [if_pos h2]
            exact hB htop i hi hilt h2
          · rw [if_neg h2]
            exact hA i hi hilt htopi h1 h2)
        (by
          intro htp2 c hc hclt hcp
          rw [hk, hk]
          have hg : ¬ ((hole - 1) / 2 - 1) / 2 = hole := by omega
          rw [if_neg hg]
          have hd3 := heapDesc_le _ _ (heapDesc_parent top _ hd2 (by omega))
          have hgp := hA ((hole - 1) / 2) (by omega) (by omega) hd3 (by omega) hg
          by_cases h1 : c = hole
          · rw [if_pos h1]
            exact hgp
          · rw [if_neg h1]
            have h2 := hA c hc hclt (by omega) h1 (by omega)
            rw [hcp] at h2
            omega)
        (by
          intro c hc hclt hcp
          rw [hk]
          by_cases h1 : c = hole
          · rw [if_pos h1]
            omega
          · rw [if_neg h1]
            have h2 := hA c hc hclt (by omega) h1 (by omega)
            rw [hcp] at h2
            omega)
      obtain ⟨r1, r2, r3, r4⟩ := hres
      refine ⟨?_, r2, ?_, ?_⟩
      · rw [r1, List.length_set]
      · exact r3.trans (set_set_perm w hole _ x value hh hp (by omega) hx)
      · intro i hi
        rw [r4 i hi, List.getElem?_set_ne (by omega)]
    · have hstep : std_push_heap value top (fuel + 1) w hole = w.set hole value := by
        rw [std_push_heap]
        exact if_neg hcond
      rw [hstep]
      refine ⟨List.length_set .., ?_, List.Perm.refl _, ?_⟩
      · apply heapOn_set_hole value top len hole w hlt hlen hA hC
        intro htop
        have hp : (hole - 1) / 2 < w.length := by omega
        have hcmp : ¬ HuffCompare (w.getD ((hole - 1) / 2) value) value = true :=
          fun h => hcond ⟨htop, h⟩
        rw [huffCompare_true_iff, keyAt_getD w _ value hp] at hcmp
        omega
      · intro i hi
        rw [List.getElem?_set_ne (by omega)]

theorem holeDown_step (value : FrequencyAndHuffNode) (top len : Nat)
    (w : List FrequencyAndHuffNode) (hole c : Nat) (hinv : HoleDown top len w hole)
    (hc : 0 < c) (hclt : c < len) (hcp : (c - 1) / 2 = hole)
    (hmin : ∀ d, 0 < d → d < len → (d - 1) / 2 = hole → keyAt w c ≤ keyAt w d) :
    HoleDown top len (w.set hole (w.getD c value)) c ∧
      (w.set hole (w.getD c value)).length = w.length ∧
      ((w.set hole (w.getD c value)).set c value).Perm (w.set hole value) ∧
      ∀ i, len ≤ i → (w.set hole (w.getD c value))[i]? = w[i]? := by
  obtain ⟨hlt, hlen, hd, hJ2, hJ4⟩ := hinv
  have hh : hole < w.length := by omega
  have hcl : c < w.length := by omega
  have hxkey := keyAt_getD w c value hcl
  have hx := getD_getElem? w c value hcl
  generalize w.getD c value = x at hxkey hx
  have hk : ∀ i, keyAt (w.set hole x) i = if i = hole then keyAt w c else keyAt w i := by
    intro i
    rw [keyAt_set _ _ _ _ hh, hxkey]
  have hdc : HeapDesc top c := by
    by_cases hodd : c % 2 = 1
    · have e : c = 2 * hole + 1 := by omega
      rw [e]
      exact HeapDesc.left _ hd
    · have e : c = 2 * hole + 2 := by omega
      rw [e]
      exact HeapDesc.right _ hd
  have htop := heapDesc_le _ _ hd
  refine ⟨⟨hclt, by rw [List.length_set]; exact hlen, hdc, ?_, ?_⟩, List.length_set ..,
    set_set_perm w hole c x value hh hcl (by omega) hx, ?_⟩
  · intro i hi hilt htopi hne
    rw [hk, hk]
    by_cases h1 : i = hole
    · subst h1
      have hg : ¬ (i - 1) / 2 = i := by omega
      rw [if_neg hg, if_pos rfl]
      exact hJ4 (by omega) c hc hclt hcp
    · rw [if_neg h1]
      by_cases h2 : (i - 1) / 2 = hole
      · rw [if_pos h2]
        exact hmin i hi hilt h2
      · rw [if_neg h2]
        exact hJ2 i hi hilt htopi h2
  · intro _ d hd0 hdlt hdp
    rw [hk, hk, if_pos hcp]
    have h1 : ¬ d = hole := by omega
    rw [if_neg h1]
    have h2 := hJ2 d hd0 hdlt (by omega) (by omega)
    rw [hdp] at h2
    exact h2
  · intro i hi
    rw [List.getElem?_set_ne (by omega)]

theorem std_adjust_loop_spec (value : FrequencyAndHuffNode) (top len : Nat) :
    ∀ (fuel : Nat) (w : List FrequencyAndHuffNode) (hole : Nat),
      len ≤ hole + fuel → HoleDown top len w hole →
      HoleDown top len (std_adjust_loop len value fuel w hole).1
          (std_adjust_loop len value fuel w hole).2 ∧
        ¬ (std_adjust_loop len value fuel w hole).2 < (len - 1) / 2 ∧
        (std_adjust_loop len value fuel w hole).1.length = w.length ∧
        ((std_adjust_loop len value fuel w hole).1.set
          (std_adjust_loop len value fuel w hole).2 value).Perm (w.set hole value) ∧
        ∀ i, len ≤ i → (std_adjust_loop len value fuel w hole).1[i]? = w[i]? := by
  intro fuel
  induction fuel with
  | zero =>
    intro w hole hf hinv
    have := hinv.1
    omega
  | succ fuel ih =>
    intro w hole hf hinv
    by_cases hlow : hole < (len - 1) / 2
    · have hlen := hinv.2.1
      have key : ∀ c, (c = 2 * (hole + 1) - 1 ∨ c = 2 * (hole + 1)) →
          (∀ d, 0 < d → d < len → (d - 1) / 2 = hole → keyAt w c ≤ keyAt w d) →
          std_adjust_loop len value (fuel + 1) w hole
            = std_adjust_loop len value fuel (w.set hole (w.getD c value)) c →
          HoleDown top len (std_adjust_loop len value (fuel + 1) w hole).1
              (std_adjust_loop len value (fuel + 1) w hole).2 ∧
            ¬ (std_adjust_loop len value (fuel + 1) w hole).2 < (len - 1) / 2 ∧
            (std_adjust_loop len value (fuel + 1) w hole).1.length = w.length ∧
            ((std_adjust_loop len value (fuel + 1) w hole).1.set
              (std_adjust_loop len value (fuel + 1) w hole).2 value).Perm (w.set hole value) ∧
            ∀ i, len ≤ i → (std_adjust_loop len value (fuel + 1) w hole).1[i]? = w[i]? := by
        intro c hc hmin hstep
        rw [hstep]
        obtain ⟨s1, s2, s3, s4⟩ := holeDown_step value top len w hole c hinv (by omega)
          (by omega) (by omega) hmin
        obtain ⟨r1, r2, r3, r4, r5⟩ := ih _ c (by omega) s1
        refine ⟨r1, r2, r3.trans s2, r4.trans s3, ?_⟩
        intro i hi
        rw [r5 i hi, s4 i hi]
      have hl1 : 2 * (hole + 1) < w.length := by omega
      have hl2 : 2 * (hole + 1) - 1 < w.length := by omega
      by_cases hcmp : HuffCompare (w.getD (2 * (hole + 1)) value)
          (w.getD (2 * (hole + 1) - 1) value) = true
      · apply key (2 * (hole + 1) - 1) (Or.inl rfl)
        · intro d hd0 hdlt hdp
          rw [huffCompare_true_iff, keyAt_getD w _ value hl1, keyAt_getD w _ value hl2] at hcmp
          have hd : d = 2 * (hole + 1) - 1 ∨ d = 2 * (hole + 1) := by omega
          rcases hd with hd | hd
          · rw [hd]
          · rw [hd]
            omega
        · rw [std_adjust_loop, if_pos hlow]
          dsimp only
          rw [if_pos hcmp]
      · apply key (2 * (hole + 1)) (Or.inr rfl)
        · intro d hd0 hdlt hdp
          rw [huffCompare_true_iff, keyAt_getD w _ value hl1, keyAt_getD w _ value hl2] at hcmp
          have hd : d = 2 * (hole + 1) - 1 ∨ d = 2 * (hole + 1) := by omega
          rcases hd with hd | hd
          · rw [hd]
            omega
          · rw [hd]
        · rw [std_adjust_loop, if_pos hlow]
          dsimp only
          rw [if_neg hcmp]
    · have hstep : std_adjust_loop len value (fuel + 1) w hole = (w, hole) := by
        rw [std_adjust_loop, if_neg hlow]
      rw [hstep]
      exact ⟨hinv, hlow, rfl, List.Perm.refl _, fun _ _ => rfl⟩

theorem std_adjust_heap_spec (w : List FrequencyAndHuffNode) (top len : Nat)
    (value : FrequencyAndHuffNode) (hlt : top < len) (hlen : len ≤ w.length)
    (hheap : HeapOn (top + 1) len w) :
    (std_adjust_heap w top len value).length = w.length ∧
      HeapOn top len (std_adjust_heap w top len value) ∧
      (std_adjust_heap w top len value).Perm (w.set top value) ∧
      ∀ i, len ≤ i → (std_adjust_heap w top len value)[i]? = w[i]? := by
  have hinv0 : HoleDown top len w top :=
    ⟨hlt, hlen, HeapDesc.refl, fun i hi hil ht hne => hheap i hi hil (by omega),
      fun h => absurd h (Nat.lt_irrefl _)⟩
  obtain ⟨r1, r2, r3, r4, r5⟩ := std_adjust_loop_spec value top len len w top (by omega) hinv0
  have finish : ∀ (w2 : List FrequencyAndHuffNode) (h2 : Nat), HoleDown top len w2 h2 →
      (∀ c, 0 < c → c < len → (c - 1) / 2 = h2 → False) →
      w2.length = w.length → (w2.set h2 value).Perm (w.set top value) →
      (∀ i, len ≤ i → w2[i]? = w[i]?) →
      std_adjust_heap w top len value = std_push_heap value top len w2 h2 →
      (std_adjust_heap w top len value).length = w.length ∧
        HeapOn top len (std_adjust_heap w top len value) ∧
        (std_adjust_heap w top len value).Perm (w.set top value) ∧
        ∀ i, len ≤ i → (std_adjust_heap w top len value)[i]? = w[i]? := by
    intro w2 h2 hinv hleaf hl hperm hout heq
    rw [heq]
    obtain ⟨i1, i2, i3, i4, _⟩ := hinv
    obtain ⟨p1, p2, p3, p4⟩ := std_push_heap_spec value top len len w2 h2 (by omega) i1 i2 i3
      (fun i hi hil ht _ hne => i4 i hi hil ht hne)
      (fun _ c hc hcl hcp => (hleaf c hc hcl hcp).elim)
      (fun c hc hcl hcp => (hleaf c hc hcl hcp).elim)
    refine ⟨p1.trans hl, p2, p3.trans hperm, ?_⟩
    intro i hi
    rw [p4 i hi, hout i hi]
  by_cases heven : len % 2 = 0 ∧
      (std_adjust_loop len value len w top).2 = (len - 2) / 2
  · have hlt2 := r1.1
    obtain ⟨s1, s2, s3, s4⟩ := holeDown_step value top len _ _
      (2 * ((std_adjust_loop len value len w top).2 + 1) - 1) r1 (by omega) (by omega) (by omega)
      (by
        intro d hd0 hdlt hdp
        have e : d = 2 * ((std_adjust_loop len value len w top).2 + 1) - 1 := by omega
        rw [e])
    apply finish _ _ s1
    · intro c hc hcl hcp
      omega
    · rw [s2, r3]
    · exact s3.trans r4
    · intro i hi
      rw [s4 i hi, r5 i hi]
    · unfold std_adjust_heap
      dsimp only
      rw [if_pos heven]
  · apply finish _ _ r1
    · intro c hc hcl hcp
      have hlt2 := r1.1
      by_cases hev : len % 2 = 0
      · have hne : ¬ (std_adjust_loop len value len w top).2 = (len - 2) / 2 :=
          fun h => heven ⟨hev, h⟩
        omega
      · omega
    · exact r3
    · exact r4
    · exact r5
    · unfold std_adjust_heap
      dsimp only
      rw [if_neg heven]

theorem heapOn_is_heap (r : List FrequencyAndHuffNode) (n : Nat) (hn : r.length = n)
    (h : HeapOn 0 n r) : is_heap r := by
  rw [is_heap_iff, hn]
  exact h

theorem std_make_loop_spec : ∀ (parent : Nat) (v : List FrequencyAndHuffNode),
    parent < v.length → HeapOn (parent + 1) v.length v →
    (std_make_loop parent v).Perm v ∧ is_heap (std_make_loop parent v) := by
  intro parent
  induction parent with
  | zero =>
    intro v hp hheap
    have hx : v[0]? = some (v[0]) := List.getElem?_eq_getElem hp
    have hhead : v.head? = some (v[0]) := by
      rw [List.head?_eq_getElem?]
      exact hx
    have hstep : std_make_loop 0 v = std_adjust_heap v 0 v.length (v[0]) := by
      rw [std_make_loop, hhead]
    rw [hstep]
    obtain ⟨a1, a2, a3, _⟩ := std_adjust_heap_spec v 0 v.length (v[0]) hp (Nat.le_refl _) hheap
    rw [set_self_eq v 0 _ hx] at a3
    exact ⟨a3, heapOn_is_heap _ _ a1 a2⟩
  | succ parent ih =>
    intro v hp hheap
    have hx : v[parent + 1]? = some (v[parent + 1]) := List.getElem?_eq_getElem hp
    have hstep : std_make_loop (parent + 1) v
        = std_make_loop parent (std_adjust_heap v (parent + 1) v.length (v[parent + 1])) := by
      rw [std_make_loop, hx]
    rw [hstep]
    obtain ⟨a1, a2, a3, _⟩ :=
      std_adjust_heap_spec v (parent + 1) v.length (v[parent + 1]) hp (Nat.le_refl _) hheap
    rw [set_self_eq v _ _ hx] at a3
    have a2b : HeapOn (parent + 1)
        (std_adjust_heap v (parent + 1) v.length (v[parent + 1])).length
        (std_adjust_heap v (parent + 1) v.length (v[parent + 1])) := by
      rw [a1]
      exact a2
    obtain ⟨b1, b2⟩ := ih _ (by omega) a2b
    exact ⟨b1.trans a3, b2⟩

theorem std_make_heap_spec (v : List FrequencyAndHuffNode) :
    (std_make_heap v).Perm v ∧ is_heap (std_make_heap v) := by
  unfold std_make_heap
  by_cases h : v.length < 2
  · rw [if_pos h]
    refine ⟨List.Perm.refl _, ?_⟩
    rw [is_heap_iff]
    intro i hi hil _
    omega
  · rw [if_neg h]
    apply std_make_loop_spec _ v (by omega)
    intro i hi hil ht
    omega

theorem std_pop_heap_spec (v : List FrequencyAndHuffNode) (hne : v ≠ []) (hv : is_heap v) :
    (std_pop_heap v).Perm v ∧ (std_pop_heap v).getLast? = v.head? ∧
      is_heap (std_pop_heap v).dropLast := by
  have hpos : 0 < v.length := List.length_pos.mpr hne
  by_cases hn : v.length > 1
  · have hx0 : v[0]? = some (v[0]) := List.getElem?_eq_getElem hpos
    have hhead : v.head? = some (v[0]) := by
      rw [List.head?_eq_getElem?]
      exact hx0
    have hl : v.length - 1 < v.length := by omega
    have hxl : v[v.length - 1]? = some (v[v.length - 1]) := List.getElem?_eq_getElem hl
    have hlast : v.getLast? = some (v[v.length - 1]) := by
      rw [List.getLast?_eq_getElem?]
      exact hxl
    have hstep : std_pop_heap v
        = std_adjust_heap (v.set (v.length - 1) (v[0])) 0 (v.length - 1) (v[v.length - 1]) := by
      unfold std_pop_heap
      rw [if_pos hn, hlast, hhead]
    rw [hstep, hhead]
    rw [is_heap_iff] at hv
    obtain ⟨a1, a2, a3, a4⟩ := std_adjust_heap_spec (v.set (v.length - 1) (v[0])) 0
      (v.length - 1) (v[v.length - 1]) (by omega) (by rw [List.length_set]; omega)
      (by
        intro i hi hil ht
        rw [keyAt_set _ _ _ _ hl, keyAt_set _ _ _ _ hl, if_neg (by omega), if_neg (by omega)]
        exact hv i hi (by omega) (by omega))
    rw [List.length_set] at a1
    refine ⟨?_, ?_, ?_⟩
    · have h1 := set_set_perm v (v.length - 1) 0 (v[0]) (v[v.length - 1]) hl hpos (by omega) hx0
      rw [set_self_eq v _ _ hxl] at h1
      exact a3.trans h1
    · rw [List.getLast?_eq_getElem?, a1, a4 _ (Nat.le_refl _), List.getElem?_set]
      simp [hl]
    · rw [is_heap_dropLast_iff, a1]
      exact a2
  · have hstep : std_pop_heap v = v := by
      unfold std_pop_heap
      rw [if_neg hn]
    rw [hstep]
    refine ⟨List.Perm.refl _, ?_, ?_⟩
    · rw [List.getLast?_eq_getElem?, List.head?_eq_getElem?]
      have e : v.length - 1 = 0 := by omega
      rw [e]
    · rw [is_heap_dropLast_iff]
      intro i hi hil _
      omega

theorem std_push_spec (v : List FrequencyAndHuffNode) (hv : is_heap v.dropLast) :
    (std_push v).Perm v ∧ is_heap (std_push v) := by
  by_cases hne : v = []
  · subst hne
    refine ⟨List.Perm.refl _, ?_⟩
    intro i x y _ _ hy
    simp [std_push] at hy
  · have hpos : 0 < v.length := List.length_pos.mpr hne
    have hl : v.length - 1 < v.length := by omega
    have hxl : v[v.length - 1]? = some (v[v.length - 1]) := List.getElem?_eq_getElem hl
    have hlast : v.getLast? = some (v[v.length - 1]) := by
      rw [List.getLast?_eq_getElem?]
      exact hxl
    have hstep : std_push v
        = std_push_heap (v[v.length - 1]) 0 v.length v (v.length - 1) := by
      unfold std_push
      rw [hlast]
    rw [hstep]
    rw [is_heap_dropLast_iff] at hv
    obtain ⟨a1, a2, a3, _⟩ := std_push_heap_spec (v[v.length - 1]) 0 v.length v.length v
      (v.length - 1) (by omega) hl (Nat.le_refl _) (heapDesc_zero _)
      (fun i hi hil ht h1 _ => hv i hi (by omega) ht)
      (by
        intro _ c hc hcl hcp
        omega)
      (by
        intro c hc hcl hcp
        omega)
    rw [set_self_eq v _ _ hxl] at a3
    exact ⟨a3, heapOn_is_heap _ _ a1 a2⟩

theorem stlPlatform_lawful : stlPlatform.Lawful where
  word := by decide
  iter_perm := chainOrder_perm
  make_perm := fun v => (std_make_heap_spec v).1
  make_is_heap := fun v => (std_make_heap_spec v).2
  pop_perm := fun v hne hv => (std_pop_heap_spec v hne hv).1
  pop_last := fun v hne hv => (std_pop_heap_spec v hne hv).2.1
  pop_is_heap := fun v hne hv => (std_pop_heap_spec v hne hv).2.2
  push_perm := fun v hv => (std_push_spec v hv).1
  push_is_heap := fun v hv => (std_push_spec v hv).2

/-! ## The claims -/

set_option maxRecDepth 100000

/-- C1 (the code fails it): `decode` builds its tree from a table of its own, filled in the
order in which `encode` stored the entries, and a hash map filled in another order can be
iterated in another order.  On `stlPlatform` the table of `swapInput` is iterated as `0x0B`,
`0x00` by `encode` and as `0x00`, `0x0B` by `decode`; the two counts are equal, the two trees
have their leaves exchanged, and `decode` returns thirteen `0x0B` followed by thirteen `0x00`
for the output of `encode` on thirteen `0x00` followed by thirteen `0x0B`. -/
theorem encode_decode_swaps :
    stlPlatform.Lawful ∧ 2 ≤ swapInput.dedup.length ∧
      stlPlatform.W + swapInput.dedup.length * (1 + stlPlatform.W) ≤ swapInput.length ∧
      (buildFrequencyTable stlPlatform swapInput).entries stlPlatform = [(0x0B, 13), (0x00, 13)] ∧
      ((buildFrequencyTable stlPlatform swapInput).reload stlPlatform).entries stlPlatform
        = [(0x00, 13), (0x0B, 13)] ∧
      encode stlPlatform swapInput [] = .ok (true, swapEncoded) ∧
      decode stlPlatform swapEncoded []
        = .ok (true, List.replicate 13 0x0B ++ List.replicate 13 0x00) ∧
      List.replicate 13 0x0B ++ List.replicate 13 0x00 ≠ swapInput :=
  ⟨stlPlatform_lawful, by decide, by decide, rfl, rfl, rfl, rfl, by decide⟩

/-- C2 (the code fails it): on a buffer of one byte value repeated, long enough to pass the
table-size guard, `encode` does not succeed: `buildHuffmanTree` leaves `NULL` in the root and
an empty leaf table, so the run stops at `assert( pLeafNode != NULL )`, or with `NDEBUG` at the
dereference of the `NULL` root in `destroyTree`.  Shown on 5,000 copies of `0x41`. -/
theorem encode_single_symbol_faults :
    encode refPlatform (List.replicate 5000 0x41) [] = .error .assertFailed ∧
      encode releasePlatform (List.replicate 5000 0x41) [] = .error .nullDeref :=
  ⟨encode_single refPlatform refPlatform_lawful _ []
      (by rw [List.replicate_dedup (by decide)]; rfl) (by rw [List.length_replicate]; decide),
    encode_single releasePlatform releasePlatform_lawful _ []
      (by rw [List.replicate_dedup (by decide)]; rfl) (by rw [List.length_replicate]; decide)⟩

/-- C3: rejection.  `encode` returns failure on an empty buffer and on a buffer shorter than
its serialized table size `W + n * (1 + W)`, and leaves the output buffer as it was. -/
theorem encode_rejects (P : Platform) (buffer out : Buffer)
    (h : buffer = [] ∨ buffer.length < P.W + buffer.dedup.length * (1 + P.W)) :
    encode P buffer out = .ok (false, out) :=
  encode_guard P buffer out h

theorem encode_rejects_witness :
    encode refPlatform [] [1, 2, 3] = .ok (false, [1, 2, 3]) ∧
      encode refPlatform [0x61, 0x62, 0x61] [1, 2, 3] = .ok (false, [1, 2, 3]) :=
  ⟨encode_rejects refPlatform [] [1, 2, 3] (Or.inl rfl),
    encode_rejects refPlatform [0x61, 0x62, 0x61] [1, 2, 3] (Or.inr (by decide))⟩

/-- C4 as stated fails: the output of the buffer `encode` does not start with the magic
identifier. -/
theorem encode_layout_no_magic :
    encode refPlatform sampleInput []
        = .ok (true, [26, 0, 0, 0, 0, 0, 0, 0, 2, 0, 0, 0, 0, 0, 0, 0,
            97, 20, 0, 0, 0, 0, 0, 0, 0, 98, 6, 0, 0, 0, 0, 0, 0, 0, 255, 255, 240, 0]) ∧
      List.take 4 [26, 0, 0, 0, 0, 0, 0, 0, 2, 0, 0, 0, 0, 0, 0, 0,
            97, 20, 0, 0, 0, 0, 0, 0, 0, 98, 6, 0, 0, 0, 0, 0, 0, 0, 255, 255, 240, 0]
        ≠ fileIdBytes :=
  ⟨rfl, by decide⟩

/-- C4, amended: whenever the buffer `encode` succeeds, its output is the input length as
`W` little-endian bytes, then the number of distinct byte values as `W` little-endian bytes,
then one entry per distinct byte value (the byte, then its number of occurrences in the input
as `W` little-endian bytes), then a non-empty payload; there is no magic identifier. -/
theorem encode_layout (P : Platform) (hP : P.Lawful) (buffer out0 out : Buffer)
    (hlen : buffer.length < 2 ^ (8 * P.W))
    (h : encode P buffer out0 = .ok (true, out)) :
    ∃ syms payload : Buffer, syms.Perm buffer.dedup ∧ payload ≠ [] ∧
      out = sizeBytes P buffer.length ++ sizeBytes P syms.length
        ++ syms.flatMap (fun s => s :: sizeBytes P (buffer.count s)) ++ payload := by
  by_cases hrej : buffer = [] ∨ buffer.length < P.W + buffer.dedup.length * (1 + P.W)
  · rw [encode_guard P buffer out0 hrej] at h
    cases h
  · rw [not_or] at hrej
    have hg : P.W + buffer.dedup.length * (1 + P.W) ≤ buffer.length := by omega
    have hpos : 0 < buffer.dedup.length := by
      apply List.length_pos.mpr
      intro h0
      exact hrej.1 (List.dedup_eq_nil buffer |>.mp h0)
    by_cases h1 : buffer.dedup.length = 1
    · rw [encode_single P hP buffer out0 h1 (by rw [h1] at hg; omega)] at h
      cases h
    · obtain ⟨root, lt, payload, k, _, _, _, _, _, _, hbits, hk1, _, henc⟩ :=
        encode_ok P hP buffer out0 (by omega) hg hlen
      rw [henc] at h
      cases h
      refine ⟨((buildFrequencyTable P buffer).entries P).map Prod.fst, payload, ?_, ?_, ?_⟩
      · rw [entries_keys P hP]
        exact (iter_keys_perm P hP _).trans (buildFrequencyTable_keys P buffer)
      · intro h0
        rw [h0] at hbits
        have := congrArg List.length hbits
        simp [bitsOf] at this
        omega
      · rw [saveFrequencyTable_eq, List.length_map, entries_length P hP, List.flatMap_map]
        congr 2
        apply List.flatMap_congr
        intro e he
        have := (table_count_lt P buffer hlen e.1 e.2 (mem_entries_imp P _ e he)).1
        rw [this]

theorem encode_layout_witness :
    refPlatform.Lawful ∧ sampleInput.length < 2 ^ (8 * refPlatform.W) ∧
      ∃ syms payload : Buffer, syms.Perm sampleInput.dedup ∧ payload ≠ [] ∧
        [26, 0, 0, 0, 0, 0, 0, 0, 2, 0, 0, 0, 0, 0, 0, 0,
            97, 20, 0, 0, 0, 0, 0, 0, 0, 98, 6, 0, 0, 0, 0, 0, 0, 0, 255, 255, 240, 0]
          = sizeBytes refPlatform sampleInput.length ++ sizeBytes refPlatform syms.length
            ++ syms.flatMap (fun s => s :: sizeBytes refPlatform (sampleInput.count s))
            ++ payload :=
  ⟨refPlatform_lawful, by decide,
    encode_layout refPlatform refPlatform_lawful sampleInput [] _ (by decide) rfl⟩

/-- C5: magic check of the file-backed decode.  On a file of at least four bytes whose
first four bytes are not the bytes of `FILE_ID`, `decode( filename )` returns failure; the
output buffer, the frequency table and the root are as before the call, and nothing after
the fourth byte is read (the file may end there). -/
theorem decodeFile_bad_magic (P : Platform) (content : Buffer) (s : Huffman)
    (h4 : 4 ≤ content.length) (hm : content.take 4 ≠ fileIdBytes) :
    ∃ s', decodeFile P (some content) s = .ok (false, s') ∧
      s'.m_OutBuffer = s.m_OutBuffer ∧ s'.m_FrequencyTable = s.m_FrequencyTable ∧
      s'.m_Root = s.m_Root ∧ (s.m_File.isOpen = false → s'.m_InBuffer = content) := by
  unfold decodeFile openFile
  by_cases ho : s.m_File.isOpen = true
  · rw [if_pos ho]
    exact ⟨_, rfl, rfl, rfl, rfl, fun h => by rw [h] at ho; cases ho⟩
  · rw [if_neg ho]
    dsimp only [Option.getD]
    have hd := fileIdDiffers_spec content fileIdBytes 0 h4
    rw [List.drop_zero] at hd
    have hlen : fileIdBytes.length = 4 := rfl
    rw [hlen, decide_eq_true hm] at hd
    rewrite [hd]
    exact ⟨_, rfl, rfl, rfl, rfl, fun _ => rfl⟩

theorem decodeFile_bad_magic_witness :
    ∃ s', decodeFile refPlatform (some [0xDE, 0xC0, 0xEF, 0x00]) Huffman.new = .ok (false, s') ∧
      s'.m_OutBuffer = Huffman.new.m_OutBuffer ∧
      s'.m_FrequencyTable = Huffman.new.m_FrequencyTable ∧
      s'.m_Root = Huffman.new.m_Root ∧
      (Huffman.new.m_File.isOpen = false → s'.m_InBuffer = [0xDE, 0xC0, 0xEF, 0x00]) :=
  decodeFile_bad_magic refPlatform [0xDE, 0xC0, 0xEF, 0x00] Huffman.new (by decide) (by decide)

/-- C6: table serialisation round trip.  `saveFrequencyTable` keeps the bytes already in the
buffer, appends exactly `W + |t| * (1 + W)` bytes (the value `nFrequencyTableSize` of the
encoder's guard), and `loadFrequencyTable` at the old length succeeds with a table equal to
`t`: it holds the same count for every byte value (its keys were inserted in the order in
which `t` is iterated), for every table whose counts fit in `W` bytes. -/
theorem save_load_table (P : Platform) (hP : P.Lawful) (p : Buffer) (t : FrequencyTable)
    (ht : ∀ b c, t b = some c → c < 2 ^ (8 * P.W)) :
    (saveFrequencyTable P p t).take p.length = p ∧
      (saveFrequencyTable P p t).length = p.length + (t.size * (1 + P.W) + P.W) ∧
      ∃ t' : FrequencyTable,
        loadFrequencyTable P (saveFrequencyTable P p t) p.length = .ok (true, t') ∧
        (∀ b, t' b = t b) ∧ t'.keys = t.keys ∧ t'.inserted = P.iterOrder t.inserted := by
  refine ⟨?_, ?_, t.reload P, ?_, reload_apply P hP t, ?_, reload_inserted P hP t⟩
  · rw [saveFrequencyTable_eq, List.append_assoc, List.take_left]
  · rw [saveFrequencyTable_length P hP]
    omega
  · have h := load_save P hP p [] t ht
    rw [List.append_nil] at h
    exact h
  · unfold FrequencyTable.keys
    congr 1
    funext b
    rw [reload_apply P hP]

theorem save_load_table_witness :
    refPlatform.Lawful ∧ (∀ b c, sampleTable b = some c → c < 2 ^ (8 * refPlatform.W)) ∧
      (saveFrequencyTable refPlatform [1, 2, 3] sampleTable).take 3 = [1, 2, 3] ∧
      (saveFrequencyTable refPlatform [1, 2, 3] sampleTable).length
        = 3 + (sampleTable.size * (1 + 8) + 8) ∧
      ∃ t' : FrequencyTable,
        loadFrequencyTable refPlatform (saveFrequencyTable refPlatform [1, 2, 3] sampleTable) 3
          = .ok (true, t') ∧
        (∀ b, t' b = sampleTable b) ∧ t'.keys = sampleTable.keys ∧
        t'.inserted = refPlatform.iterOrder sampleTable.inserted :=
  have ht : ∀ b c, sampleTable b = some c → c < 2 ^ (8 * refPlatform.W) := by
    intro b c h
    simp only [sampleTable, assign_apply, empty_apply] at h
    split at h
    · cases h; decide
    · split at h
      · cases h; decide
      · cases h
  ⟨refPlatform_lawful, ht, save_load_table refPlatform refPlatform_lawful [1, 2, 3] sampleTable ht⟩

/-- C7 (the code fails it): `loadFrequencyTable` tests the buffer length against a table size
computed from `nSize` before `nSize` is read, so a buffer that holds the entry count 1 and
nothing after it is not rejected: the first entry is read outside the buffer. -/
theorem loadFrequencyTable_truncated :
    loadFrequencyTable refPlatform (sizeBytes refPlatform 1) 0 = .error .outOfBounds ∧
      loadFrequencyTable refPlatform (sizeBytes refPlatform 0) 1 = .error .outOfBounds :=
  ⟨rfl, rfl⟩

/-- C8 (the code fails it): on the output of `encode` for the sample input with its last
payload byte removed, `decode` reads the buffer at an index beyond its end. -/
theorem decode_truncated_payload :
    ∃ enc, encode refPlatform sampleInput [] = .ok (true, enc) ∧
      decode refPlatform enc.dropLast [] = .error .outOfBounds :=
  ⟨_, rfl, rfl⟩

/-- C9 (the code fails it): the file-backed `encode` adds to `m_FrequencyTable` without
clearing it, so a second call on the same object and file writes doubled counts: both calls
succeed and the two output buffers differ. -/
theorem encodeFile_twice_differs :
    encodeFileTwice refPlatform (some sampleInput) Huffman.new
        = .ok ((true, [222, 192, 239, 190, 26, 0, 0, 0, 0, 0, 0, 0, 2, 0, 0, 0, 0, 0, 0, 0,
              97, 20, 0, 0, 0, 0, 0, 0, 0, 98, 6, 0, 0, 0, 0, 0, 0, 0, 255, 255, 240, 0]),
            (true, [222, 192, 239, 190, 26, 0, 0, 0, 0, 0, 0, 0, 2, 0, 0, 0, 0, 0, 0, 0,
              97, 40, 0, 0, 0, 0, 0, 0, 0, 98, 12, 0, 0, 0, 0, 0, 0, 0, 255, 255, 240, 0])) :=
  rfl

/-- C10: tree shape.  For a table with `n ≥ 2` entries `buildHuffmanTree` succeeds, and the
tree under the returned root has exactly `n` leaves, one for each symbol of the table with
that symbol and its count, and `n - 1` other nodes, each of them with two children. -/
theorem buildHuffmanTree_tree_shape (P : Platform) (hP : P.Lawful) (treeRoot : HuffNode)
    (t : FrequencyTable) (leafNodeTable : Option LeafNodeTable) (hn : 2 ≤ t.size) :
    ∃ root table, buildHuffmanTree P treeRoot t leafNodeTable = .ok (true, root, table) ∧
      (leaves root).length = t.size ∧ (leaves root).Nodup ∧
      (∀ b c, (b, c) ∈ leaves root ↔ t b = some c) ∧
      internalCount root = t.size - 1 ∧ TwoChildren root := by
  obtain ⟨root, table, hbuild, hproper, hlv⟩ :=
    buildHuffmanTree_shape P hP treeRoot t leafNodeTable hn
  have hlen : (leaves root).length = t.size := by
    rw [hlv.length_eq, entries_length P hP]
  refine ⟨root, table, hbuild, hlen, ?_, ?_, ?_, proper_twoChildren root hproper⟩
  · exact hlv.nodup_iff.mpr (entries_nodup P hP t)
  · intro b c
    rw [hlv.mem_iff, mem_entries P hP]
  · have := proper_internalCount root hproper
    omega

theorem buildHuffmanTree_tree_shape_witness :
    refPlatform.Lawful ∧ 2 ≤ sampleTable.size ∧
      ∃ root table, buildHuffmanTree refPlatform .null sampleTable none
          = .ok (true, root, table) ∧
        (leaves root).length = sampleTable.size ∧ (leaves root).Nodup ∧
        (∀ b c, (b, c) ∈ leaves root ↔ sampleTable b = some c) ∧
        internalCount root = sampleTable.size - 1 ∧ TwoChildren root :=
  ⟨refPlatform_lawful, by decide,
    buildHuffmanTree_tree_shape refPlatform refPlatform_lawful .null sampleTable none
      (by decide)⟩

/-- C11 as stated fails: for the table `0x61 ↦ 2 ^ 63, 0x62 ↦ 2 ^ 63` the root's count is 0,
which is neither the sum of its children's counts nor the sum of the counts of the table. -/
theorem overflow_root_weight :
    buildHuffmanTree refPlatform .null overflowTable none = .ok (true, overflowRoot, none) ∧
      ¬ WeightsAdd overflowRoot ∧ nodeCount overflowRoot ≠ overflowTable.total :=
  ⟨rfl, by simp [overflowRoot, WeightsAdd, nodeCount], by decide⟩

/-- C11, amended: in the tree `buildHuffmanTree` returns for a table with at least two
symbols, the count of every internal node is the sum of the counts of its two children
modulo `2 ^ (8 * W)`; when the counts of the table sum to less than `2 ^ (8 * W)` it is the
sum itself and the root's count is the sum of all counts, which for a table produced by
`buildFrequencyTable` is the input length. -/
theorem buildHuffmanTree_tree_weights (P : Platform) (hP : P.Lawful) (treeRoot : HuffNode)
    (t : FrequencyTable) (leafNodeTable : Option LeafNodeTable) (hn : 2 ≤ t.size) :
    ∃ root table, buildHuffmanTree P treeRoot t leafNodeTable = .ok (true, root, table) ∧
      WeightsAddMod P root ∧
      (t.total < 2 ^ (8 * P.W) → WeightsAdd root ∧ nodeCount root = t.total) ∧
      (∀ buffer : Buffer, buffer.length < 2 ^ (8 * P.W) → t = buildFrequencyTable P buffer →
        WeightsAdd root ∧ nodeCount root = buffer.length) := by
  obtain ⟨root, table, hbuild, hmod, hexact⟩ :=
    buildHuffmanTree_weights P hP treeRoot t leafNodeTable hn
  refine ⟨root, table, hbuild, hmod, hexact, ?_⟩
  intro buffer hlen ht
  have htot : t.total = buffer.length := by
    rw [ht]
    exact buildFrequencyTable_total P buffer hlen
  rw [← htot]
  exact hexact (by rw [htot]; exact hlen)

theorem buildHuffmanTree_tree_weights_witness :
    refPlatform.Lawful ∧ 2 ≤ sampleTable.size ∧
      ∃ root table, buildHuffmanTree refPlatform .null sampleTable none
          = .ok (true, root, table) ∧
        WeightsAddMod refPlatform root ∧
        (sampleTable.total < 2 ^ (8 * refPlatform.W) →
          WeightsAdd root ∧ nodeCount root = sampleTable.total) ∧
        (∀ buffer : Buffer, buffer.length < 2 ^ (8 * refPlatform.W) →
          sampleTable = buildFrequencyTable refPlatform buffer →
          WeightsAdd root ∧ nodeCount root = buffer.length) :=
  ⟨refPlatform_lawful, by decide,
    buildHuffmanTree_tree_weights refPlatform refPlatform_lawful .null sampleTable none
      (by decide)⟩

/-- C12 (the code fails it): for the table with the single entry `0x41 ↦ 5000`,
`buildHuffmanTree` returns `true` and leaves `NULL` in the root: the loop never runs, and
`treeRoot` receives `pNode`, which is still `NULL`. -/
theorem buildHuffmanTree_single_symbol :
    singleTable.size = 1 ∧
      buildHuffmanTree refPlatform .null singleTable none = .ok (true, .null, none) :=
  ⟨by decide, rfl⟩

/-- C13 (the code fails it): for `"abc"` repeated 400 times the code bits number 2000 and
the payload has 251 bytes, not 250: the block `if( currentBit < 8 )` after the loop always
runs, so a whole byte of padding follows when no partial byte is left. -/
theorem encode_abc_payload_size :
    ∃ (payload : Buffer) (code : Byte → List Bool),
      encode refPlatform abcInput []
        = .ok (true, saveFrequencyTable refPlatform (sizeBytes refPlatform 1200) abcTable
            ++ payload) ∧
      (∀ b ∈ abcInput, leafAt abcRoot (code b) = some b) ∧
      (abcInput.flatMap code).length = 2000 ∧
      bitsOf payload = abcInput.flatMap code ++ List.replicate 8 false ∧
      payload.length = 251 := by
  have hsize : abcInput.dedup.length = 3 := by
    rw [← buildFrequencyTable_size refPlatform, abcInput_table]
    decide
  obtain ⟨root, lt, payload, k, hbuild, _, _, hlv, _, hcodes, hbits, hk1, hk8, henc⟩ :=
    encode_ok refPlatform refPlatform_lawful abcInput []
      (by rw [hsize]; decide) (by rw [hsize, abcInput_length]; decide)
      (by rw [abcInput_length]; decide)
  have hroot : root = abcRoot := by
    have h := buildHuffmanTree_root refPlatform _ _ _ _ _ hbuild
    rw [abcInput_table, abcRoot_built] at h
    simp only [Except.ok.injEq, Prod.mk.injEq, true_and, and_true] at h
    exact h.symm
  subst hroot
  have hnd : ((leaves abcRoot).map Prod.fst).Nodup := by decide
  have ha : codeOf abcRoot lt 0x61 = [true, false] :=
    leafAt_unique abcRoot _ _ 0x61 hnd
      (hcodes 0x61 ((abcInput_mem 0x61).mpr (Or.inl rfl))) rfl
  have hb : codeOf abcRoot lt 0x62 = [true, true] :=
    leafAt_unique abcRoot _ _ 0x62 hnd
      (hcodes 0x62 ((abcInput_mem 0x62).mpr (Or.inr (Or.inl rfl)))) rfl
  have hc : codeOf abcRoot lt 0x63 = [false] :=
    leafAt_unique abcRoot _ _ 0x63 hnd
      (hcodes 0x63 ((abcInput_mem 0x63).mpr (Or.inr (Or.inr rfl)))) rfl
  have hL : (abcInput.flatMap (codeOf abcRoot lt)).length = 2000 := by
    rw [abcInput, length_flatMap_flatten_replicate]
    simp only [List.flatMap_cons, List.flatMap_nil, ha, hb, hc]
    rfl
  have hpl := payload_length payload _ k hbits hk1 hk8
  rw [hL] at hpl
  have hk : k = 8 := by
    have h := congrArg List.length hbits
    rw [bitsOf_length, List.length_append, List.length_replicate, hL, hpl] at h
    omega
  rw [abcInput_length, abcInput_table] at henc
  rw [hk] at hbits
  exact ⟨payload, codeOf abcRoot lt, henc, hcodes, hL, hbits, hpl⟩

/-- C14 (the code fails it): the tree that `decode` builds can differ in shape from the tree
of `encode` (see C1), and then `decode` does not stop after the `L` code bits.  On
`stlPlatform` the payload of `paddingInput` holds 121 code bits; in the tree of `decode` the
leaf `0x00` and the node above `0x0B` and `0x16` have changed places, `decode` takes its
last byte from the last code bit and the padding, and with the 7 bits of padding set it
returns another last byte. -/
theorem decode_reads_padding :
    stlPlatform.Lawful ∧
      encode stlPlatform paddingInput [] = .ok (true, paddingEncoded) ∧
      buildHuffmanTree stlPlatform .null (buildFrequencyTable stlPlatform paddingInput) none
        = .ok (true, paddingRoot, none) ∧
      buildHuffmanTree stlPlatform .null
          ((buildFrequencyTable stlPlatform paddingInput).reload stlPlatform) none
        = .ok (true, paddingDecodeRoot, none) ∧
      weightedPathLength (buildFrequencyTable stlPlatform paddingInput) paddingRoot = 121 ∧
      paddingEncodedSet.length = paddingEncoded.length ∧
      paddingEncodedSet.take 61 = paddingEncoded.take 61 ∧
      (bitsOf (paddingEncodedSet.drop 61)).take 121
        = (bitsOf (paddingEncoded.drop 61)).take 121 ∧
      (bitsOf (paddingEncoded.drop 61)).drop 121 = List.replicate 7 false ∧
      decode stlPlatform paddingEncoded []
        = .ok (true, [22, 22, 22, 22, 22, 22, 22, 22, 22, 22, 0, 44, 33, 0, 44, 33, 0, 44, 33,
            0, 44, 44, 0, 11, 11, 11, 11, 11, 11, 0, 33, 33, 33, 33, 33, 33, 33, 33, 33, 33,
            0, 0, 0, 0, 0, 0, 0, 0, 0, 0, 0, 0, 0]) ∧
      decode stlPlatform paddingEncodedSet []
        = .ok (true, [22, 22, 22, 22, 22, 22, 22, 22, 22, 22, 0, 44, 33, 0, 44, 33, 0, 44, 33,
            0, 44, 44, 0, 11, 11, 11, 11, 11, 11, 0, 33, 33, 33, 33, 33, 33, 33, 33, 33, 33,
            0, 0, 0, 0, 0, 0, 0, 0, 0, 0, 0, 0, 22]) :=
  ⟨stlPlatform_lawful, rfl, rfl, rfl, by decide, by decide, by decide, by decide, by decide,
    rfl, rfl⟩

/-- C15: payload contents.  For an accepted input with at least two distinct byte values,
the payload bits, each byte most significant bit first, are the root-to-leaf paths of the
input bytes in input order (`false` for a left child, `true` for a right child) in the tree
built from the input's frequency table, followed by zero bits only. -/
theorem payload_contents (P : Platform) (hP : P.Lawful) (buffer out0 : Buffer)
    (h2 : 2 ≤ buffer.dedup.length)
    (hg : P.W + buffer.dedup.length * (1 + P.W) ≤ buffer.length)
    (hlen : buffer.length < 2 ^ (8 * P.W)) :
    ∃ (root : HuffNode) (table : Option LeafNodeTable) (payload : Buffer)
      (code : Byte → List Bool) (k : Nat),
      buildHuffmanTree P .null (buildFrequencyTable P buffer) none = .ok (true, root, table) ∧
      (∀ b ∈ buffer, ∀ path, leafAt root path = some b ↔ path = code b) ∧
      encode P buffer out0
        = .ok (true, saveFrequencyTable P (sizeBytes P buffer.length)
            (buildFrequencyTable P buffer) ++ payload) ∧
      bitsOf payload = buffer.flatMap code ++ List.replicate k false := by
  obtain ⟨root, lt, payload, k, hbuild, _, _, hlv, _, hcodes, hbits, _, _, henc⟩ :=
    encode_ok P hP buffer out0 h2 hg hlen
  refine ⟨root, none, payload, codeOf root lt, k, buildHuffmanTree_root P _ _ _ _ _ hbuild,
    ?_, henc, hbits⟩
  intro b hb path
  constructor
  · intro hpath
    exact leafAt_unique root _ _ b (leaves_keys_nodup P hP _ root hlv) hpath (hcodes b hb)
  · intro hpath
    rw [hpath]
    exact hcodes b hb

theorem payload_contents_witness :
    refPlatform.Lawful ∧ 2 ≤ sampleInput.dedup.length ∧
      refPlatform.W + sampleInput.dedup.length * (1 + refPlatform.W) ≤ sampleInput.length ∧
      sampleInput.length < 2 ^ (8 * refPlatform.W) ∧
      ∃ (root : HuffNode) (table : Option LeafNodeTable) (payload : Buffer)
        (code : Byte → List Bool) (k : Nat),
        buildHuffmanTree refPlatform .null (buildFrequencyTable refPlatform sampleInput) none
          = .ok (true, root, table) ∧
        (∀ b ∈ sampleInput, ∀ path, leafAt root path = some b ↔ path = code b) ∧
        encode refPlatform sampleInput [5]
          = .ok (true, saveFrequencyTable refPlatform (sizeBytes refPlatform sampleInput.length)
              (buildFrequencyTable refPlatform sampleInput) ++ payload) ∧
        bitsOf payload = sampleInput.flatMap code ++ List.replicate k false :=
  ⟨refPlatform_lawful, by decide, by decide, by decide,
    payload_contents refPlatform refPlatform_lawful sampleInput [5]
      (by decide) (by decide) (by decide)⟩

/-- C16: codes are free of prefixes.  In the tree built for a table with at least two
symbols every symbol of the table has exactly one root-to-leaf bit sequence, that sequence is
not empty, and the sequence of one symbol is never the beginning of the sequence of a
different symbol. -/
theorem buildHuffmanTree_codes (P : Platform) (hP : P.Lawful) (treeRoot : HuffNode)
    (t : FrequencyTable) (leafNodeTable : Option LeafNodeTable) (hn : 2 ≤ t.size) :
    ∃ root table, buildHuffmanTree P treeRoot t leafNodeTable = .ok (true, root, table) ∧
      (∀ s c, t s = some c → ∃ code, ∀ path, leafAt root path = some s ↔ path = code) ∧
      (∀ s code, leafAt root code = some s → code ≠ []) ∧
      (∀ s1 s2 code1 code2, leafAt root code1 = some s1 → leafAt root code2 = some s2 →
        s1 ≠ s2 → ∀ ext, code2 ≠ code1 ++ ext) := by
  obtain ⟨root, table, hbuild, hproper, hshape, hlv, _, _⟩ :=
    buildHuffmanTree_spec P hP treeRoot t none hn (fun f hf => by cases hf)
  obtain ⟨root', table', hbuild', _, _⟩ :=
    buildHuffmanTree_shape P hP treeRoot t leafNodeTable hn
  have hsame : root' = root := by
    have h1 := buildHuffmanTree_root P _ _ _ _ _ hbuild'
    have h2 := buildHuffmanTree_root P _ _ _ _ _ hbuild
    rw [h1] at h2
    simp only [Except.ok.injEq, Prod.mk.injEq, true_and, and_true] at h2
    exact h2
  subst hsame
  have hnd := leaves_keys_nodup P hP t root' hlv
  refine ⟨root', table', hbuild', ?_, ?_, ?_⟩
  · intro s c hsc
    have hmem : (s, c) ∈ leaves root' := hlv.mem_iff.mpr ((mem_entries P hP t (s, c)).mpr hsc)
    obtain ⟨code, hcode⟩ := leafAt_exists root' (s, c) hproper hmem
    refine ⟨code, fun path => ⟨fun hpath => ?_, fun hpath => by rw [hpath]; exact hcode⟩⟩
    exact leafAt_unique root' _ _ s hnd hpath hcode
  · intro s code hcode hnil
    obtain ⟨c, l, r, hroot⟩ := hshape
    rw [hnil, hroot] at hcode
    rw [hroot] at hproper
    exact leafAt_nil_internal 0 c l r false hproper s hcode
  · intro s1 s2 code1 code2 h1 h2 hne ext hext
    by_cases he : ext = []
    · rw [he, List.append_nil] at hext
      rw [hext, h1] at h2
      cases h2
      exact hne rfl
    · have := leafAt_extend root' code1 ext s1 h1 he
      rw [← hext, h2] at this
      cases this

theorem buildHuffmanTree_codes_witness :
    refPlatform.Lawful ∧ 2 ≤ sampleTable.size ∧
      ∃ root table, buildHuffmanTree refPlatform .null sampleTable none
          = .ok (true, root, table) ∧
        (∀ s c, sampleTable s = some c →
          ∃ code, ∀ path, leafAt root path = some s ↔ path = code) ∧
        (∀ s code, leafAt root code = some s → code ≠ []) ∧
        (∀ s1 s2 code1 code2, leafAt root code1 = some s1 → leafAt root code2 = some s2 →
          s1 ≠ s2 → ∀ ext, code2 ≠ code1 ++ ext) :=
  ⟨refPlatform_lawful, by decide,
    buildHuffmanTree_codes refPlatform refPlatform_lawful .null sampleTable none (by decide)⟩

/-- C17: frequency counting.  The table `buildFrequencyTable` returns for a buffer has as
keys exactly the byte values of the buffer, each with its number of occurrences; its counts
sum to the buffer length, and it is empty exactly when the buffer is. -/
theorem buildFrequencyTable_counts (P : Platform) (buffer : Buffer)
    (hlen : buffer.length < 2 ^ (8 * P.W)) :
    (∀ b, b ∈ (buildFrequencyTable P buffer).keys ↔ b ∈ buffer) ∧
      (∀ b, buildFrequencyTable P buffer b
        = if b ∈ buffer then some (buffer.count b) else none) ∧
      (buildFrequencyTable P buffer).total = buffer.length ∧
      ((buildFrequencyTable P buffer).size = 0 ↔ buffer = []) := by
  refine ⟨?_, fun b => buildFrequencyTable_mem P buffer b hlen,
    buildFrequencyTable_total P buffer hlen, ?_⟩
  · intro b
    rw [(buildFrequencyTable_keys P buffer).mem_iff, List.mem_dedup]
  · rw [buildFrequencyTable_size, List.length_eq_zero]
    exact List.dedup_eq_nil buffer

theorem buildFrequencyTable_counts_witness :
    sampleInput.length < 2 ^ (8 * refPlatform.W) ∧
      (∀ b, b ∈ (buildFrequencyTable refPlatform sampleInput).keys ↔ b ∈ sampleInput) ∧
      (∀ b, buildFrequencyTable refPlatform sampleInput b
        = if b ∈ sampleInput then some (sampleInput.count b) else none) ∧
      (buildFrequencyTable refPlatform sampleInput).total = sampleInput.length ∧
      ((buildFrequencyTable refPlatform sampleInput).size = 0 ↔ sampleInput = []) :=
  ⟨by decide, buildFrequencyTable_counts refPlatform sampleInput (by decide)⟩

/-- C18: the file form refines the buffer form.  On a freshly constructed object and a file
with contents `b`, `encode( filename )` succeeds exactly when `encode( b, out )` succeeds, and
then `m_OutBuffer` is the four bytes `DE C0 EF BE` followed by `out`. -/
theorem encodeFile_refines_encode (P : Platform) (b out0 : Buffer) :
    (∀ out, encode P b out0 = .ok (true, out) →
      ∃ s, encodeFile P (some b) Huffman.new = .ok (true, s) ∧
        s.m_OutBuffer = [0xDE, 0xC0, 0xEF, 0xBE] ++ out) ∧
      (∀ s, encodeFile P (some b) Huffman.new = .ok (true, s) →
        ∃ out, encode P b out0 = .ok (true, out) ∧
          s.m_OutBuffer = [0xDE, 0xC0, 0xEF, 0xBE] ++ out) := by
  have h := encodeFile_new P b out0
  rw [fileIdBytes_eq] at h
  constructor
  · intro out henc
    rw [henc] at h
    cases hf : encodeFile P (some b) Huffman.new with
    | error e =>
      rw [hf] at h
      cases h
    | ok r =>
      obtain ⟨flag, s⟩ := r
      rw [hf] at h
      simp only [Except.map, Except.ok.injEq, Prod.mk.injEq, if_true] at h
      obtain ⟨hflag, hout⟩ := h
      subst hflag
      exact ⟨s, rfl, hout⟩
  · intro s hf
    rw [hf] at h
    cases henc : encode P b out0 with
    | error e =>
      rw [henc] at h
      cases h
    | ok r =>
      obtain ⟨flag, out⟩ := r
      rw [henc] at h
      simp only [Except.map, Except.ok.injEq, Prod.mk.injEq] at h
      obtain ⟨hflag, hout⟩ := h
      subst hflag
      rw [if_pos rfl] at hout
      exact ⟨out, rfl, hout⟩

theorem encodeFile_refines_encode_witness :
    encode refPlatform sampleInput []
        = .ok (true, [26, 0, 0, 0, 0, 0, 0, 0, 2, 0, 0, 0, 0, 0, 0, 0,
            97, 20, 0, 0, 0, 0, 0, 0, 0, 98, 6, 0, 0, 0, 0, 0, 0, 0, 255, 255, 240, 0]) ∧
      ∃ s, encodeFile refPlatform (some sampleInput) Huffman.new = .ok (true, s) ∧
        s.m_OutBuffer = [0xDE, 0xC0, 0xEF, 0xBE]
          ++ [26, 0, 0, 0, 0, 0, 0, 0, 2, 0, 0, 0, 0, 0, 0, 0,
            97, 20, 0, 0, 0, 0, 0, 0, 0, 98, 6, 0, 0, 0, 0, 0, 0, 0, 255, 255, 240, 0] :=
  ⟨rfl, (encodeFile_refines_encode refPlatform sampleInput []).1 _ rfl⟩

/-- C19 as stated fails: in the first pass of the loop for the table
`0x61 ↦ 2 ^ 63, 0x62 ↦ 2 ^ 63` the new node is put back with the key 0, not with the sum
`2 ^ 64` of the two keys removed. -/
theorem loopBody_overflow :
    ∃ f1 f2 parent key,
      loopBody refPlatform (refPlatform.make_heap (initialNodes refPlatform overflowTable)) none
        = .ok (f1, f2, parent, [(key, parent)], none) ∧
      key ≠ f1.1 + f2.1 :=
  ⟨(2 ^ 63, .node 0x61 (2 ^ 63) .null .null true), (2 ^ 63, .node 0x62 (2 ^ 63) .null .null true),
    overflowRoot, 0, rfl, by decide⟩

/-- C19, amended: in every pass of the loop of `buildHuffmanTree` (a heap of at least two
pairs with non-null nodes), the two pairs removed have the two smallest keys of the heap
(first removed ≤ second removed ≤ every pair left), the first removed becomes the left and
the second the right child of the new node, and the new node is put back with the sum of the
two keys modulo `2 ^ (8 * W)`: the sum itself whenever it is below `2 ^ (8 * W)`. -/
theorem loopBody_greedy (P : Platform) (hP : P.Lawful) (v : List FrequencyAndHuffNode)
    (leafNodeTable : Option LeafNodeTable) (hh : is_heap v) (h2 : 2 ≤ v.length)
    (hnn : ∀ p ∈ v, p.2 ≠ .null) :
    ∃ f1 f2 rest parent v' table,
      loopBody P v leafNodeTable = .ok (f1, f2, parent, v', table) ∧
      (∀ fuel pNode, buildLoop P (fuel + 1) v pNode leafNodeTable
        = buildLoop P fuel v' parent table) ∧
      v.Perm (f1 :: f2 :: rest) ∧ f1.1 ≤ f2.1 ∧ (∀ p ∈ rest, f2.1 ≤ p.1) ∧
      parent = .node 0 (wrap P (nodeCount f1.2 + nodeCount f2.2)) f1.2 f2.2 false ∧
      v'.Perm ((wrap P (f1.1 + f2.1), parent) :: rest) ∧ is_heap v' ∧
      (f1.1 + f2.1 < 2 ^ (8 * P.W) → wrap P (f1.1 + f2.1) = f1.1 + f2.1) := by
  obtain ⟨f1, f2, rest, v', table, hbody, hperm, h12, hrest, hperm', hheap'⟩ :=
    loopBody_spec P hP v leafNodeTable hh h2 hnn
  refine ⟨f1, f2, rest, _, v', table, hbody, ?_, hperm, h12, hrest, rfl, hperm', hheap', ?_⟩
  · intro fuel pNode
    rw [buildLoop_step P fuel v pNode leafNodeTable (by omega), hbody]
  · intro hlt
    exact Nat.mod_eq_of_lt hlt

theorem loopBody_greedy_witness :
    refPlatform.Lawful ∧
      is_heap (refPlatform.make_heap (initialNodes refPlatform sampleTable)) ∧
      2 ≤ (refPlatform.make_heap (initialNodes refPlatform sampleTable)).length ∧
      (∀ p ∈ refPlatform.make_heap (initialNodes refPlatform sampleTable), p.2 ≠ .null) ∧
      ∃ f1 f2 rest parent v' table,
        loopBody refPlatform (refPlatform.make_heap (initialNodes refPlatform sampleTable)) none
          = .ok (f1, f2, parent, v', table) ∧
        (∀ fuel pNode, buildLoop refPlatform (fuel + 1)
            (refPlatform.make_heap (initialNodes refPlatform sampleTable)) pNode none
          = buildLoop refPlatform fuel v' parent table) ∧
        (refPlatform.make_heap (initialNodes refPlatform sampleTable)).Perm
          (f1 :: f2 :: rest) ∧
        f1.1 ≤ f2.1 ∧ (∀ p ∈ rest, f2.1 ≤ p.1) ∧
        parent = .node 0 (wrap refPlatform (nodeCount f1.2 + nodeCount f2.2)) f1.2 f2.2 false ∧
        v'.Perm ((wrap refPlatform (f1.1 + f2.1), parent) :: rest) ∧ is_heap v' ∧
        (f1.1 + f2.1 < 2 ^ (8 * refPlatform.W) → wrap refPlatform (f1.1 + f2.1) = f1.1 + f2.1) :=
  ⟨refPlatform_lawful, refPlatform_lawful.make_is_heap _, by decide, by decide,
    loopBody_greedy refPlatform refPlatform_lawful _ none (refPlatform_lawful.make_is_heap _)
      (by decide) (by decide)⟩

/-- C20 as stated fails: for the table with the four counts `2 ^ 63` the tree built has the
leaf depths 1, 3, 3, 2, and the tree with its four leaves at depth 2 has a smaller weighted
path length. -/
theorem overflow_tree_not_optimal :
    2 ≤ overflowTable4.size ∧
      buildHuffmanTree refPlatform .null overflowTable4 none
        = .ok (true, overflowRoot4, none) ∧
      balancedRoot4 ≠ .null ∧ TwoChildren balancedRoot4 ∧
      ((leafDepths 0 balancedRoot4).map (fun p => p.1)).Perm overflowTable4.keys ∧
      weightedPathLength overflowTable4 balancedRoot4
        < weightedPathLength overflowTable4 overflowRoot4 :=
  ⟨by decide, rfl, by simp [balancedRoot4], by simp [TwoChildren, balancedRoot4], by decide,
    by decide⟩

/-- C20, amended: for every frequency table with at least two symbols whose counts sum to
less than `2 ^ (8 * W)`, the tree `buildHuffmanTree` returns has the least weighted path
length among the trees in which every inner node has two children and whose leaves are
exactly the symbols of the table; and for an input with this table the number of code bits
that `encode` packs is that weighted path length and is no more than the number of bits of
any code for the input in which no code word of a symbol begins that of another. -/
theorem buildHuffmanTree_optimal (P : Platform) (hP : P.Lawful) (treeRoot : HuffNode)
    (t : FrequencyTable) (leafNodeTable : Option LeafNodeTable) (hn : 2 ≤ t.size)
    (htot : t.total < 2 ^ (8 * P.W)) :
    ∃ root table, buildHuffmanTree P treeRoot t leafNodeTable = .ok (true, root, table) ∧
      (∀ other : HuffNode, other ≠ .null → TwoChildren other →
        ((leafDepths 0 other).map (fun p => p.1)).Perm t.keys →
        weightedPathLength t root ≤ weightedPathLength t other) ∧
      (∀ buffer out0 : Buffer, buildFrequencyTable P buffer = t →
        buffer.length < 2 ^ (8 * P.W) →
        P.W + buffer.dedup.length * (1 + P.W) ≤ buffer.length →
        ∃ (payload : Buffer) (code : Byte → List Bool) (k : Nat),
          encode P buffer out0
            = .ok (true, saveFrequencyTable P (sizeBytes P buffer.length) t ++ payload) ∧
          (∀ b ∈ buffer, leafAt root (code b) = some b) ∧
          bitsOf payload = buffer.flatMap code ++ List.replicate k false ∧
          (buffer.flatMap code).length = weightedPathLength t root ∧
          ∀ code2 : Byte → List Bool,
            (∀ a ∈ buffer, ∀ b ∈ buffer, a ≠ b → ∀ ext, code2 b ≠ code2 a ++ ext) →
            (buffer.flatMap code).length ≤ (buffer.flatMap code2).length) := by
  obtain ⟨root, table, hbuild, _, hlv⟩ := buildHuffmanTree_shape P hP treeRoot t leafNodeTable hn
  have hcost := buildHuffmanTree_fieldCost P hP treeRoot t leafNodeTable hn htot root table
    hbuild
  have hwpl := weightedPathLength_fieldCost P t root hlv
  refine ⟨root, table, hbuild, ?_, ?_⟩
  · intro other hne h2 hsyms
    obtain ⟨D, hDw, hDf, hDc⟩ := tree_pairing P hP t other hne h2 hsyms
    rw [hwpl, ← hDc]
    exact hcost D hDw hDf
  · intro buffer out0 ht hlen hg
    subst ht
    have hkeys := buildFrequencyTable_keys P buffer
    have hmem : ∀ s ∈ (buildFrequencyTable P buffer).keys, s ∈ buffer := fun s hs =>
      List.mem_dedup.mp (hkeys.mem_iff.mp hs)
    have h2 : 2 ≤ buffer.dedup.length := by
      rw [← buildFrequencyTable_size P buffer]
      exact hn
    obtain ⟨root2, lt, payload, k, hbuild2, _, _, _, _, hcodes, hbits, _, _, henc⟩ :=
      encode_ok P hP buffer out0 h2 hg hlen
    have hroot : root2 = root := buildHuffmanTree_root_eq P _ _ _ _ _ _ _ _ _ hbuild2 hbuild
    subst hroot
    have hL : (buffer.flatMap (codeOf root2 lt)).length
        = weightedPathLength (buildFrequencyTable P buffer) root2 := by
      rw [codeBits_table P buffer _ hlen]
      exact (weightedPathLength_codes P hP _ root2 hlv _
        (fun s hs => hcodes s (hmem s hs))).symm
    refine ⟨payload, codeOf root2 lt, k, henc, hcodes, hbits, hL, ?_⟩
    intro code2 hfree
    obtain ⟨D, hDw, hDf, hDc⟩ := code_pairing P hP (buildFrequencyTable P buffer) code2
      (by omega) (fun a ha b hb => hfree a (hmem a ha) b (hmem b hb))
    rw [hL, hwpl, codeBits_table P buffer code2 hlen]
    exact Nat.le_trans (hcost D hDw hDf) hDc

theorem buildHuffmanTree_optimal_witness :
    refPlatform.Lawful ∧ 2 ≤ (buildFrequencyTable refPlatform sampleInput).size ∧
      (buildFrequencyTable refPlatform sampleInput).total < 2 ^ (8 * refPlatform.W) ∧
      ∃ root table,
        buildHuffmanTree refPlatform .null (buildFrequencyTable refPlatform sampleInput) none
          = .ok (true, root, table) ∧
        (∀ other : HuffNode, other ≠ .null → TwoChildren other →
          ((leafDepths 0 other).map (fun p => p.1)).Perm
            (buildFrequencyTable refPlatform sampleInput).keys →
          weightedPathLength (buildFrequencyTable refPlatform sampleInput) root
            ≤ weightedPathLength (buildFrequencyTable refPlatform sampleInput) other) ∧
        (∀ buffer out0 : Buffer,
          buildFrequencyTable refPlatform buffer
            = buildFrequencyTable refPlatform sampleInput →
          buffer.length < 2 ^ (8 * refPlatform.W) →
          refPlatform.W + buffer.dedup.length * (1 + refPlatform.W) ≤ buffer.length →
          ∃ (payload : Buffer) (code : Byte → List Bool) (k : Nat),
            encode refPlatform buffer out0
              = .ok (true, saveFrequencyTable refPlatform
                  (sizeBytes refPlatform buffer.length)
                  (buildFrequencyTable refPlatform sampleInput) ++ payload) ∧
            (∀ b ∈ buffer, leafAt root (code b) = some b) ∧
            bitsOf payload = buffer.flatMap code ++ List.replicate k false ∧
            (buffer.flatMap code).length
              = weightedPathLength (buildFrequencyTable refPlatform sampleInput) root ∧
            ∀ code2 : Byte → List Bool,
              (∀ a ∈ buffer, ∀ b ∈ buffer, a ≠ b → ∀ ext, code2 b ≠ code2 a ++ ext) →
              (buffer.flatMap code).length ≤ (buffer.flatMap code2).length) :=
  ⟨refPlatform_lawful, by decide, by decide,
    buildHuffmanTree_optimal refPlatform refPlatform_lawful .null
      (buildFrequencyTable refPlatform sampleInput) none (by decide) (by decide)⟩

end Huffman
end Encoding
